import Mathlib

/-!
# go-geo-cache-api: quadtree spatial index and record store

A shallow embedding of `geostore/geostore.go` and `model/sensor_store.go`, followed by
the properties proved about it.

Modelling conventions
* `float64` coordinates are exact rationals (`ℚ`): comparisons and the midpoint
  computation of `split` are carried out without rounding, NaN or infinities.  The
  containment test alone is also given on IEEE 754 values (namespace `geostore.ieee`),
  where a NaN coordinate changes its outcome.
* Go `int` is `Int`, `uint64` is `Nat` (with an explicit `% 2^64` where a counter is
  incremented).
* A Go call either returns, panics (nil dereference), blocks forever on a channel, or
  has not returned within the recursion / iteration budget given to the model
  (`Outcome`).  "The call terminates" means: some budget yields `ret`; "the call never
  returns" means: no budget does.
* Mutexes are not modelled: every operation runs to completion on its own.
* The unexported `QuadTree.id` (drawn from the package counter `quadTreeId` and read
  only by `printMap`) is not part of the model.
* `QuadTree.QuadTrees` holds the same four pointers as `NW, NE, SW, SE` (both are
  assigned once, together, by `split`); the model keeps the four pointer fields and
  reads the slice off them.
* The record store keeps `*Cache` pointers and `map[string]bool` references; the model
  carries the objects they refer to in two heaps (lists indexed by address), so that
  sharing between the indices is kept.
* A nil slice and an empty slice are both the empty list.
-/

/-- How a modelled Go call ends. -/
inductive Outcome (α : Type) where
  /-- the call returned `a` -/
  | ret (a : α)
  /-- the call panicked (nil pointer dereference) -/
  | panic
  /-- the goroutine is blocked forever on a channel operation -/
  | blocked
  /-- the budget given to the model ran out before the call returned -/
  | outOfFuel


namespace Outcome

/-- Sequencing: run `f` on the returned value, propagate every other ending. -/
def bind {α β : Type} (x : Outcome α) (f : α → Outcome β) : Outcome β :=
  match x with
  | ret a => f a
  | panic => panic
  | blocked => blocked
  | outOfFuel => outOfFuel

end Outcome

namespace geostore

/-- Go: `func GpsToAbsolute(x, y float64) (xAbs, yAbs float64)`. -/
def GpsToAbsolute (x y : ℚ) : ℚ × ℚ :=
  (x + 180, y + 90)

/-- Go: `type Node struct { X, Y float64; Id uint64 }`. -/
structure Node where
  X : ℚ
  Y : ℚ
  Id : Nat
deriving DecidableEq

/-- Go: `func NewNode(long, lat float64, id uint64) *Node`. -/
def NewNode (long lat : ℚ) (id : Nat) : Node :=
  let abs := GpsToAbsolute long lat
  { X := abs.1, Y := abs.2, Id := id }

/-- Go: `type Quadrant struct { XMin, YMin, XMax, YMax float64 }`. -/
structure Quadrant where
  XMin : ℚ
  YMin : ℚ
  XMax : ℚ
  YMax : ℚ
deriving DecidableEq

/-- Go: `func NewQuadrant(xMin, yMin, xMax, yMax float64, convertFromGps bool) *Quadrant`. -/
def NewQuadrant (xMin yMin xMax yMax : ℚ) (convertFromGps : Bool) : Quadrant :=
  let minAbs := if convertFromGps then GpsToAbsolute xMin yMin else (xMin, yMin)
  let maxAbs := if convertFromGps then GpsToAbsolute xMax yMax else (xMax, yMax)
  { XMin := minAbs.1, YMin := minAbs.2, XMax := maxAbs.1, YMax := maxAbs.2 }

/-- Go: `func (q *Quadrant) inQuadrant(node *Node) bool`. -/
def Quadrant.inQuadrant (q : Quadrant) (node : Node) : Bool :=
  if node.X < q.XMin ∨ node.X > q.XMax ∨ node.Y < q.YMin ∨ node.Y > q.YMax then
    false
  else
    true

/-- Go: `type QuadTree struct`.  A child pointer is `none` when nil. -/
structure QuadTree where
  MaxCapacity : Int
  Level : Int
  Nodes : List Node
  NW : Option QuadTree
  NE : Option QuadTree
  SW : Option QuadTree
  SE : Option QuadTree
  Quadrant : Quadrant
  isSubdivided : Bool


/-- Go: `func NewQuadTree(level int, quadrant *Quadrant, maxCapacity int) *QuadTree`:
a leaf with no nodes, no children and `isSubdivided` at its zero value. -/
def NewQuadTree (level : Int) (quadrant : Quadrant) (maxCapacity : Int) : QuadTree :=
  { MaxCapacity := maxCapacity, Level := level, Nodes := [],
    NW := none, NE := none, SW := none, SE := none,
    Quadrant := quadrant, isSubdivided := false }

/-- The four child pointer fields of a `QuadTree`. -/
inductive Slot where
  | NW
  | NE
  | SW
  | SE
deriving DecidableEq

/-- Read a child pointer. -/
def QuadTree.child (q : QuadTree) : Slot → Option QuadTree
  | .NW => q.NW
  | .NE => q.NE
  | .SW => q.SW
  | .SE => q.SE

/-- Write back the object a child pointer refers to (in Go the child is mutated in
place through the pointer). -/
def QuadTree.setChild (q : QuadTree) (s : Slot) (c : QuadTree) : QuadTree :=
  match s with
  | .NW => { q with NW := some c }
  | .NE => { q with NE := some c }
  | .SW => { q with SW := some c }
  | .SE => { q with SE := some c }

/-- The slice `q.QuadTrees`: nil until `split` sets it to `{q.NW, q.NE, q.SW, q.SE}`. -/
def QuadTree.QuadTrees (q : QuadTree) : List Slot :=
  if q.isSubdivided then [Slot.NW, Slot.NE, Slot.SW, Slot.SE] else []

/-- The slice `qts := []*QuadTree{q.NW, q.NE, q.SE, q.SW}` of `split`. -/
def QuadTree.qts : List Slot :=
  [Slot.NW, Slot.NE, Slot.SE, Slot.SW]

/-- The loop `for _, qt := range slots { if qt.insert(node) { break } }` run on the
children of `q`; `ins` is the recursive call `qt.insert`.  Returns the updated `q` and
whether some child accepted the node. -/
def QuadTree.insertFirst (ins : QuadTree → Node → Outcome (QuadTree × Bool)) (node : Node) :
    List Slot → QuadTree → Outcome (QuadTree × Bool)
  | [], q => .ret (q, false)
  | s :: rest, q =>
    match q.child s with
    | none => .panic
    | some qt =>
      (ins qt node).bind fun r =>
        if r.2 then .ret (q.setChild s r.1, true)
        else QuadTree.insertFirst ins node rest (q.setChild s r.1)

/-- The labelled loop `NodesLoop` of `split`: every node is offered to the children in
the order of `qts` until one accepts it. -/
def QuadTree.redistribute (ins : QuadTree → Node → Outcome (QuadTree × Bool)) :
    List Node → QuadTree → Outcome QuadTree
  | [], q => .ret q
  | n :: rest, q =>
    (QuadTree.insertFirst ins n QuadTree.qts q).bind fun r =>
      QuadTree.redistribute ins rest r.1

/-- The body of `func (q *QuadTree) split(node *Node) bool`, with the recursive call
`qt.insert` passed as `ins`. -/
def QuadTree.splitWith (ins : QuadTree → Node → Outcome (QuadTree × Bool))
    (q : QuadTree) (node : Node) : Outcome (QuadTree × Bool) :=
  let xOffset := q.Quadrant.XMin + ((q.Quadrant.XMax - q.Quadrant.XMin) / 2)
  let yOffset := q.Quadrant.YMin + ((q.Quadrant.YMax - q.Quadrant.YMin) / 2)
  let newLevel := q.Level + 1
  let nwQuadrant := NewQuadrant q.Quadrant.XMin yOffset xOffset q.Quadrant.YMax false
  let neQuadrant := NewQuadrant xOffset yOffset q.Quadrant.XMax q.Quadrant.YMax false
  let swQuadrant := NewQuadrant q.Quadrant.XMin q.Quadrant.YMin xOffset yOffset false
  let seQuadrant := NewQuadrant xOffset q.Quadrant.YMin q.Quadrant.XMax yOffset false
  let q1 : QuadTree :=
    { q with
      NW := some (NewQuadTree newLevel nwQuadrant q.MaxCapacity)
      NE := some (NewQuadTree newLevel neQuadrant q.MaxCapacity)
      SW := some (NewQuadTree newLevel swQuadrant q.MaxCapacity)
      SE := some (NewQuadTree newLevel seQuadrant q.MaxCapacity)
      isSubdivided := true }
  let nodes := q.Nodes ++ [node]
  (QuadTree.redistribute ins nodes q1).bind fun q2 =>
    .ret ({ q2 with Nodes := [] }, true)

/-- Go: `func (q *QuadTree) insert(node *Node) bool`.  The first argument bounds the
depth of the recursion `insert → split → insert → …`; the result carries the tree
after the call (Go mutates it in place) and the returned flag. -/
def QuadTree.insert : Nat → QuadTree → Node → Outcome (QuadTree × Bool)
  | 0, _, _ => .outOfFuel
  | fuel + 1, q, node =>
    if !q.Quadrant.inQuadrant node then
      .ret (q, false)
    else if q.isSubdivided then
      (QuadTree.insertFirst (QuadTree.insert fuel) node q.QuadTrees q).bind fun r =>
        .ret (r.1, true)
    else if (q.Nodes.length : Int) < q.MaxCapacity then
      .ret ({ q with Nodes := q.Nodes ++ [node] }, true)
    else
      QuadTree.splitWith (QuadTree.insert fuel) q node

/-- Go: `func (q *QuadTree) split(node *Node) bool`, called from `insert` with the
recursion budget that is left. -/
def QuadTree.split (fuel : Nat) (q : QuadTree) (node : Node) : Outcome (QuadTree × Bool) :=
  QuadTree.splitWith (QuadTree.insert fuel) q node

/-- Go: `type InMemGeoStore struct { Root *QuadTree; mux *sync.RWMutex }`. -/
structure InMemGeoStore where
  Root : QuadTree


/-- Go: `func NewGeoStoreInMem(root *QuadTree) *InMemGeoStore`. -/
def NewGeoStoreInMem (root : QuadTree) : InMemGeoStore :=
  { Root := root }

/-- The inner loop of `findQuadTree`: the first child in `q.QuadTrees` whose quadrant
contains the node, if any (`panic` on a nil child pointer). -/
def firstContaining (node : Node) (q : QuadTree) : List Slot → Outcome (Option QuadTree)
  | [] => .ret none
  | s :: rest =>
    match q.child s with
    | none => .panic
    | some qt =>
      if qt.Quadrant.inQuadrant node then .ret (some qt) else firstContaining node q rest

/-- Capacity of the buffered channel of `findQuadTree`: `make(chan *QuadTree, 128)`. -/
def queueCap : Nat := 128

/-- The loop `for q := range queue` of `findQuadTree`; the list is the content of the
channel buffer.  The channel is never closed, so a receive on the empty buffer blocks
forever and the statement `return nil` after the loop is never reached. -/
def findLoop : Nat → Node → List QuadTree → Outcome (Option QuadTree)
  | _, _, [] => .blocked
  | 0, _, _ :: _ => .outOfFuel
  | fuel + 1, node, q :: queue =>
    if q.isSubdivided then
      (firstContaining node q q.QuadTrees).bind fun found =>
        match found with
        | some qt =>
          if queue.length < queueCap then findLoop fuel node (queue ++ [qt]) else .blocked
        | none => findLoop fuel node queue
    else if q.Quadrant.inQuadrant node then
      .ret (some q)
    else
      findLoop fuel node queue

/-- Go: `func findQuadTree(node *Node, root *QuadTree) *QuadTree`; the first argument
bounds the number of loop iterations. -/
def findQuadTree (fuel : Nat) (node : Node) (root : QuadTree) : Outcome (Option QuadTree) :=
  findLoop fuel node [root]

/-- Go: `func (g *InMemGeoStore) FindNearest(lat, long, maxDistance float64, limit int)
[]uint64`.  A nil result of `findQuadTree` is dereferenced by `q.Nodes`. -/
def InMemGeoStore.FindNearest (fuel : Nat) (g : InMemGeoStore) (lat long maxDistance : ℚ)
    (limit : Int) : Outcome (List Nat) :=
  let node := NewNode long lat 1
  (findQuadTree fuel node g.Root).bind fun found =>
    match found with
    | some q => .ret (q.Nodes.map fun n => n.Id)
    | none => .panic

/-- Go: `func (g *InMemGeoStore) Insert(node *Node)`: the flag returned by `insert`
is dropped. -/
def InMemGeoStore.Insert (fuel : Nat) (g : InMemGeoStore) (node : Node) :
    Outcome InMemGeoStore :=
  (g.Root.insert fuel node).bind fun r => .ret { g with Root := r.1 }

end geostore

/-! ## Go maps -/

/-- A Go `map[K]V`: key-value pairs with pairwise distinct keys.  The list order is the
order in which the keys were first set; Go leaves the iteration order of `range` over a
map unspecified, so only statements that do not depend on the order of `keys` carry
over to the program. -/
abbrev GoMap (K V : Type) := List (K × V)

namespace GoMap

variable {K V : Type} [DecidableEq K]

/-- Go: `v, ok := m[k]`. -/
def get : GoMap K V → K → Option V
  | [], _ => none
  | (k', v) :: rest, k => if k' = k then some v else get rest k

/-- Go: `m[k] = v`. -/
def set : GoMap K V → K → V → GoMap K V
  | [], k, v => [(k, v)]
  | (k', v') :: rest, k, v => if k' = k then (k, v) :: rest else (k', v') :: set rest k v

/-- The keys visited by `for k := range m`. -/
def keys (m : GoMap K V) : List K :=
  m.map Prod.fst

end GoMap

namespace model

/-- Go: `type Cache struct`.  `Tags` is a `map[string]bool`, a reference: `none` is the
nil map, `some a` the map object at address `a` of the heap of tag maps. -/
structure Cache where
  Id : Nat
  Name : String
  Lat : ℚ
  Long : ℚ
  Tags : Option Nat
deriving DecidableEq

/-- The zero value `Cache{}`. -/
def Cache.zero : Cache :=
  { Id := 0, Name := "", Lat := 0, Long := 0, Tags := none }

/-- The values of type `error` the store returns (nil is `none` of `Option GoError`):
`&CacheNotFoundErr{id, name}` and the value built by `fmt.Errorf`. -/
inductive GoError where
  | CacheNotFoundErr (id : Nat) (name : String)
  | errorf (msg : String)
deriving DecidableEq

/-- Go: `type InMemCacheStore struct`, together with the heap objects it refers to.
`heapCaches` holds the `Cache` objects allocated so far and `heapTags` the
`map[string]bool` objects; an address is an index into these lists, and a `*Cache`
stored in an index is such an address.  The three indices share the `Cache` objects:
a write through one pointer is seen through all of them.  The `geostore` field is
bound to the one implementation of the `GeoStore` interface, `InMemGeoStore`. -/
structure InMemCacheStore where
  heapTags : List (GoMap String Bool)
  heapCaches : List Cache
  caches : GoMap Nat Nat
  sCounter : Nat
  cachesByName : GoMap String Nat
  cachesByTag : GoMap String (GoMap Nat Bool)
  geostore : geostore.InMemGeoStore

/-- Go: `func NewCacheStore(ctx, cancel, wg, geoStore) CacheStore`. -/
def NewCacheStore (geoStore : geostore.InMemGeoStore) : InMemCacheStore :=
  { heapTags := [], heapCaches := [], caches := [], sCounter := 1, cachesByName := [],
    cachesByTag := [], geostore := geoStore }

/-- The `Cache` object a pointer refers to. -/
def InMemCacheStore.deref (s : InMemCacheStore) (p : Nat) : Cache :=
  s.heapCaches.getD p Cache.zero

/-- The tag map a `Tags` reference refers to; reading a nil map finds no key. -/
def InMemCacheStore.tagsOf (s : InMemCacheStore) (c : Cache) : GoMap String Bool :=
  match c.Tags with
  | none => []
  | some a => s.heapTags.getD a []

/-- Go: `func copyCache(cache *Cache) Cache`, applied to the object the pointer refers
to: a field-by-field copy; the `Tags` reference is copied, not the map. -/
def copyCache (cache : Cache) : Cache :=
  { Id := cache.Id, Name := cache.Name, Lat := cache.Lat, Long := cache.Long,
    Tags := cache.Tags }

/-- The first loop of `Create`: `t := make(map[string]bool, len(tags))` filled with
`t[tag] = true`. -/
def tagSet (tags : List String) : GoMap String Bool :=
  tags.foldl (fun t tag => t.set tag true) []

/-- The second loop of `Create`: the object at address `p` is added to the set of
every tag, the set being created on first use. -/
def indexTags (p : Nat) (tags : List String) (byTag : GoMap String (GoMap Nat Bool)) :
    GoMap String (GoMap Nat Bool) :=
  tags.foldl
    (fun m t =>
      match m.get t with
      | none => m.set t (GoMap.set [] p true)
      | some tMap => m.set t (tMap.set p true))
    byTag

/-- Go: `func (s *InMemCacheStore) Create(name string, lat float64, long float64,
tags []string) (uint64, error)`.  The first argument is the recursion budget handed to
the spatial insert; the result carries the store after the call. -/
def InMemCacheStore.Create (fuel : Nat) (s : InMemCacheStore) (name : String) (lat long : ℚ)
    (tags : List String) : Outcome (InMemCacheStore × Nat × Option GoError) :=
  let t := tagSet tags
  let tRef := s.heapTags.length
  let cache : Cache :=
    { Id := s.sCounter, Name := name, Lat := lat, Long := long, Tags := some tRef }
  let p := s.heapCaches.length
  let id := cache.Id
  let node := geostore.NewNode cache.Long cache.Lat cache.Id
  (s.geostore.Insert fuel node).bind fun g =>
    .ret
      ({ heapTags := s.heapTags ++ [t]
         heapCaches := s.heapCaches ++ [cache]
         caches := s.caches.set cache.Id p
         sCounter := (s.sCounter + 1) % 2 ^ 64
         cachesByName := s.cachesByName.set cache.Name p
         cachesByTag := indexTags p tags s.cachesByTag
         geostore := g },
       id, none)

/-- The loop of `FindNearest`: `retval[i] = copyCache(s.caches[ids[i]])`; a missing id
yields a nil pointer, which `copyCache` dereferences. -/
def InMemCacheStore.resolve (s : InMemCacheStore) : List Nat → Outcome (List Cache)
  | [] => .ret []
  | id :: rest =>
    match s.caches.get id with
    | none => .panic
    | some p => (InMemCacheStore.resolve s rest).bind fun cs => .ret (copyCache (s.deref p) :: cs)

/-- Go: `func (s *InMemCacheStore) FindNearest(lat, long, maxDistance float64, limit int)
([]Cache, error)`. -/
def InMemCacheStore.FindNearest (fuel : Nat) (s : InMemCacheStore) (lat long maxDistance : ℚ)
    (limit : Int) : Outcome (List Cache × Option GoError) :=
  (s.geostore.FindNearest fuel lat long maxDistance limit).bind fun ids =>
    (s.resolve ids).bind fun retval => .ret (retval, none)

/-- Go: `func (s *InMemCacheStore) GetAll() ([]Cache, error)`. -/
def InMemCacheStore.GetAll (_s : InMemCacheStore) : List Cache × Option GoError :=
  ([], none)

/-- Go: `func (s *InMemCacheStore) GetById(id uint64) (Cache, error)`. -/
def InMemCacheStore.GetById (s : InMemCacheStore) (id : Nat) : Cache × Option GoError :=
  match s.caches.get id with
  | none => (Cache.zero, some (GoError.CacheNotFoundErr id ""))
  | some p => (copyCache (s.deref p), none)

/-- Go: `func (s *InMemCacheStore) GetByName(name string) (Cache, error)`. -/
def InMemCacheStore.GetByName (s : InMemCacheStore) (name : String) : Cache × Option GoError :=
  match s.cachesByName.get name with
  | none => (Cache.zero, some (GoError.CacheNotFoundErr 0 name))
  | some p => (copyCache (s.deref p), none)

/-- Go: `func (s *InMemCacheStore) GetByTags(tags []string) ([]Cache, error)`: for
every requested tag in turn, a copy of every record in that tag's set is appended. -/
def InMemCacheStore.GetByTags (s : InMemCacheStore) (tags : List String) :
    List Cache × Option GoError :=
  (tags.foldl
    (fun caches tag =>
      match s.cachesByTag.get tag with
      | none => caches
      | some m => caches ++ m.keys.map fun p => copyCache (s.deref p))
    [], none)

/-- Go: `func (s *InMemCacheStore) Delete(id uint64) error`. -/
def InMemCacheStore.Delete (s : InMemCacheStore) (_id : Nat) : InMemCacheStore × Option GoError :=
  (s, none)

/-- Go: `func (s *InMemCacheStore) DeleteAll() error`. -/
def InMemCacheStore.DeleteAll (s : InMemCacheStore) : InMemCacheStore × Option GoError :=
  (s, none)

/-- Go: `func (s *InMemCacheStore) Update(name string, cache Cache) (Cache, error)`; the
result carries the store after the call. -/
def InMemCacheStore.Update (s : InMemCacheStore) (name : String) (cache : Cache) :
    InMemCacheStore × Cache × Option GoError :=
  match s.cachesByName.get name with
  | none => (s, Cache.zero, some (GoError.errorf ("cache not found to update; name=" ++ name)))
  | some p =>
    let existingCache : Cache :=
      { s.deref p with Lat := cache.Lat, Long := cache.Long, Tags := cache.Tags }
    ({ s with heapCaches := s.heapCaches.set p existingCache }, copyCache existingCache, none)

end model

namespace geostore

/-! ### Specification vocabulary for the quadtree -/

/-- The value `xOffset` computed by `split`. -/
def Quadrant.xOffset (q : Quadrant) : ℚ :=
  q.XMin + ((q.XMax - q.XMin) / 2)

/-- The value `yOffset` computed by `split`. -/
def Quadrant.yOffset (q : Quadrant) : ℚ :=
  q.YMin + ((q.YMax - q.YMin) / 2)

/-- The quadrant `split` gives to the child stored in slot `s`. -/
def Quadrant.sub (q : Quadrant) : Slot → Quadrant
  | .NW => NewQuadrant q.XMin q.yOffset q.xOffset q.YMax false
  | .NE => NewQuadrant q.xOffset q.yOffset q.XMax q.YMax false
  | .SW => NewQuadrant q.XMin q.YMin q.xOffset q.yOffset false
  | .SE => NewQuadrant q.xOffset q.YMin q.XMax q.yOffset false

mutual
/-- Nodes held by the leaves below `q`, the children visited in the order NW, NE, SW,
SE.  A tree node is a leaf when `isSubdivided` is false. -/
def QuadTree.leafNodes : QuadTree → List Node
  | ⟨_, _, ns, nw, ne, sw, se, _, sub⟩ =>
    if sub then leafNodesOpt nw ++ leafNodesOpt ne ++ leafNodesOpt sw ++ leafNodesOpt se
    else ns
/-- Nodes held by the leaves below a child pointer. -/
def leafNodesOpt : Option QuadTree → List Node
  | none => []
  | some t => t.leafNodes
end

/-- Structural invariant of the trees built by `NewQuadTree` and `insert` with
capacity `c`: a leaf has no children, holds only nodes of its own quadrant and at most
`c` of them; an internal node has four children one level deeper, on the four
quadrants computed by `split`, and an empty node list. -/
inductive Valid (c : Int) : QuadTree → Prop
  | leaf (q : QuadTree) (hsub : q.isSubdivided = false)
      (hkid : ∀ s, q.child s = none)
      (hcap : q.MaxCapacity = c)
      (hin : ∀ n ∈ q.Nodes, q.Quadrant.inQuadrant n = true)
      (hlen : (q.Nodes.length : Int) ≤ max c 0) : Valid c q
  | node (q : QuadTree) (kid : Slot → QuadTree) (hsub : q.isSubdivided = true)
      (hkid : ∀ s, q.child s = some (kid s))
      (hquad : ∀ s, (kid s).Quadrant = q.Quadrant.sub s)
      (hlvl : ∀ s, (kid s).Level = q.Level + 1)
      (hcap : q.MaxCapacity = c)
      (hnodes : q.Nodes = [])
      (hvalid : ∀ s, Valid c (kid s)) : Valid c q

/-- The children of `q` are those of a valid internal node of capacity `c` (nothing is
said about `q.Nodes`, which `split` clears only after redistribution). -/
def KidsValid (c : Int) (q : QuadTree) : Prop :=
  q.isSubdivided = true ∧
    ∃ kid : Slot → QuadTree, ∀ s, q.child s = some (kid s) ∧
      (kid s).Quadrant = q.Quadrant.sub s ∧ (kid s).Level = q.Level + 1 ∧ Valid c (kid s)

/-- What a returning call `q.insert(n)` with result `r` (tree after the call, returned
flag) achieves on a valid tree: the flag tells whether `n` lies in the quadrant of `q`;
a rejected node leaves the tree as it was; an accepted node is added to the nodes held
by the leaves, nothing else being added or removed; quadrant and level of `q` stay. -/
def InsertOK (c : Int) (q : QuadTree) (n : Node) (r : QuadTree × Bool) : Prop :=
  r.2 = q.Quadrant.inQuadrant n ∧ (r.2 = false → r.1 = q) ∧ Valid c r.1 ∧
    r.1.Quadrant = q.Quadrant ∧ r.1.Level = q.Level ∧
    (r.2 = true → r.1.leafNodes.Perm (n :: q.leafNodes))

/-- Trees reachable from the fresh leaf `NewQuadTree level quad c` by calls of `insert`
that return. -/
inductive Reachable (level : Int) (quad : Quadrant) (c : Int) : QuadTree → Prop
  | fresh : Reachable level quad c (NewQuadTree level quad c)
  | step (t t' : QuadTree) (fuel : Nat) (n : Node) (b : Bool) :
      Reachable level quad c t → t.insert fuel n = .ret (t', b) → Reachable level quad c t'

/-- `InsertSeq q ns t`: inserting the nodes `ns` one by one into `q`, every call of
`insert` returning (each within a budget of its own), leaves the tree `t`. -/
inductive InsertSeq : QuadTree → List Node → QuadTree → Prop
  | nil (q : QuadTree) : InsertSeq q [] q
  | cons (q q' t : QuadTree) (n : Node) (ns : List Node) (fuel : Nat) (b : Bool) :
      q.insert fuel n = .ret (q', b) → InsertSeq q' ns t → InsertSeq q (n :: ns) t

end geostore

namespace geostore

/-! ### Concrete inputs used to exercise the theorems -/

/-- The root of `getTestGeoStore(4)` and of `run.Run`: the whole globe, capacity 4. -/
def globeRoot : QuadTree :=
  NewQuadTree 1 (NewQuadrant (-180) (-90) 180 90 true) 4

/-- A small root quadrant, `[0,4] x [0,4]`. -/
def exQuad : Quadrant :=
  { XMin := 0, YMin := 0, XMax := 4, YMax := 4 }

/-- A node of the south-west quarter of `exQuad`. -/
def exA : Node :=
  { X := 1, Y := 1, Id := 7 }

/-- A node of the north-east quarter of `exQuad`. -/
def exB : Node :=
  { X := 3, Y := 3, Id := 8 }

/-- A node outside `exQuad`. -/
def exOut : Node :=
  { X := 5, Y := 1, Id := 9 }

/-- The capacity-1 leaf on `exQuad` holding `exA`. -/
def exLeafA : QuadTree :=
  { NewQuadTree 1 exQuad 1 with Nodes := [exA] }

/-- The tree left by inserting `exA` and then `exB` into the fresh capacity-1 leaf on
`exQuad`: the second insert splits the root. -/
def exTreeAB : QuadTree :=
  { NewQuadTree 1 exQuad 1 with
    NW := some (NewQuadTree 2 { XMin := 0, YMin := 2, XMax := 2, YMax := 4 } 1)
    NE := some { NewQuadTree 2 { XMin := 2, YMin := 2, XMax := 4, YMax := 4 } 1 with
      Nodes := [exB] }
    SW := some { NewQuadTree 2 { XMin := 0, YMin := 0, XMax := 2, YMax := 2 } 1 with
      Nodes := [exA] }
    SE := some (NewQuadTree 2 { XMin := 2, YMin := 0, XMax := 4, YMax := 2 } 1)
    isSubdivided := true }

end geostore

namespace model

/-! ### Specification vocabulary for the record store -/

/-- One returned call of `Create`: its arguments and what it returned. -/
structure CreateCall where
  id : Nat
  err : Option GoError
  name : String
  lat : ℚ
  long : ℚ
  tags : List String

/-- `Built g0 log s`: the store `s` results from the fresh store
`NewCacheStore g0` by the calls of `Create` listed in `log`, oldest first, every one
of which returned (the spatial insert of each within a budget of its own). -/
inductive Built (g0 : geostore.InMemGeoStore) : List CreateCall → InMemCacheStore → Prop
  | fresh : Built g0 [] (NewCacheStore g0)
  | create (log : List CreateCall) (s s' : InMemCacheStore) (fuel : Nat) (name : String)
      (lat long : ℚ) (tags : List String) (id : Nat) (err : Option GoError) :
      Built g0 log s → s.Create fuel name lat long tags = .ret (s', id, err) →
      Built g0 (log ++ [CreateCall.mk id err name lat long tags]) s'

/-- The pointers held by the set `byTag[tag]` (none when the tag has no set). -/
def keysAt (byTag : GoMap String (GoMap Nat Bool)) (tag : String) : List Nat :=
  match byTag.get tag with
  | none => []
  | some m => m.keys

/-- The pointers held by the set `s.cachesByTag[tag]`. -/
def InMemCacheStore.indexed (s : InMemCacheStore) (tag : String) : List Nat :=
  keysAt s.cachesByTag tag

/-- The spatial index `run.Run` binds the store to: the whole globe, capacity 4. -/
def globeStore : geostore.InMemGeoStore :=
  geostore.NewGeoStoreInMem geostore.globeRoot

/-- The store after `Create("s1", 0, 0, ["ocean", "atlantic"])` on the fresh store
bound to `globeStore`. -/
def exStore1 : InMemCacheStore :=
  { heapTags := [[("ocean", true), ("atlantic", true)]]
    heapCaches := [{ Id := 1, Name := "s1", Lat := 0, Long := 0, Tags := some 0 }]
    caches := [(1, 0)]
    sCounter := 2
    cachesByName := [("s1", 0)]
    cachesByTag := [("ocean", [(0, true)]), ("atlantic", [(0, true)])]
    geostore :=
      { Root := { geostore.globeRoot with Nodes := [{ X := 180, Y := 90, Id := 1 }] } } }

end model

namespace model

/-- The store after `Create("s2", 1, 1, ["river"])` on `exStore1`. -/
def exStore2 : InMemCacheStore :=
  { heapTags := [[("ocean", true), ("atlantic", true)], [("river", true)]]
    heapCaches := [{ Id := 1, Name := "s1", Lat := 0, Long := 0, Tags := some 0 },
      { Id := 2, Name := "s2", Lat := 1, Long := 1, Tags := some 1 }]
    caches := [(1, 0), (2, 1)]
    sCounter := 3
    cachesByName := [("s1", 0), ("s2", 1)]
    cachesByTag := [("ocean", [(0, true)]), ("atlantic", [(0, true)]), ("river", [(1, true)])]
    geostore :=
      { Root := { geostore.globeRoot with
          Nodes := [{ X := 180, Y := 90, Id := 1 }, { X := 181, Y := 91, Id := 2 }] } } }

/-- The log of the two calls of `Create` that build `exStore2`. -/
def exLog2 : List CreateCall :=
  [{ id := 1, err := none, name := "s1", lat := 0, long := 0, tags := ["ocean", "atlantic"] },
   { id := 2, err := none, name := "s2", lat := 1, long := 1, tags := ["river"] }]

end model

namespace model

/-- The store after `k` calls `Create("a", 0, 0, nil)` on the fresh store bound to
`globeStore` (`k` at most 4, the capacity of the root): `k` records at the centre of
the globe, translated `(180, 90)`, all held by the root leaf. -/
def exPile (k : Nat) : InMemCacheStore :=
  { heapTags := List.replicate k []
    heapCaches := (List.range k).map fun i =>
      { Id := i + 1, Name := "a", Lat := 0, Long := 0, Tags := some i }
    caches := (List.range k).map fun i => (i + 1, i)
    sCounter := k + 1
    cachesByName := if k = 0 then [] else [("a", k - 1)]
    cachesByTag := []
    geostore :=
      { Root := { geostore.globeRoot with
          Nodes := (List.range k).map fun i => { X := 180, Y := 90, Id := i + 1 } } } }

/-- The log of the four calls of `Create` that build `exPile 4`. -/
def exPileLog : List CreateCall :=
  [{ id := 1, err := none, name := "a", lat := 0, long := 0, tags := [] },
   { id := 2, err := none, name := "a", lat := 0, long := 0, tags := [] },
   { id := 3, err := none, name := "a", lat := 0, long := 0, tags := [] },
   { id := 4, err := none, name := "a", lat := 0, long := 0, tags := [] }]

end model

namespace geostore

/-! ### Tree nodes addressed by their path from the root -/

/-- The tree node reached from `q` by following the child pointers named in the path
(`none` when a pointer on the way is nil). -/
def QuadTree.at? (q : QuadTree) : List Slot → Option QuadTree
  | [] => some q
  | s :: rest =>
    match q.child s with
    | none => none
    | some k => QuadTree.at? k rest

/-- The tree `q` with the tree node at the path replaced by `r`; every other tree
node keeps its own fields, and the subtrees off the path are untouched. -/
def QuadTree.replaceAt (q : QuadTree) : List Slot → QuadTree → QuadTree
  | [], r => r
  | s :: rest, r =>
    match q.child s with
    | none => q
    | some k => q.setChild s (QuadTree.replaceAt k rest r)

/-- `Locates P q path L`: starting at `q` and stepping, at every subdivided tree
node, into the first child in the order of `QuadTrees` (NW, NE, SW, SE) whose quadrant
contains `P`, one arrives along `path` at the leaf `L`, whose quadrant contains `P`. -/
inductive Locates (P : Node) : QuadTree → List Slot → QuadTree → Prop
  | here (q : QuadTree) : q.isSubdivided = false → q.Quadrant.inQuadrant P = true →
      Locates P q [] q
  | down (q k L : QuadTree) (pre : List Slot) (s : Slot) (post path : List Slot) :
      q.isSubdivided = true → q.QuadTrees = pre ++ s :: post →
      (∀ t ∈ pre, ∃ kt, q.child t = some kt ∧ kt.Quadrant.inQuadrant P = false) →
      q.child s = some k → k.Quadrant.inQuadrant P = true →
      Locates P k path L → Locates P q (s :: path) L

/-- The fields a tree node holds itself, apart from its child pointers, agree. -/
def SameOwnFields (a b : QuadTree) : Prop :=
  a.MaxCapacity = b.MaxCapacity ∧ a.Level = b.Level ∧ a.Nodes = b.Nodes ∧
    a.Quadrant = b.Quadrant ∧ a.isSubdivided = b.isSubdivided

end geostore

namespace model

/-! ### Stores reached by `Create` and `Update` -/

/-- A caller builds a tag map (`make(map[string]bool)` and assignments), as the
controller does before `Update`: a new map object on the heap; the result carries its
address. -/
def InMemCacheStore.allocTags (s : InMemCacheStore) (m : GoMap String Bool) :
    InMemCacheStore × Nat :=
  ({ s with heapTags := s.heapTags ++ [m] }, s.heapTags.length)

/-- `Ran g0 k s`: the store `s` results from the fresh store `NewCacheStore g0` by
calls of `Create` that returned, `k` of them, calls of `Update`, and callers building
tag maps, in any order. -/
inductive Ran (g0 : geostore.InMemGeoStore) : Nat → InMemCacheStore → Prop
  | fresh : Ran g0 0 (NewCacheStore g0)
  | create (k : Nat) (s s' : InMemCacheStore) (fuel : Nat) (name : String) (lat long : ℚ)
      (tags : List String) (id : Nat) (err : Option GoError) :
      Ran g0 k s → s.Create fuel name lat long tags = .ret (s', id, err) → Ran g0 (k + 1) s'
  | update (k : Nat) (s : InMemCacheStore) (name : String) (cache : Cache) :
      Ran g0 k s → Ran g0 k (s.Update name cache).1
  | alloc (k : Nat) (s : InMemCacheStore) (m : GoMap String Bool) :
      Ran g0 k s → Ran g0 k (s.allocTags m).1

/-- The object `Update` leaves at the address of the existing record `old`: `Lat`,
`Long` and `Tags` taken from the argument `c`, the rest kept. -/
def updatedRecord (old c : Cache) : Cache :=
  { old with Lat := c.Lat, Long := c.Long, Tags := c.Tags }

/-- A store bound to a spatial index that already holds a node with id 7, for which
the store has no record. -/
def exOrphanStore : InMemCacheStore :=
  NewCacheStore
    { Root := { geostore.globeRoot with Nodes := [{ X := 180, Y := 90, Id := 7 }] } }

/-- The argument of an `Update` that moves a record and retags it with the map at
address 1. -/
def exUpdate : Cache :=
  { Id := 0, Name := "", Lat := 5, Long := 5, Tags := some 1 }

end model

namespace model

/-- The store after `Create("s1", 1, 1, ["river"])` on `exStore1`: a second record
under the name of the first. -/
def exStoreDup : InMemCacheStore :=
  { heapTags := [[("ocean", true), ("atlantic", true)], [("river", true)]]
    heapCaches := [{ Id := 1, Name := "s1", Lat := 0, Long := 0, Tags := some 0 },
      { Id := 2, Name := "s1", Lat := 1, Long := 1, Tags := some 1 }]
    caches := [(1, 0), (2, 1)]
    sCounter := 3
    cachesByName := [("s1", 1)]
    cachesByTag := [("ocean", [(0, true)]), ("atlantic", [(0, true)]), ("river", [(1, true)])]
    geostore :=
      { Root := { geostore.globeRoot with
          Nodes := [{ X := 180, Y := 90, Id := 1 }, { X := 181, Y := 91, Id := 2 }] } } }

end model

/-! ## Test fixtures, the controller's response conversion, calls of the store -/

deriving instance DecidableEq for Outcome

namespace geostore

/-! ### The fixture of `geostore_test.go` -/

/-- Go (test): `canadaSaskatchewan`. -/
def canadaSaskatchewan : Node := NewNode (-106.72319029988779) 53.61760431337473 1

/-- Go (test): `canadaEdmonton`. -/
def canadaEdmonton : Node := NewNode (-113.37174481536333) 53.678868921462815 6

/-- Go (test): `canadaDraytonValley`. -/
def canadaDraytonValley : Node := NewNode (-114.99135644079897) 53.222683424857216 7

/-- Go (test): `canadaRedDeer`. -/
def canadaRedDeer : Node := NewNode (-113.80500041394141) 52.26871035649865 8

/-- Go (test): `canadaCalgary`. -/
def canadaCalgary : Node := NewNode (-114.06243444911559) 51.04653767382061 9

/-- Go (test): `peruNode`. -/
def peruNode : Node := NewNode (-72.27006768132226) (-36.351849320377774) 2

/-- Go (test): `australiaNode`. -/
def australiaNode : Node := NewNode 124.42913747263096 (-23.605766549164937) 3

/-- Go (test): `mongoliaNode`. -/
def mongoliaNode : Node := NewNode 97.00726436805842 46.88910832340091 4

/-- Go (test): `oregonNode`. -/
def oregonNode : Node := NewNode (-120.54074440145642) 43.38552157601114 5

/-- Go (test): `testNodes`, in the order of the slice literal. -/
def testNodes : List Node :=
  [canadaSaskatchewan, canadaEdmonton, canadaDraytonValley, canadaRedDeer, canadaCalgary,
    peruNode, australiaNode, mongoliaNode, oregonNode]

/-- Go (test): `func getTestGeoStore(maxCapacity int) GeoStore`. -/
def getTestGeoStore (maxCapacity : Int) : InMemGeoStore :=
  let quadrant := NewQuadrant (-180) (-90) 180 90 true
  let q := NewQuadTree 1 quadrant maxCapacity
  NewGeoStoreInMem q

/-- The loop `for _, n := range nodes { g.Insert(n) }`; every call of `Insert` gets the
recursion budget `fuel`. -/
def InMemGeoStore.insertAll (fuel : Nat) : List Node → InMemGeoStore → Outcome InMemGeoStore
  | [], g => .ret g
  | n :: rest, g => (g.Insert fuel n).bind fun g' => InMemGeoStore.insertAll fuel rest g'

/-- Go (test): the part of `TestFindNearest` that produces `actualNearestNodes`: the
nine fixture nodes are inserted into `getTestGeoStore(4)`, then
`g.FindNearest(52.58987722297317, -114.69660872375789, 0, 0)` is called. -/
def actualNearestNodes (fuel : Nat) : Outcome (List Nat) :=
  (InMemGeoStore.insertAll fuel testNodes (getTestGeoStore 4)).bind fun g =>
    g.FindNearest fuel 52.58987722297317 (-114.69660872375789) 0 0

/-! ### A node on the vertical midline of the globe -/

/-- A node at longitude 0, latitude -45: on the vertical midline of the globe, in its
southern half. -/
def exMeridian : Node := NewNode 0 (-45) 1

/-- Five nodes for the globe root of capacity 4: `exMeridian` and one node in the
interior of each quarter of the globe. -/
def exMeridianNodes : List Node :=
  [exMeridian, NewNode 90 45 2, NewNode (-90) 45 3, NewNode (-90) (-45) 4, NewNode 90 (-45) 5]

/-- The south-west child of `exMeridianTree`. -/
def exMeridianSW : QuadTree :=
  { NewQuadTree 2 { XMin := 0, YMin := 0, XMax := 180, YMax := 90 } 4 with
    Nodes := [{ X := 90, Y := 45, Id := 4 }] }

/-- The tree left by inserting `exMeridianNodes` into the fresh globe root of capacity
4: the fifth insert splits the root. -/
def exMeridianTree : QuadTree :=
  { globeRoot with
    NW := some { NewQuadTree 2 { XMin := 0, YMin := 90, XMax := 180, YMax := 180 } 4 with
      Nodes := [{ X := 90, Y := 135, Id := 3 }] }
    NE := some { NewQuadTree 2 { XMin := 180, YMin := 90, XMax := 360, YMax := 180 } 4 with
      Nodes := [{ X := 270, Y := 135, Id := 2 }] }
    SW := some exMeridianSW
    SE := some { NewQuadTree 2 { XMin := 180, YMin := 0, XMax := 360, YMax := 90 } 4 with
      Nodes := [{ X := 180, Y := 45, Id := 1 }, { X := 270, Y := 45, Id := 5 }] }
    isSubdivided := true }

end geostore

namespace GoMap

variable {K V : Type} [DecidableEq K]

/-- Go: `delete(m, k)`. -/
def delete : GoMap K V → K → GoMap K V
  | [], _ => []
  | (k', v) :: rest, k => if k' = k then rest else (k', v) :: delete rest k

end GoMap

namespace sort

/-- Go: `sort.Strings(x)`, which sorts `x` in increasing order.  Go compares strings
byte by byte; on valid UTF-8 that is the lexicographic order of the code points, the
order `<` of `String`.  The increasing rearrangement of a list is unique, so the
sorting algorithm does not matter. -/
def Strings (x : List String) : List String :=
  x.insertionSort (· ≤ ·)

end sort

namespace controller

/-- Go: `type RequestPostCache struct`.  For `Tags`, a `[]string`, the nil slice
(`none`) is kept apart from a slice made by `make`, as the JSON encoding of the two
differs. -/
structure RequestPostCache where
  Name : String
  Lat : ℚ
  Long : ℚ
  Tags : Option (List String)
deriving DecidableEq

/-- Go: `type ResponseCache struct { Id uint64; RequestPostCache }`. -/
structure ResponseCache where
  Id : Nat
  RequestPostCache : RequestPostCache
deriving DecidableEq

/-- Go: `func cacheModelToResponseCache(cache model.Cache) ResponseCache`.  The tag map
of `cache` is read through its reference in the heap of the store `s`; `len` of a map
is the number of its keys, and `for t := range cache.Tags` visits every key once. -/
def cacheModelToResponseCache (s : model.InMemCacheStore) (cache : model.Cache) :
    ResponseCache :=
  let tagsCount := (s.tagsOf cache).keys.length
  let tags : Option (List String) :=
    if tagsCount > 0 then some (sort.Strings (s.tagsOf cache).keys) else none
  let r : RequestPostCache :=
    { Name := cache.Name, Lat := cache.Lat, Long := cache.Long, Tags := tags }
  { Id := cache.Id, RequestPostCache := r }

end controller

namespace model

/-! ### Calls of the store, and what a caller can do with a returned record -/

/-- One call of a method of `InMemCacheStore`, with its arguments. -/
inductive Call where
  | Create (name : String) (lat long : ℚ) (tags : List String)
  | FindNearest (lat long maxDistance : ℚ) (limit : Int)
  | GetAll
  | GetById (id : Nat)
  | GetByName (name : String)
  | GetByTags (tags : List String)
  | Delete (id : Nat)
  | DeleteAll
  | Update (name : String) (cache : Cache)

/-- What a call handed back to its caller. -/
inductive Reply where
  | id (id : Nat) (err : Option GoError)
  | record (cache : Cache) (err : Option GoError)
  | records (caches : List Cache) (err : Option GoError)
  | error (err : Option GoError)
deriving DecidableEq

/-- The methods the specification calls reads. -/
def Call.isRead : Call → Bool
  | .GetById _ => true
  | .GetByName _ => true
  | .GetByTags _ => true
  | .FindNearest _ _ _ _ => true
  | _ => false

/-- Run one call: the store after the call and what it handed back.  The bodies of
`FindNearest`, `GetAll`, `GetById`, `GetByName` and `GetByTags` contain no assignment to
a field of the store, to a map it holds or to an object it points to (their embeddings
above therefore return no store), so the store after such a call is the store before
it. -/
def InMemCacheStore.call (fuel : Nat) (s : InMemCacheStore) :
    Call → Outcome (InMemCacheStore × Reply)
  | .Create name lat long tags =>
    (s.Create fuel name lat long tags).bind fun r => .ret (r.1, .id r.2.1 r.2.2)
  | .FindNearest lat long maxDistance limit =>
    (s.FindNearest fuel lat long maxDistance limit).bind fun r => .ret (s, .records r.1 r.2)
  | .GetAll => .ret (s, .records s.GetAll.1 s.GetAll.2)
  | .GetById id => .ret (s, .record (s.GetById id).1 (s.GetById id).2)
  | .GetByName name => .ret (s, .record (s.GetByName name).1 (s.GetByName name).2)
  | .GetByTags tags => .ret (s, .records (s.GetByTags tags).1 (s.GetByTags tags).2)
  | .Delete id => .ret ((s.Delete id).1, .error (s.Delete id).2)
  | .DeleteAll => .ret (s.DeleteAll.1, .error s.DeleteAll.2)
  | .Update name cache =>
    .ret ((s.Update name cache).1, .record (s.Update name cache).2.1 (s.Update name cache).2.2)

/-- Run the calls one after the other, oldest first; the replies are listed in the
order of the calls. -/
def InMemCacheStore.run (fuel : Nat) : List Call → InMemCacheStore →
    Outcome (InMemCacheStore × List Reply)
  | [], s => .ret (s, [])
  | c :: rest, s =>
    (s.call fuel c).bind fun r =>
      (InMemCacheStore.run fuel rest r.1).bind fun r' => .ret (r'.1, r.2 :: r'.2)

/-- A caller executes `c.Tags[tag] = v` on a record value `c` it was handed: the write
goes to the map object the reference `c.Tags` points to (a write to the nil map
panics). -/
def InMemCacheStore.callerSetTag (s : InMemCacheStore) (c : Cache) (tag : String) (v : Bool) :
    Outcome InMemCacheStore :=
  match c.Tags with
  | none => .panic
  | some a => .ret { s with heapTags := s.heapTags.set a ((s.heapTags.getD a []).set tag v) }

/-- A caller executes `delete(c.Tags, tag)` on a record value `c` it was handed (on the
nil map `delete` does nothing). -/
def InMemCacheStore.callerDeleteTag (s : InMemCacheStore) (c : Cache) (tag : String) :
    InMemCacheStore :=
  match c.Tags with
  | none => s
  | some a => { s with heapTags := s.heapTags.set a ((s.heapTags.getD a []).delete tag) }

/-- Four reads, one of each kind, to be run on `exStore2`. -/
def exReads : List Call :=
  [Call.GetById 1, Call.GetByName "s2", Call.GetByTags ["river"], Call.FindNearest 0 0 0 0]

/-- What the calls `exReads` hand back on `exStore2`. -/
def exReplies : List Reply :=
  [Reply.record (Cache.mk 1 "s1" 0 0 (some 0)) none,
   Reply.record (Cache.mk 2 "s2" 1 1 (some 1)) none,
   Reply.records [Cache.mk 2 "s2" 1 1 (some 1)] none,
   Reply.records [Cache.mk 1 "s1" 0 0 (some 0), Cache.mk 2 "s2" 1 1 (some 1)] none]

/-- The store `exStore1` after a caller executed `r.Tags["x"] = true` on the record `r`
that `GetById(1)` handed back. -/
def exStore1Tagged : InMemCacheStore :=
  { exStore1 with heapTags := [[("ocean", true), ("atlantic", true), ("x", true)]] }

/-- The store `exStore1` after a caller executed `delete(r.Tags, "ocean")` on the record
`r` that `GetByName("s1")` handed back. -/
def exStore1Untagged : InMemCacheStore :=
  { exStore1 with heapTags := [[("atlantic", true)]] }

end model

namespace geostore

/-! ### Child order, coincident nodes, shape of quadrants -/

/-- The first slot in `order` whose quadrant, as computed by `split` from the parent
quadrant `q`, contains the node (none when no such slot is listed). -/
def Quadrant.firstSlot (q : Quadrant) (order : List Slot) (n : Node) : Option Slot :=
  order.find? fun s => (q.sub s).inQuadrant n

/-- The number of nodes of `ns` that have exactly the coordinates of `m`. -/
def coincident (ns : List Node) (m : Node) : Nat :=
  ns.countP fun x => decide (x.X = m.X ∧ x.Y = m.Y)

/-- A quadrant is well-formed when its lower bounds do not exceed its upper bounds. -/
def Quadrant.WellFormed (q : Quadrant) : Prop :=
  q.XMin ≤ q.XMax ∧ q.YMin ≤ q.YMax

/-- The quadrant `a` is contained in the quadrant `b`. -/
def Quadrant.Within (a b : Quadrant) : Prop :=
  b.XMin ≤ a.XMin ∧ a.XMax ≤ b.XMax ∧ b.YMin ≤ a.YMin ∧ a.YMax ≤ b.YMax

/-- A node at the coordinates of `exMeridian`, with a new id. -/
def exMeridianLate : Node := NewNode 0 (-45) 6

/-- A node of the south-west quarter of `exQuad`, away from `exA`. -/
def exC : Node :=
  { X := 1 / 2, Y := 1 / 2, Id := 10 }

end geostore

/-! ## `inQuadrant` on IEEE 754 values

The comparisons of `inQuadrant`, taken again with the values a Go `float64` can hold:
a finite number (a rational; comparisons of finite floats are exact), an infinity, or
NaN, with which every comparison `<`, `>`, `<=` is false. -/

namespace geostore.ieee

/-- The values of a Go `float64`, as far as comparisons can tell them apart. -/
inductive F64 where
  | nan
  | negInf
  | fin (q : ℚ)
  | posInf
deriving DecidableEq

/-- Go: `a < b` on `float64`. -/
def F64.lt : F64 → F64 → Bool
  | .nan, _ => false
  | _, .nan => false
  | .negInf, .negInf => false
  | .negInf, _ => true
  | _, .negInf => false
  | .posInf, _ => false
  | .fin _, .posInf => true
  | .fin a, .fin b => decide (a < b)

/-- Go: `a > b` on `float64`. -/
def F64.gt (a b : F64) : Bool :=
  F64.lt b a

/-- Go: `a <= b` on `float64`. -/
def F64.le : F64 → F64 → Bool
  | .nan, _ => false
  | _, .nan => false
  | .negInf, _ => true
  | _, .posInf => true
  | .posInf, _ => false
  | .fin _, .negInf => false
  | .fin a, .fin b => decide (a ≤ b)

/-- Whether the value is NaN. -/
def F64.isNaN : F64 → Bool
  | .nan => true
  | _ => false

/-- Go: `type Node struct { X, Y float64; Id uint64 }`. -/
structure Node where
  X : F64
  Y : F64
  Id : Nat
deriving DecidableEq

/-- Go: `type Quadrant struct { XMin, YMin, XMax, YMax float64 }`. -/
structure Quadrant where
  XMin : F64
  YMin : F64
  XMax : F64
  YMax : F64
deriving DecidableEq

/-- Go: `func (q *Quadrant) inQuadrant(node *Node) bool`. -/
def Quadrant.inQuadrant (q : Quadrant) (node : Node) : Bool :=
  if F64.lt node.X q.XMin || F64.gt node.X q.XMax || F64.lt node.Y q.YMin ||
      F64.gt node.Y q.YMax then
    false
  else
    true

/-- The test the specification gives for containment, with Go's `<=`:
`q.XMin <= n.X && n.X <= q.XMax && q.YMin <= n.Y && n.Y <= q.YMax`. -/
def Quadrant.withinBounds (q : Quadrant) (n : Node) : Bool :=
  F64.le q.XMin n.X && F64.le n.X q.XMax && F64.le q.YMin n.Y && F64.le n.Y q.YMax

/-- A node of the rational model as a node with finite coordinates. -/
def ofNode (n : geostore.Node) : Node :=
  { X := .fin n.X, Y := .fin n.Y, Id := n.Id }

/-- A quadrant of the rational model as a quadrant with finite bounds. -/
def ofQuadrant (q : geostore.Quadrant) : Quadrant :=
  { XMin := .fin q.XMin, YMin := .fin q.YMin, XMax := .fin q.XMax, YMax := .fin q.YMax }

/-- The whole globe after translation, `[0,360] x [0,180]`. -/
def exGlobe : Quadrant :=
  { XMin := .fin 0, YMin := .fin 0, XMax := .fin 360, YMax := .fin 180 }

/-- A node whose `X` is NaN, as `NewNode(NaN, 0, 1)` builds it (`NaN + 180` is NaN). -/
def exNaN : Node :=
  { X := .nan, Y := .fin 90, Id := 1 }

/-- A node on the south-west corner of `exGlobe`. -/
def exCorner : Node :=
  { X := .fin 0, Y := .fin 0, Id := 2 }

end geostore.ieee

/-! ## Theorems -/

namespace Outcome

theorem bind_eq_ret {α β : Type} {x : Outcome α} {f : α → Outcome β} {b : β}
    (h : x.bind f = ret b) : ∃ a, x = ret a ∧ f a = ret b := by
  cases x <;> simp [bind] at h
  exact ⟨_, rfl, h⟩

@[simp] theorem bind_ret {α β : Type} (a : α) (f : α → Outcome β) : (ret a).bind f = f a := rfl

end Outcome

namespace geostore

theorem inQuadrant_iff (q : Quadrant) (n : Node) :
    q.inQuadrant n = true ↔ q.XMin ≤ n.X ∧ n.X ≤ q.XMax ∧ q.YMin ≤ n.Y ∧ n.Y ≤ q.YMax := by
  unfold Quadrant.inQuadrant
  split_ifs with h
  · simp only [Bool.false_eq_true, false_iff]
    intro ⟨h1, h2, h3, h4⟩
    rcases h with h | h | h | h <;> linarith
  · simp only [true_iff]
    push_neg at h
    exact h

theorem leafNodes_eq (q : QuadTree) : q.leafNodes =
    if q.isSubdivided then
      leafNodesOpt q.NW ++ leafNodesOpt q.NE ++ leafNodesOpt q.SW ++ leafNodesOpt q.SE
    else q.Nodes := by
  cases q; simp [QuadTree.leafNodes]

theorem NewQuadrant_false (a b c d : ℚ) :
    NewQuadrant a b c d false = { XMin := a, YMin := b, XMax := c, YMax := d } := rfl

/-- Every point of a quadrant lies in one of the four quadrants `split` computes. -/
theorem sub_cover (q : Quadrant) (n : Node) (h : q.inQuadrant n = true) :
    ∃ s, (q.sub s).inQuadrant n = true := by
  rw [inQuadrant_iff] at h
  obtain ⟨h1, h2, h3, h4⟩ := h
  rcases le_total n.X q.xOffset with hx | hx <;> rcases le_total n.Y q.yOffset with hy | hy
  · exact ⟨.SW, by simp [inQuadrant_iff, Quadrant.sub, NewQuadrant_false, *]⟩
  · exact ⟨.NW, by simp [inQuadrant_iff, Quadrant.sub, NewQuadrant_false, *]⟩
  · exact ⟨.SE, by simp [inQuadrant_iff, Quadrant.sub, NewQuadrant_false, *]⟩
  · exact ⟨.NE, by simp [inQuadrant_iff, Quadrant.sub, NewQuadrant_false, *]⟩

/-- The four quadrants `split` computes lie inside the quadrant that is split. -/
theorem sub_subset (q : Quadrant) (s : Slot) (n : Node) (h : (q.sub s).inQuadrant n = true) :
    q.inQuadrant n = true := by
  rw [inQuadrant_iff] at h ⊢
  cases s <;>
    simp only [Quadrant.sub, NewQuadrant_false, Quadrant.xOffset, Quadrant.yOffset] at h <;>
    obtain ⟨h1, h2, h3, h4⟩ := h <;> refine ⟨?_, ?_, ?_, ?_⟩ <;> linarith

end geostore

namespace geostore

/-! ### Child pointers -/

theorem child_setChild_same (q : QuadTree) (s : Slot) (k : QuadTree) :
    (q.setChild s k).child s = some k := by
  cases s <;> rfl

theorem child_setChild_other (q : QuadTree) (s t : Slot) (k : QuadTree) (h : t ≠ s) :
    (q.setChild s k).child t = q.child t := by
  cases s <;> cases t <;> first | rfl | exact absurd rfl h

theorem setChild_self (q : QuadTree) (s : Slot) (k : QuadTree) (h : q.child s = some k) :
    q.setChild s k = q := by
  cases q; cases s <;> simp_all [QuadTree.setChild, QuadTree.child]

theorem setChild_fields (q : QuadTree) (s : Slot) (k : QuadTree) :
    (q.setChild s k).isSubdivided = q.isSubdivided ∧ (q.setChild s k).Nodes = q.Nodes ∧
    (q.setChild s k).Quadrant = q.Quadrant ∧ (q.setChild s k).Level = q.Level ∧
    (q.setChild s k).MaxCapacity = q.MaxCapacity := by
  cases s <;> exact ⟨rfl, rfl, rfl, rfl, rfl⟩

theorem leafNodes_setChild (q : QuadTree) (s : Slot) (k k' : QuadTree) (n : Node)
    (hsub : q.isSubdivided = true) (hk : q.child s = some k)
    (hperm : k'.leafNodes.Perm (n :: k.leafNodes)) :
    (q.setChild s k').leafNodes.Perm (n :: q.leafNodes) := by
  rw [leafNodes_eq, leafNodes_eq q, (setChild_fields q s k').1, hsub]
  simp only [if_true]
  have h := Multiset.coe_eq_coe.mpr hperm
  apply Multiset.coe_eq_coe.mp
  cases s <;> simp only [QuadTree.child] at hk <;>
    simp only [QuadTree.setChild, hk, leafNodesOpt, ← Multiset.coe_add, ← Multiset.cons_coe,
      ← Multiset.singleton_add] at h ⊢ <;>
    rw [h] <;> abel

end geostore

namespace geostore

/-! ### `insert` keeps the tree valid and neither loses nor duplicates a node -/

theorem kidsValid_of_valid {c : Int} {q : QuadTree} (h : Valid c q)
    (hsub : q.isSubdivided = true) : KidsValid c q := by
  cases h with
  | leaf _ hsub' _ _ _ _ => rw [hsub] at hsub'; cases hsub'
  | node _ kid _ hkid hquad hlvl _ _ hvalid =>
    exact ⟨hsub, kid, fun s => ⟨hkid s, hquad s, hlvl s, hvalid s⟩⟩

theorem valid_of_kidsValid {c : Int} {q : QuadTree} (h : KidsValid c q)
    (hnodes : q.Nodes = []) (hcap : q.MaxCapacity = c) : Valid c q := by
  obtain ⟨hsub, kid, hk⟩ := h
  exact Valid.node q kid hsub (fun s => (hk s).1) (fun s => (hk s).2.1)
    (fun s => (hk s).2.2.1) hcap hnodes (fun s => (hk s).2.2.2)

theorem kidsValid_setChild {c : Int} {q k k' : QuadTree} {s : Slot} {n : Node}
    (h : KidsValid c q) (hk : q.child s = some k) (hok : InsertOK c k n (k', true)) :
    KidsValid c (q.setChild s k') := by
  obtain ⟨hsub, kid, hkid⟩ := h
  obtain ⟨hf1, hf2, hf3, hf4, hf5⟩ := setChild_fields q s k'
  refine ⟨by rw [hf1, hsub], Function.update kid s k', fun t => ?_⟩
  by_cases hts : t = s
  · subst hts
    have hkt : kid t = k := by
      have := (hkid t).1
      rw [hk] at this
      exact (Option.some.inj this).symm
    obtain ⟨_, _, hv, hq, hl, _⟩ := hok
    simp only [Function.update_same, child_setChild_same, hf3, hf4, true_and]
    refine ⟨?_, ?_, hv⟩
    · rw [hq, ← hkt]; exact (hkid t).2.1
    · rw [hl, ← hkt]; exact (hkid t).2.2.1
  · simp only [Function.update_noteq hts, child_setChild_other q s t k' hts, hf3, hf4]
    exact hkid t

/-- The loop over the children: either no child quadrant contains the node and nothing
changes, or exactly one child is replaced by the result of a successful insert. -/
theorem insertFirst_spec {c : Int} {ins : QuadTree → Node → Outcome (QuadTree × Bool)}
    {n : Node}
    (hins : ∀ k r, Valid c k → ins k n = .ret r → InsertOK c k n r) :
    ∀ (ss : List Slot) (q : QuadTree) (r : QuadTree × Bool),
      (∀ s ∈ ss, ∃ k, q.child s = some k ∧ Valid c k) →
      QuadTree.insertFirst ins n ss q = .ret r →
      (r.2 = false → r.1 = q ∧
        ∀ s ∈ ss, ∀ k, q.child s = some k → k.Quadrant.inQuadrant n = false) ∧
      (r.2 = true → ∃ s ∈ ss, ∃ k k', q.child s = some k ∧ r.1 = q.setChild s k' ∧
        InsertOK c k n (k', true)) := by
  intro ss
  induction ss with
  | nil =>
    intro q r _ h
    simp only [QuadTree.insertFirst, Outcome.ret.injEq] at h
    subst h
    simp
  | cons s rest ih =>
    intro q r hkids h
    obtain ⟨k, hk, hvk⟩ := hkids s (List.mem_cons_self _ _)
    simp only [QuadTree.insertFirst, hk] at h
    obtain ⟨r0, hr0, h⟩ := Outcome.bind_eq_ret h
    have hok := hins k r0 hvk hr0
    by_cases hb : r0.2 = true
    · simp only [hb, if_true, Outcome.ret.injEq] at h
      subst h
      refine ⟨fun hf => by simp at hf, fun _ => ⟨s, List.mem_cons_self _ _, k, r0.1, hk, rfl, ?_⟩⟩
      have : r0 = (r0.1, true) := by rw [← hb]
      rw [← this]; exact hok
    · have hb' : r0.2 = false := by simpa using hb
      have hsame : r0.1 = k := hok.2.1 hb'
      have hnot : k.Quadrant.inQuadrant n = false := by rw [← hok.1, hb']
      simp only [hb', Bool.false_eq_true, if_false, hsame, setChild_self q s k hk] at h
      have hkids' : ∀ s ∈ rest, ∃ k, q.child s = some k ∧ Valid c k :=
        fun t ht => hkids t (List.mem_cons_of_mem _ ht)
      obtain ⟨h1, h2⟩ := ih q r hkids' h
      refine ⟨fun hf => ⟨(h1 hf).1, ?_⟩, fun ht => ?_⟩
      · intro t ht kt hkt
        rcases List.mem_cons.mp ht with rfl | ht
        · rw [hk] at hkt; cases hkt; exact hnot
        · exact (h1 hf).2 t ht kt hkt
      · obtain ⟨t, ht, x⟩ := h2 ht
        exact ⟨t, List.mem_cons_of_mem _ ht, x⟩

theorem mem_qts (s : Slot) : s ∈ QuadTree.qts := by
  cases s <;> simp [QuadTree.qts]

theorem mem_QuadTrees (q : QuadTree) (h : q.isSubdivided = true) (s : Slot) :
    s ∈ q.QuadTrees := by
  cases s <;> simp [QuadTree.QuadTrees, h]

/-- One pass of a loop over all four children of a node with valid children, for a
node of the parent quadrant: one child takes the node. -/
theorem insertFirst_kids {c : Int} {ins : QuadTree → Node → Outcome (QuadTree × Bool)}
    {n : Node} (hins : ∀ k r, Valid c k → ins k n = .ret r → InsertOK c k n r)
    (ss : List Slot) (hss : ∀ s, s ∈ ss) (q : QuadTree) (r : QuadTree × Bool)
    (hq : KidsValid c q) (hin : q.Quadrant.inQuadrant n = true)
    (h : QuadTree.insertFirst ins n ss q = .ret r) :
    KidsValid c r.1 ∧ r.1.leafNodes.Perm (n :: q.leafNodes) ∧ r.1.Quadrant = q.Quadrant ∧
      r.1.Level = q.Level ∧ r.1.MaxCapacity = q.MaxCapacity ∧ r.1.Nodes = q.Nodes := by
  obtain ⟨hsub, kid, hkid⟩ := id hq
  have hkids : ∀ s ∈ ss, ∃ k, q.child s = some k ∧ Valid c k :=
    fun s _ => ⟨kid s, (hkid s).1, (hkid s).2.2.2⟩
  obtain ⟨h1, h2⟩ := insertFirst_spec hins ss q r hkids h
  have hb : r.2 = true := by
    by_contra hb
    have hb' : r.2 = false := by simpa using hb
    obtain ⟨s, hs⟩ := sub_cover q.Quadrant n hin
    have := (h1 hb').2 s (hss s) (kid s) (hkid s).1
    rw [(hkid s).2.1, hs] at this
    cases this
  obtain ⟨s, _, k, k', hk, hr, hok⟩ := h2 hb
  obtain ⟨hf1, hf2, hf3, hf4, hf5⟩ := setChild_fields q s k'
  rw [hr]
  exact ⟨kidsValid_setChild hq hk hok, leafNodes_setChild q s k k' n hsub hk (hok.2.2.2.2.2 rfl),
    hf3, hf4, hf5, hf2⟩

theorem redistribute_spec {c : Int} {ins : QuadTree → Node → Outcome (QuadTree × Bool)}
    (hins : ∀ k n r, Valid c k → ins k n = .ret r → InsertOK c k n r) :
    ∀ (ns : List Node) (q q' : QuadTree), KidsValid c q →
      (∀ n ∈ ns, q.Quadrant.inQuadrant n = true) →
      QuadTree.redistribute ins ns q = .ret q' →
      KidsValid c q' ∧ q'.leafNodes.Perm (ns ++ q.leafNodes) ∧ q'.Quadrant = q.Quadrant ∧
        q'.Level = q.Level ∧ q'.MaxCapacity = q.MaxCapacity ∧ q'.Nodes = q.Nodes := by
  intro ns
  induction ns with
  | nil =>
    intro q q' hq _ h
    simp only [QuadTree.redistribute, Outcome.ret.injEq] at h
    subst h
    exact ⟨hq, List.Perm.refl _, rfl, rfl, rfl, rfl⟩
  | cons n rest ih =>
    intro q q' hq hin h
    simp only [QuadTree.redistribute] at h
    obtain ⟨r, hr, h⟩ := Outcome.bind_eq_ret h
    obtain ⟨g1, g2, g3, g4, g5, g6⟩ := insertFirst_kids (fun k r => hins k n r) QuadTree.qts
      mem_qts q r hq (hin n (List.mem_cons_self _ _)) hr
    have hin' : ∀ m ∈ rest, r.1.Quadrant.inQuadrant m = true := by
      intro m hm; rw [g3]; exact hin m (List.mem_cons_of_mem _ hm)
    obtain ⟨i1, i2, i3, i4, i5, i6⟩ := ih r.1 q' g1 hin' h
    refine ⟨i1, ?_, i3.trans g3, i4.trans g4, i5.trans g5, i6.trans g6⟩
    refine i2.trans ?_
    refine (List.Perm.append_left rest g2).trans ?_
    exact List.perm_middle

end geostore

namespace geostore

theorem valid_NewQuadTree (level : Int) (quad : Quadrant) (c : Int) :
    Valid c (NewQuadTree level quad c) := by
  refine Valid.leaf _ rfl (fun s => by cases s <;> rfl) rfl (fun n hn => ?_) ?_
  · simp [NewQuadTree] at hn
  · simp [NewQuadTree]

/-- The tree `split` redistributes into: `q` with four fresh children. -/
theorem splitWith_eq (ins : QuadTree → Node → Outcome (QuadTree × Bool)) (q : QuadTree)
    (node : Node) :
    QuadTree.splitWith ins q node =
      (QuadTree.redistribute ins (q.Nodes ++ [node])
        { q with
          NW := some (NewQuadTree (q.Level + 1) (q.Quadrant.sub .NW) q.MaxCapacity)
          NE := some (NewQuadTree (q.Level + 1) (q.Quadrant.sub .NE) q.MaxCapacity)
          SW := some (NewQuadTree (q.Level + 1) (q.Quadrant.sub .SW) q.MaxCapacity)
          SE := some (NewQuadTree (q.Level + 1) (q.Quadrant.sub .SE) q.MaxCapacity)
          isSubdivided := true }).bind fun q2 => .ret ({ q2 with Nodes := [] }, true) :=
  rfl

theorem splitWith_spec {c : Int} {ins : QuadTree → Node → Outcome (QuadTree × Bool)}
    (hins : ∀ k n r, Valid c k → ins k n = .ret r → InsertOK c k n r)
    (q : QuadTree) (n : Node) (r : QuadTree × Bool) (hq : Valid c q)
    (hsub : q.isSubdivided = false) (hin : q.Quadrant.inQuadrant n = true)
    (h : QuadTree.splitWith ins q n = .ret r) : InsertOK c q n r := by
  rw [splitWith_eq] at h
  obtain ⟨q2, hq2, h⟩ := Outcome.bind_eq_ret h
  simp only [Outcome.ret.injEq] at h
  subst h
  have hcap : q.MaxCapacity = c := by
    cases hq with
    | leaf _ _ _ hcap _ _ => exact hcap
    | node _ _ _ _ _ _ hcap _ _ => exact hcap
  have hnodes : ∀ m ∈ q.Nodes, q.Quadrant.inQuadrant m = true := by
    cases hq with
    | leaf _ _ _ _ hin' _ => exact hin'
    | node _ _ hsub' _ _ _ _ _ _ => rw [hsub] at hsub'; cases hsub'
  have hkv : KidsValid c { q with
      NW := some (NewQuadTree (q.Level + 1) (q.Quadrant.sub .NW) q.MaxCapacity)
      NE := some (NewQuadTree (q.Level + 1) (q.Quadrant.sub .NE) q.MaxCapacity)
      SW := some (NewQuadTree (q.Level + 1) (q.Quadrant.sub .SW) q.MaxCapacity)
      SE := some (NewQuadTree (q.Level + 1) (q.Quadrant.sub .SE) q.MaxCapacity)
      isSubdivided := true } := by
    refine ⟨rfl, fun s => NewQuadTree (q.Level + 1) (q.Quadrant.sub s) q.MaxCapacity,
      fun s => ⟨by cases s <;> rfl, rfl, rfl, ?_⟩⟩
    rw [hcap]; exact valid_NewQuadTree _ _ _
  have hall : ∀ m ∈ q.Nodes ++ [n], q.Quadrant.inQuadrant m = true := by
    intro m hm
    rcases List.mem_append.mp hm with hm | hm
    · exact hnodes m hm
    · simp only [List.mem_singleton] at hm; rw [hm]; exact hin
  obtain ⟨g1, g2, g3, g4, g5, _⟩ := redistribute_spec hins _ _ q2 hkv hall hq2
  have hkv2 : KidsValid c { q2 with Nodes := [] } := by
    obtain ⟨hs, kid, hk⟩ := g1
    exact ⟨hs, kid, fun s => by
      have := hk s
      cases s <;> exact this⟩
  have hleaf : ({ q2 with Nodes := [] } : QuadTree).leafNodes = q2.leafNodes := by
    rw [leafNodes_eq, leafNodes_eq q2]
    simp only [g1.1, if_true]
  refine ⟨by simp [hin], fun hf => by simp at hf, valid_of_kidsValid hkv2 rfl (g5.trans hcap),
    g3, g4, fun _ => ?_⟩
  rw [hleaf]
  refine g2.trans ?_
  rw [leafNodes_eq q, hsub, leafNodes_eq]
  simp only [leafNodesOpt, leafNodes_eq, NewQuadTree, if_true, Bool.false_eq_true, if_false,
    List.append_nil]
  exact List.perm_append_singleton _ _ |>.trans (List.Perm.refl _)

/-- A call of `insert` that returns on a valid tree satisfies `InsertOK`. -/
theorem insert_spec (c : Int) :
    ∀ (fuel : Nat) (q : QuadTree) (n : Node) (r : QuadTree × Bool),
      Valid c q → q.insert fuel n = .ret r → InsertOK c q n r := by
  intro fuel
  induction fuel with
  | zero => intro q n r _ h; simp [QuadTree.insert] at h
  | succ fuel ih =>
    intro q n r hq h
    rw [QuadTree.insert] at h
    by_cases hin : q.Quadrant.inQuadrant n = true
    · simp only [hin, Bool.not_true, Bool.false_eq_true, if_false] at h
      by_cases hsub : q.isSubdivided = true
      · simp only [hsub, if_true] at h
        obtain ⟨r0, hr0, h⟩ := Outcome.bind_eq_ret h
        simp only [Outcome.ret.injEq] at h
        subst h
        have hkv := kidsValid_of_valid hq hsub
        obtain ⟨g1, g2, g3, g4, g5, g6⟩ := insertFirst_kids (fun k r => ih k n r) q.QuadTrees
          (mem_QuadTrees q hsub) q r0 hkv hin hr0
        have hcap : q.MaxCapacity = c := by
          cases hq with
          | leaf _ _ _ hcap _ _ => exact hcap
          | node _ _ _ _ _ _ hcap _ _ => exact hcap
        have hnodes : q.Nodes = [] := by
          cases hq with
          | leaf _ hsub' _ _ _ _ => rw [hsub] at hsub'; cases hsub'
          | node _ _ _ _ _ _ _ hnodes _ => exact hnodes
        exact ⟨by simp [hin], fun hf => by simp at hf,
          valid_of_kidsValid g1 (g6.trans hnodes) (g5.trans hcap), g3, g4, fun _ => g2⟩
      · have hsub' : q.isSubdivided = false := by simpa using hsub
        simp only [hsub', Bool.false_eq_true, if_false] at h
        by_cases hlen : (q.Nodes.length : Int) < q.MaxCapacity
        · simp only [hlen, if_true, Outcome.ret.injEq] at h
          subst h
          cases hq with
          | node _ _ hs _ _ _ _ _ _ => rw [hsub'] at hs; cases hs
          | leaf _ _ hkid hcap hnodes hl =>
            refine ⟨by simp [hin], fun hf => by simp at hf, ?_, rfl, rfl, fun _ => ?_⟩
            · refine Valid.leaf _ rfl (fun s => ?_) hcap ?_ ?_
              · have := hkid s; cases s <;> exact this
              · intro m hm
                rcases List.mem_append.mp hm with hm | hm
                · exact hnodes m hm
                · simp only [List.mem_singleton] at hm; rw [hm]; exact hin
              · simp only [List.length_append, List.length_singleton, Nat.cast_add, Nat.cast_one]
                rw [hcap] at hlen
                omega
            · rw [leafNodes_eq, leafNodes_eq q]
              simp only [hsub', Bool.false_eq_true, if_false]
              exact List.perm_append_singleton _ _
        · simp only [hlen, if_false] at h
          exact splitWith_spec ih q n r hq hsub' hin h
    · have hin' : q.Quadrant.inQuadrant n = false := by simpa using hin
      simp only [hin', Bool.not_false, if_true, Outcome.ret.injEq] at h
      subst h
      exact ⟨hin'.symm, fun _ => rfl, hq, rfl, rfl, fun hf => by simp at hf⟩

end geostore

namespace geostore

theorem valid_of_reachable {level : Int} {quad : Quadrant} {c : Int} {t : QuadTree}
    (h : Reachable level quad c t) : Valid c t ∧ t.Quadrant = quad ∧ t.Level = level := by
  induction h with
  | fresh => exact ⟨valid_NewQuadTree _ _ _, rfl, rfl⟩
  | step t t' fuel n b _ hins ih =>
    obtain ⟨_, _, hv, hq, hl, _⟩ := insert_spec c fuel t n (t', b) ih.1 hins
    exact ⟨hv, hq.trans ih.2.1, hl.trans ih.2.2⟩

theorem insertSeq_spec {c : Int} {q t : QuadTree} {ns : List Node} (h : InsertSeq q ns t) :
    Valid c q → (∀ n ∈ ns, q.Quadrant.inQuadrant n = true) →
      Valid c t ∧ t.leafNodes.Perm (q.leafNodes ++ ns) ∧ t.Quadrant = q.Quadrant := by
  induction h with
  | nil q => intro hq _; exact ⟨hq, by simp, rfl⟩
  | cons q q' t n ns fuel b hins _ ih =>
    intro hq hin
    obtain ⟨hb, _, hv, hquad, _, hperm⟩ := insert_spec c fuel q n (q', b) hq hins
    have hb' : b = true := by
      simpa [hin n (List.mem_cons_self _ _)] using hb
    have hin' : ∀ m ∈ ns, q'.Quadrant.inQuadrant m = true := by
      intro m hm; rw [hquad]; exact hin m (List.mem_cons_of_mem _ hm)
    obtain ⟨i1, i2, i3⟩ := ih hv hin'
    refine ⟨i1, ?_, i3.trans hquad⟩
    refine i2.trans ?_
    refine (List.Perm.append_right ns (hperm hb')).trans ?_
    simpa using (@List.perm_middle _ n q.leafNodes ns).symm

theorem leaf_length_le {c : Int} {q : QuadTree} (h : Valid c q)
    (hsub : q.isSubdivided = false) : (q.leafNodes.length : Int) ≤ max c 0 := by
  cases h with
  | node _ _ hs _ _ _ _ _ _ => rw [hsub] at hs; cases hs
  | leaf _ _ _ _ _ hlen =>
    rw [leafNodes_eq, hsub]
    simpa using hlen

/-- Claim C1.  For every capacity `c ≥ 1` and every sequence of more than `c` nodes of
the root quadrant whose insertions into the fresh leaf `NewQuadTree level quad c` all
return, the resulting root is internal (`isSubdivided`, the four child pointers NW,
NE, SW, SE set, `QuadTrees` of length four) and the nodes collected over all leaves
are, as a multiset, exactly the inserted nodes: none lost, none stored twice. -/
theorem insert_many_subdivides_and_keeps_nodes (c : Int) (hc : 1 ≤ c) (level : Int)
    (quad : Quadrant) (ns : List Node) (hN : c < (ns.length : Int))
    (hin : ∀ n ∈ ns, quad.inQuadrant n = true) (t : QuadTree)
    (h : InsertSeq (NewQuadTree level quad c) ns t) :
    t.isSubdivided = true ∧
      (∃ nw ne sw se, t.NW = some nw ∧ t.NE = some ne ∧ t.SW = some sw ∧ t.SE = some se) ∧
      t.QuadTrees.length = 4 ∧
      (t.leafNodes : Multiset Node) = (ns : Multiset Node) := by
  obtain ⟨hv, hperm, _⟩ := insertSeq_spec h (valid_NewQuadTree level quad c) hin
  have hperm' : t.leafNodes.Perm ns := by
    simpa [leafNodes_eq, NewQuadTree] using hperm
  have hsub : t.isSubdivided = true := by
    by_contra hns
    have hns' : t.isSubdivided = false := by simpa using hns
    have := leaf_length_le hv hns'
    rw [hperm'.length_eq] at this
    omega
  obtain ⟨_, kid, hk⟩ := kidsValid_of_valid hv hsub
  refine ⟨hsub, ⟨kid .NW, kid .NE, kid .SW, kid .SE, (hk .NW).1, (hk .NE).1, (hk .SW).1,
    (hk .SE).1⟩, by simp [QuadTree.QuadTrees, hsub], Multiset.coe_eq_coe.mpr hperm'⟩

end geostore

namespace geostore

/-! ### Region lookup -/

theorem firstContaining_spec (p : Node) (q : QuadTree) :
    ∀ ss : List Slot, (∀ s ∈ ss, ∃ k, q.child s = some k) →
      (∃ s ∈ ss, ∃ k, q.child s = some k ∧ k.Quadrant.inQuadrant p = true ∧
        firstContaining p q ss = .ret (some k)) ∨
      ((∀ s ∈ ss, ∀ k, q.child s = some k → k.Quadrant.inQuadrant p = false) ∧
        firstContaining p q ss = .ret none) := by
  intro ss
  induction ss with
  | nil => intro _; right; exact ⟨fun s hs => (by cases hs), rfl⟩
  | cons s rest ih =>
    intro hk
    obtain ⟨k, hks⟩ := hk s (List.mem_cons_self _ _)
    by_cases hin : k.Quadrant.inQuadrant p = true
    · left
      exact ⟨s, List.mem_cons_self _ _, k, hks, hin, by simp [firstContaining, hks, hin]⟩
    · have hin' : k.Quadrant.inQuadrant p = false := by simpa using hin
      have hstep : firstContaining p q (s :: rest) = firstContaining p q rest := by
        simp [firstContaining, hks, hin']
      rcases ih (fun t ht => hk t (List.mem_cons_of_mem _ ht)) with
        ⟨t, ht, kt, h1, h2, h3⟩ | ⟨h1, h2⟩
      · left
        exact ⟨t, List.mem_cons_of_mem _ ht, kt, h1, h2, hstep.trans h3⟩
      · right
        refine ⟨fun t ht kt hkt => ?_, hstep.trans h2⟩
        rcases List.mem_cons.mp ht with rfl | ht
        · rw [hks] at hkt; cases hkt; exact hin'
        · exact h1 t ht kt hkt

/-- On a valid tree, the lookup of a point of the root quadrant returns, for every
budget from some bound on, one and the same leaf whose quadrant contains the point. -/
theorem findLoop_valid {c : Int} {q : QuadTree} (hq : Valid c q) (p : Node) :
    q.Quadrant.inQuadrant p = true →
    ∃ leaf fuel0, leaf.isSubdivided = false ∧ leaf.Quadrant.inQuadrant p = true ∧
      Valid c leaf ∧ ∀ fuel, fuel0 ≤ fuel → findLoop fuel p [q] = .ret (some leaf) := by
  induction hq with
  | leaf q hsub _ _ _ _ =>
    intro hin
    refine ⟨q, 1, hsub, hin, Valid.leaf q hsub ‹_› ‹_› ‹_› ‹_›, fun fuel hf => ?_⟩
    obtain ⟨f, rfl⟩ : ∃ f, fuel = f + 1 := ⟨fuel - 1, by omega⟩
    simp [findLoop, hsub, hin]
  | node q kid hsub hkid hquad _ _ _ hvalid ih =>
    intro hin
    rcases firstContaining_spec p q q.QuadTrees (fun s _ => ⟨kid s, hkid s⟩) with
      ⟨s, _, k, h1, h2, h3⟩ | ⟨h1, _⟩
    · have hks : k = kid s := by
        have := hkid s; rw [h1] at this; exact Option.some.inj this
      subst hks
      obtain ⟨leaf, fuel0, g1, g2, g3, g4⟩ := ih s h2
      refine ⟨leaf, fuel0 + 1, g1, g2, g3, fun fuel hf => ?_⟩
      obtain ⟨f, rfl⟩ : ∃ f, fuel = f + 1 := ⟨fuel - 1, by omega⟩
      simp only [findLoop, hsub, if_true, h3, Outcome.bind_ret, List.length_nil, queueCap,
        List.nil_append]
      simpa using g4 f (by omega)
    · obtain ⟨s, hs⟩ := sub_cover q.Quadrant p hin
      have := h1 s (mem_QuadTrees q hsub s) (kid s) (hkid s)
      rw [hquad s, hs] at this
      cases this

/-- On a valid tree, the lookup of a point outside the root quadrant processes the root,
finds nothing to enqueue and then waits on the empty channel. -/
theorem findLoop_outside {c : Int} {q : QuadTree} (hq : Valid c q) (p : Node)
    (hout : q.Quadrant.inQuadrant p = false) (fuel : Nat) :
    findLoop (fuel + 1) p [q] = .blocked := by
  cases hq with
  | leaf _ hsub _ _ _ _ =>
    cases fuel <;> simp [findLoop, hsub, hout]
  | node _ kid hsub hkid hquad _ _ _ _ =>
    rcases firstContaining_spec p q q.QuadTrees (fun s _ => ⟨kid s, hkid s⟩) with
      ⟨s, _, k, h1, h2, _⟩ | ⟨_, h2⟩
    · have hks : k = kid s := by
        have := hkid s; rw [h1] at this; exact Option.some.inj this
      subst hks
      rw [hquad s] at h2
      rw [sub_subset q.Quadrant s p h2] at hout
      cases hout
    · cases fuel <;> simp [findLoop, hsub, h2]

end geostore

namespace geostore

/-! ### Evaluation on the concrete inputs -/

theorem insert_exA : (NewQuadTree 1 exQuad 1).insert 1 exA = .ret (exLeafA, true) := by
  norm_num [QuadTree.insert, Quadrant.inQuadrant, NewQuadTree, exQuad, exA, exLeafA]

theorem insert_exB : exLeafA.insert 2 exB = .ret (exTreeAB, true) := by
  norm_num [QuadTree.insert, QuadTree.splitWith, QuadTree.redistribute, QuadTree.insertFirst,
    QuadTree.qts, QuadTree.child, QuadTree.setChild, Quadrant.inQuadrant, NewQuadTree,
    NewQuadrant, exQuad, exA, exB, exLeafA, exTreeAB, Outcome.bind]

theorem insert_exOut : exTreeAB.insert 1 exOut = .ret (exTreeAB, false) := by
  norm_num [QuadTree.insert, Quadrant.inQuadrant, NewQuadTree, exQuad, exOut, exTreeAB]

theorem insertSeq_exAB : InsertSeq (NewQuadTree 1 exQuad 1) [exA, exB] exTreeAB :=
  InsertSeq.cons _ _ _ _ _ 1 true insert_exA
    (InsertSeq.cons _ _ _ _ _ 2 true insert_exB (InsertSeq.nil _))

theorem reachable_exTreeAB : Reachable 1 exQuad 1 exTreeAB :=
  Reachable.step _ _ 2 exB true (Reachable.step _ _ 1 exA true Reachable.fresh insert_exA)
    insert_exB

/-- Witness for C1: capacity 1, the two nodes `exA`, `exB` inserted into the fresh leaf
on `[0,4] x [0,4]`. -/
theorem insert_many_subdivides_and_keeps_nodes_witness :
    (1 : Int) ≤ 1 ∧ (1 : Int) < (([exA, exB] : List Node).length : Int) ∧
    (∀ n ∈ [exA, exB], exQuad.inQuadrant n = true) ∧
    InsertSeq (NewQuadTree 1 exQuad 1) [exA, exB] exTreeAB ∧
    (exTreeAB.isSubdivided = true ∧
      (∃ nw ne sw se, exTreeAB.NW = some nw ∧ exTreeAB.NE = some ne ∧
        exTreeAB.SW = some sw ∧ exTreeAB.SE = some se) ∧
      exTreeAB.QuadTrees.length = 4 ∧
      (exTreeAB.leafNodes : Multiset Node) = (([exA, exB] : List Node) : Multiset Node)) :=
  have h1 : (1 : Int) ≤ 1 := le_refl _
  have h2 : (1 : Int) < (([exA, exB] : List Node).length : Int) := by norm_num
  have h3 : ∀ n ∈ [exA, exB], exQuad.inQuadrant n = true := by
    intro n hn
    simp only [List.mem_cons, List.mem_singleton, List.not_mem_nil, or_false] at hn
    rcases hn with rfl | rfl <;> norm_num [Quadrant.inQuadrant, exQuad, exA, exB]
  ⟨h1, h2, h3, insertSeq_exAB,
    insert_many_subdivides_and_keeps_nodes 1 h1 1 exQuad [exA, exB] h2 h3 exTreeAB
      insertSeq_exAB⟩

/-- Claim C2.  For every tree `t` reachable from a fresh leaf by inserts that return
and every node `P` strictly inside the root quadrant (which makes the root quadrant
well-formed), once `insert(P)` has returned, `findQuadTree(P, root)` returns: for every
iteration budget from some bound on it yields one and the same tree node, which is not
subdivided (a leaf) and whose quadrant contains `P`. -/
theorem findQuadTree_after_insert (level : Int) (quad : Quadrant) (c : Int)
    (t t' : QuadTree) (P : Node) (fuel : Nat) (b : Bool)
    (hreach : Reachable level quad c t)
    (hP : quad.XMin < P.X ∧ P.X < quad.XMax ∧ quad.YMin < P.Y ∧ P.Y < quad.YMax)
    (hins : t.insert fuel P = .ret (t', b)) :
    ∃ leaf fuel0, (∀ f, fuel0 ≤ f → findQuadTree f P t' = .ret (some leaf)) ∧
      leaf.isSubdivided = false ∧ leaf.Quadrant.inQuadrant P = true := by
  obtain ⟨hv, hq, _⟩ := valid_of_reachable (Reachable.step t t' fuel P b hreach hins)
  have hin : t'.Quadrant.inQuadrant P = true := by
    rw [hq, inQuadrant_iff]
    exact ⟨hP.1.le, hP.2.1.le, hP.2.2.1.le, hP.2.2.2.le⟩
  obtain ⟨leaf, fuel0, g1, g2, _, g4⟩ := findLoop_valid hv P hin
  exact ⟨leaf, fuel0, g4, g1, g2⟩

/-- Witness for C2: `exB` inserted into the reachable leaf holding `exA`. -/
theorem findQuadTree_after_insert_witness :
    Reachable 1 exQuad 1 exLeafA ∧
    (exQuad.XMin < exB.X ∧ exB.X < exQuad.XMax ∧ exQuad.YMin < exB.Y ∧ exB.Y < exQuad.YMax) ∧
    exLeafA.insert 2 exB = .ret (exTreeAB, true) ∧
    ∃ leaf fuel0, (∀ f, fuel0 ≤ f → findQuadTree f exB exTreeAB = .ret (some leaf)) ∧
      leaf.isSubdivided = false ∧ leaf.Quadrant.inQuadrant exB = true :=
  have h1 : Reachable 1 exQuad 1 exLeafA :=
    Reachable.step _ _ 1 exA true Reachable.fresh insert_exA
  have h2 : exQuad.XMin < exB.X ∧ exB.X < exQuad.XMax ∧ exQuad.YMin < exB.Y ∧
      exB.Y < exQuad.YMax := by
    norm_num [exQuad, exB]
  ⟨h1, h2, insert_exB, findQuadTree_after_insert 1 exQuad 1 exLeafA exTreeAB exB 2 true h1 h2
    insert_exB⟩

end geostore

namespace geostore

theorem valid_globeRoot : Valid 4 globeRoot :=
  valid_NewQuadTree _ _ _

/-- Claim C3, evaluated on the code.  On the fresh whole-globe tree of capacity 4, the
lookup of the point `lat = 100, long = 0` (translated `(180, 190)`, outside the root
quadrant `[0,360] x [0,180]`) never returns: with any budget of at least one iteration
`findQuadTree` ends blocked on its empty, never closed channel instead of returning
nil, and so `InMemGeoStore.FindNearest` blocks as well instead of returning an empty
list. -/
theorem findQuadTree_outside_never_returns :
    (geostore.globeRoot.Quadrant.inQuadrant (geostore.NewNode 0 100 1) = false) ∧
    (∀ fuel, geostore.findQuadTree (fuel + 1) (geostore.NewNode 0 100 1) geostore.globeRoot
      = Outcome.blocked) ∧
    (∀ fuel r, geostore.findQuadTree fuel (geostore.NewNode 0 100 1) geostore.globeRoot
      ≠ Outcome.ret r) ∧
    (∀ fuel, geostore.InMemGeoStore.FindNearest (fuel + 1)
      (geostore.NewGeoStoreInMem geostore.globeRoot) 100 0 0 0 = Outcome.blocked) ∧
    (∀ fuel ids, geostore.InMemGeoStore.FindNearest fuel
      (geostore.NewGeoStoreInMem geostore.globeRoot) 100 0 0 0 ≠ Outcome.ret ids) := by
  have hout : globeRoot.Quadrant.inQuadrant (NewNode 0 100 1) = false := by
    norm_num [Quadrant.inQuadrant, globeRoot, NewQuadTree, NewQuadrant, NewNode, GpsToAbsolute]
  have hb : ∀ fuel, findQuadTree (fuel + 1) (NewNode 0 100 1) globeRoot = Outcome.blocked :=
    fun fuel => findLoop_outside valid_globeRoot _ hout fuel
  have hn : ∀ fuel r, findQuadTree fuel (NewNode 0 100 1) globeRoot ≠ Outcome.ret r := by
    intro fuel r
    cases fuel with
    | zero => simp [findQuadTree, findLoop]
    | succ f => rw [hb f]; simp
  refine ⟨hout, hb, hn, fun fuel => ?_, fun fuel ids => ?_⟩
  · simp only [InMemGeoStore.FindNearest, NewGeoStoreInMem, hb fuel, Outcome.bind]
  · cases fuel with
    | zero => simp [InMemGeoStore.FindNearest, NewGeoStoreInMem, findQuadTree, findLoop,
        Outcome.bind]
    | succ f => simp only [InMemGeoStore.FindNearest, NewGeoStoreInMem, hb f, Outcome.bind]; simp

/-- The same on every reachable tree: a lookup outside the root quadrant blocks. -/
theorem findQuadTree_outside_blocks (level : Int) (quad : Quadrant) (c : Int) (t : QuadTree)
    (hreach : Reachable level quad c t) (lat long maxDistance : ℚ) (limit : Int)
    (hout : quad.inQuadrant (NewNode long lat 1) = false) (fuel : Nat) :
    findQuadTree (fuel + 1) (NewNode long lat 1) t = .blocked ∧
      InMemGeoStore.FindNearest (fuel + 1) (NewGeoStoreInMem t) lat long maxDistance limit
        = .blocked := by
  obtain ⟨hv, hq, _⟩ := valid_of_reachable hreach
  have hb : findQuadTree (fuel + 1) (NewNode long lat 1) t = .blocked :=
    findLoop_outside hv _ (by rw [hq]; exact hout) fuel
  exact ⟨hb, by simp only [InMemGeoStore.FindNearest, NewGeoStoreInMem, hb, Outcome.bind]⟩

/-- Claim C4.  For every reachable tree and every query `(lat, long)` whose translated
point lies in the root quadrant, `findQuadTree` returns a leaf (the same one for every
budget from some bound on) and, for all values of `maxDistance` and `limit`,
`InMemGeoStore.FindNearest` returns exactly the ids of the nodes of that leaf, one id
per node in the stored order. -/
theorem FindNearest_returns_leaf_ids (level : Int) (quad : Quadrant) (c : Int) (t : QuadTree)
    (lat long : ℚ) (hreach : Reachable level quad c t)
    (hin : quad.inQuadrant (NewNode long lat 1) = true) :
    ∃ leaf fuel0, ∀ fuel, fuel0 ≤ fuel →
      findQuadTree fuel (NewNode long lat 1) t = .ret (some leaf) ∧
      ∀ (maxDistance : ℚ) (limit : Int),
        InMemGeoStore.FindNearest fuel (NewGeoStoreInMem t) lat long maxDistance limit
          = .ret (leaf.Nodes.map fun n => n.Id) := by
  obtain ⟨hv, hq, _⟩ := valid_of_reachable hreach
  obtain ⟨leaf, fuel0, _, _, _, g4⟩ := findLoop_valid hv (NewNode long lat 1)
    (by rw [hq]; exact hin)
  refine ⟨leaf, fuel0, fun fuel hf => ⟨g4 fuel hf, fun maxDistance limit => ?_⟩⟩
  have h : findQuadTree fuel (NewNode long lat 1) t = .ret (some leaf) := g4 fuel hf
  simp only [InMemGeoStore.FindNearest, NewGeoStoreInMem, h, Outcome.bind]

/-- Witness for C4: the query `lat = -89, long = -179` (translated `(1, 1)`) on the
tree holding `exA` and `exB`. -/
theorem FindNearest_returns_leaf_ids_witness :
    Reachable 1 exQuad 1 exTreeAB ∧ exQuad.inQuadrant (NewNode (-179) (-89) 1) = true ∧
    ∃ leaf fuel0, ∀ fuel, fuel0 ≤ fuel →
      findQuadTree fuel (NewNode (-179) (-89) 1) exTreeAB = .ret (some leaf) ∧
      ∀ (maxDistance : ℚ) (limit : Int),
        InMemGeoStore.FindNearest fuel (NewGeoStoreInMem exTreeAB) (-89) (-179) maxDistance
          limit = .ret (leaf.Nodes.map fun n => n.Id) :=
  have h : exQuad.inQuadrant (NewNode (-179) (-89) 1) = true := by
    norm_num [Quadrant.inQuadrant, exQuad, NewNode, GpsToAbsolute]
  ⟨reachable_exTreeAB, h,
    FindNearest_returns_leaf_ids 1 exQuad 1 exTreeAB (-89) (-179) reachable_exTreeAB h⟩

/-- Claim C5.  For every tree and node, a call of `insert` that returns yields false
exactly when the node lies outside the quadrant of the tree's root, and then the whole
tree is left as it was; for a node inside the root quadrant it yields true. -/
theorem insert_false_iff_outside (fuel : Nat) (q : QuadTree) (n : Node) (r : QuadTree × Bool)
    (h : q.insert fuel n = .ret r) :
    (r.2 = false ↔ q.Quadrant.inQuadrant n = false) ∧ (r.2 = false → r.1 = q) ∧
      (q.Quadrant.inQuadrant n = true → r.2 = true) := by
  cases fuel with
  | zero => simp [QuadTree.insert] at h
  | succ fuel =>
    rw [QuadTree.insert] at h
    by_cases hin : q.Quadrant.inQuadrant n = true
    · have hr : r.2 = true := by
        simp only [hin, Bool.not_true, Bool.false_eq_true, if_false] at h
        split_ifs at h
        · obtain ⟨_, _, h⟩ := Outcome.bind_eq_ret h
          simp only [Outcome.ret.injEq] at h
          rw [← h]
        · simp only [Outcome.ret.injEq] at h
          rw [← h]
        · rw [QuadTree.splitWith] at h
          obtain ⟨_, _, h⟩ := Outcome.bind_eq_ret h
          simp only [Outcome.ret.injEq] at h
          rw [← h]
      simp [hin, hr]
    · have hin' : q.Quadrant.inQuadrant n = false := by simpa using hin
      simp only [hin', Bool.not_false, if_true, Outcome.ret.injEq] at h
      subst h
      simp [hin']

/-- Witness for C5: the outside node `exOut` offered to the tree holding `exA`, `exB`. -/
theorem insert_false_iff_outside_witness :
    exTreeAB.insert 1 exOut = .ret (exTreeAB, false) ∧
    (((exTreeAB, false) : QuadTree × Bool).2 = false ↔ exTreeAB.Quadrant.inQuadrant exOut = false) ∧
    ((((exTreeAB, false) : QuadTree × Bool).2 = false) →
      ((exTreeAB, false) : QuadTree × Bool).1 = exTreeAB) ∧
    (exTreeAB.Quadrant.inQuadrant exOut = true → ((exTreeAB, false) : QuadTree × Bool).2 = true) :=
  ⟨insert_exOut, insert_false_iff_outside 1 exTreeAB exOut (exTreeAB, false) insert_exOut⟩

end geostore

/-! ### Go maps -/

namespace GoMap

variable {K V : Type} [DecidableEq K]

theorem get_set_same (m : GoMap K V) (k : K) (v : V) : (m.set k v).get k = some v := by
  induction m with
  | nil => simp [set, get]
  | cons kv rest ih =>
    obtain ⟨k', v'⟩ := kv
    by_cases h : k' = k
    · simp [set, get, h]
    · simp [set, get, h, ih]

theorem get_set_other (m : GoMap K V) (k k' : K) (v : V) (h : k' ≠ k) :
    (m.set k v).get k' = m.get k' := by
  induction m with
  | nil => simp [set, get, Ne.symm h]
  | cons kv rest ih =>
    obtain ⟨k₁, v₁⟩ := kv
    by_cases h1 : k₁ = k
    · subst h1
      simp [set, get, Ne.symm h]
    · by_cases h2 : k₁ = k'
      · subst h2
        simp [set, get, h1]
      · simp [set, get, h1, h2, ih]

theorem get_set (m : GoMap K V) (k k' : K) (v : V) :
    (m.set k v).get k' = if k' = k then some v else m.get k' := by
  by_cases h : k' = k
  · subst h; simp [get_set_same]
  · simp [h, get_set_other m k k' v h]

theorem get_eq_none_iff (m : GoMap K V) (k : K) : m.get k = none ↔ k ∉ m.keys := by
  induction m with
  | nil => simp [get, keys]
  | cons kv rest ih =>
    obtain ⟨k₁, v₁⟩ := kv
    by_cases h1 : k₁ = k
    · simp [get, keys, h1]
    · simp only [get, h1, if_false, ih, keys, List.map_cons, List.mem_cons, not_or]
      exact ⟨fun h => ⟨fun e => h1 e.symm, h⟩, fun h => h.2⟩

theorem keys_set (m : GoMap K V) (k : K) (v : V) :
    (m.set k v).keys = if k ∈ m.keys then m.keys else m.keys ++ [k] := by
  induction m with
  | nil => simp [set, keys]
  | cons kv rest ih =>
    obtain ⟨k₁, v₁⟩ := kv
    by_cases h1 : k₁ = k
    · simp [set, keys, h1]
    · have ih' : List.map Prod.fst (set rest k v) =
          if k ∈ List.map Prod.fst rest then List.map Prod.fst rest
          else List.map Prod.fst rest ++ [k] := ih
      have h1' : ¬ k = k₁ := fun e => h1 e.symm
      simp only [set, h1, if_false, keys, List.map_cons, List.mem_cons, h1', false_or, ih']
      split_ifs <;> simp

theorem mem_keys_set (m : GoMap K V) (k k' : K) (v : V) :
    k' ∈ (m.set k v).keys ↔ k' = k ∨ k' ∈ m.keys := by
  rw [keys_set]
  split_ifs with h
  · constructor
    · exact Or.inr
    · rintro (rfl | h') <;> assumption
  · simp [or_comm]

theorem nodup_keys_set (m : GoMap K V) (k : K) (v : V) (h : m.keys.Nodup) :
    (m.set k v).keys.Nodup := by
  rw [keys_set]
  split_ifs with hk
  · exact h
  · exact List.Nodup.append h (List.nodup_singleton k) (by simpa using hk)

end GoMap

namespace model

/-! ### Lookups by id and by name -/

/-- Claim C10.  In every store state `GetById(id)` fails exactly when no record is
stored under `id`, the error then being a `CacheNotFoundErr` that carries `id`;
`GetByName(name)` fails exactly when no record is stored under `name`, the error then
being a `CacheNotFoundErr` that carries `name`; otherwise each returns the fields of the
stored record with a nil error. -/
theorem GetById_GetByName_notFound_iff (s : InMemCacheStore) (id : Nat) (name : String) :
    ((s.GetById id).2 ≠ none ↔ s.caches.get id = none) ∧
    (s.caches.get id = none → s.GetById id = (Cache.zero, some (GoError.CacheNotFoundErr id ""))) ∧
    (∀ p, s.caches.get id = some p → s.GetById id = (s.deref p, none)) ∧
    ((s.GetByName name).2 ≠ none ↔ s.cachesByName.get name = none) ∧
    (s.cachesByName.get name = none →
      s.GetByName name = (Cache.zero, some (GoError.CacheNotFoundErr 0 name))) ∧
    (∀ p, s.cachesByName.get name = some p → s.GetByName name = (s.deref p, none)) := by
  refine ⟨?_, ?_, ?_, ?_, ?_, ?_⟩
  · cases h : s.caches.get id <;> simp [InMemCacheStore.GetById, h]
  · intro h; simp [InMemCacheStore.GetById, h]
  · intro p h; simp [InMemCacheStore.GetById, h, copyCache]
  · cases h : s.cachesByName.get name <;> simp [InMemCacheStore.GetByName, h]
  · intro h; simp [InMemCacheStore.GetByName, h]
  · intro p h; simp [InMemCacheStore.GetByName, h, copyCache]

end model

namespace model

/-! ### `Create` -/

theorem foldl_set_true_get (tags : List String) (m : GoMap String Bool) (x : String) :
    (tags.foldl (fun t tag => t.set tag true) m).get x =
      if x ∈ tags then some true else m.get x := by
  induction tags generalizing m with
  | nil => simp
  | cons a rest ih =>
    rw [List.foldl_cons, ih, GoMap.get_set]
    by_cases h1 : x ∈ rest
    · simp [h1]
    · by_cases h2 : x = a
      · simp [h2]
      · simp [h1, h2]

theorem tagSet_get (tags : List String) (x : String) :
    (tagSet tags).get x = if x ∈ tags then some true else none := by
  rw [tagSet, foldl_set_true_get]
  simp [GoMap.get]

/-- What a returning `Create` leaves behind, field by field. -/
theorem Create_eq_ret {fuel : Nat} {s s' : InMemCacheStore} {name : String} {lat long : ℚ}
    {tags : List String} {id : Nat} {err : Option GoError}
    (h : s.Create fuel name lat long tags = .ret (s', id, err)) :
    id = s.sCounter ∧ err = none ∧
    s'.heapTags = s.heapTags ++ [tagSet tags] ∧
    s'.heapCaches = s.heapCaches ++ [Cache.mk s.sCounter name lat long (some s.heapTags.length)] ∧
    s'.caches = s.caches.set s.sCounter s.heapCaches.length ∧
    s'.sCounter = (s.sCounter + 1) % 2 ^ 64 ∧
    s'.cachesByName = s.cachesByName.set name s.heapCaches.length ∧
    s'.cachesByTag = indexTags s.heapCaches.length tags s.cachesByTag ∧
    s.geostore.Insert fuel (geostore.NewNode long lat s.sCounter) = .ret s'.geostore := by
  simp only [InMemCacheStore.Create] at h
  obtain ⟨g, hg, h⟩ := Outcome.bind_eq_ret h
  simp only [Outcome.ret.injEq, Prod.mk.injEq] at h
  obtain ⟨h1, h2, h3⟩ := h
  subst h1
  exact ⟨h2.symm, h3.symm, rfl, rfl, rfl, rfl, rfl, rfl, hg⟩

/-- Claim C8.  For every store state and all arguments, if `Create(name, lat, long,
tags)` returns `id`, then right afterwards `GetById(id)` and `GetByName(name)` both
succeed (nil error) and return one and the same record, with `Id = id`, `Name = name`,
`Lat = lat`, `Long = long` and a tag map whose keys are exactly the strings of `tags`
(each mapped to true). -/
theorem Create_then_get_roundtrip (fuel : Nat) (s s' : InMemCacheStore) (name : String)
    (lat long : ℚ) (tags : List String) (id : Nat) (err : Option GoError)
    (h : s.Create fuel name lat long tags = .ret (s', id, err)) :
    ∃ c : Cache, s'.GetById id = (c, none) ∧ s'.GetByName name = (c, none) ∧
      c.Id = id ∧ c.Name = name ∧ c.Lat = lat ∧ c.Long = long ∧
      ∀ x, (s'.tagsOf c).get x = if x ∈ tags then some true else none := by
  obtain ⟨hid, _, hT, hC, hcaches, _, hnames, _, _⟩ := Create_eq_ret h
  subst hid
  have hderef : s'.deref s.heapCaches.length =
      Cache.mk s.sCounter name lat long (some s.heapTags.length) := by
    simp [InMemCacheStore.deref, hC, List.getD_append_right]
  refine ⟨Cache.mk s.sCounter name lat long (some s.heapTags.length), ?_, ?_, rfl, rfl, rfl,
    rfl, fun x => ?_⟩
  · simp [InMemCacheStore.GetById, hcaches, GoMap.get_set_same, hderef, copyCache]
  · simp [InMemCacheStore.GetByName, hnames, GoMap.get_set_same, hderef, copyCache]
  · simp only [InMemCacheStore.tagsOf, hT]
    rw [List.getD_append_right _ _ _ _ (le_refl _)]
    simp [tagSet_get]

theorem Create_exStore1 :
    (NewCacheStore globeStore).Create 1 "s1" 0 0 ["ocean", "atlantic"]
      = .ret (exStore1, 1, none) := by
  norm_num [InMemCacheStore.Create, NewCacheStore, globeStore, geostore.NewGeoStoreInMem,
    geostore.InMemGeoStore.Insert, geostore.QuadTree.insert, geostore.globeRoot,
    geostore.NewQuadTree, geostore.NewQuadrant, geostore.NewNode, geostore.GpsToAbsolute,
    geostore.Quadrant.inQuadrant, Outcome.bind, exStore1, tagSet, indexTags, GoMap.set,
    GoMap.get]
  decide

/-- Witness for C8: `Create("s1", 0, 0, ["ocean", "atlantic"])` on the fresh store. -/
theorem Create_then_get_roundtrip_witness :
    (NewCacheStore globeStore).Create 1 "s1" 0 0 ["ocean", "atlantic"]
      = .ret (exStore1, 1, none) ∧
    ∃ c : Cache, exStore1.GetById 1 = (c, none) ∧ exStore1.GetByName "s1" = (c, none) ∧
      c.Id = 1 ∧ c.Name = "s1" ∧ c.Lat = 0 ∧ c.Long = 0 ∧
      ∀ x, (exStore1.tagsOf c).get x = if x ∈ ["ocean", "atlantic"] then some true else none :=
  ⟨Create_exStore1,
    Create_then_get_roundtrip 1 (NewCacheStore globeStore) exStore1 "s1" 0 0
      ["ocean", "atlantic"] 1 none Create_exStore1⟩

end model

namespace model

/-! ### The tag index -/

theorem keysAt_step (p : Nat) (m : GoMap String (GoMap Nat Bool)) (a t : String) :
    keysAt (match m.get a with
      | none => m.set a (GoMap.set [] p true)
      | some tMap => m.set a (tMap.set p true)) t =
    if t = a then (if p ∈ keysAt m a then keysAt m a else keysAt m a ++ [p])
    else keysAt m t := by
  cases h : m.get a with
  | none =>
    by_cases hta : t = a
    · subst hta
      simp [keysAt, h, GoMap.get_set_same, GoMap.set, GoMap.keys]
    · simp [keysAt, GoMap.get_set_other _ _ _ _ hta, hta]
  | some tMap =>
    by_cases hta : t = a
    · subst hta
      simp only [keysAt, h, GoMap.get_set_same, GoMap.keys_set, if_true]
    · simp [keysAt, GoMap.get_set_other _ _ _ _ hta, hta]

theorem mem_keysAt_indexTags (p : Nat) (tags : List String) (m : GoMap String (GoMap Nat Bool))
    (t : String) (p' : Nat) :
    p' ∈ keysAt (indexTags p tags m) t ↔ p' ∈ keysAt m t ∨ (p' = p ∧ t ∈ tags) := by
  induction tags generalizing m with
  | nil => simp [indexTags]
  | cons a rest ih =>
    have hstep : indexTags p (a :: rest) m = indexTags p rest (match m.get a with
        | none => m.set a (GoMap.set [] p true)
        | some tMap => m.set a (tMap.set p true)) := by
      simp [indexTags]
    rw [hstep, ih, keysAt_step]
    by_cases hta : t = a
    · subst hta
      by_cases hp : p ∈ keysAt m t
      · simp only [if_true, hp, List.mem_cons, true_or, and_true]
        constructor
        · rintro (h | h)
          · exact Or.inl h
          · exact Or.inr h.1
        · rintro (h | h)
          · exact Or.inl h
          · exact Or.inl (h ▸ hp)
      · simp only [if_true, hp, if_false, List.mem_append, List.mem_singleton, List.mem_cons,
          true_or, and_true]
        tauto
    · simp only [hta, if_false, List.mem_cons, false_or]

theorem nodup_keysAt_indexTags (p : Nat) (tags : List String)
    (m : GoMap String (GoMap Nat Bool)) (h : ∀ t, (keysAt m t).Nodup) (t : String) :
    (keysAt (indexTags p tags m) t).Nodup := by
  induction tags generalizing m with
  | nil => simpa [indexTags] using h t
  | cons a rest ih =>
    have hstep : indexTags p (a :: rest) m = indexTags p rest (match m.get a with
        | none => m.set a (GoMap.set [] p true)
        | some tMap => m.set a (tMap.set p true)) := by
      simp [indexTags]
    rw [hstep]
    apply ih
    intro u
    rw [keysAt_step]
    split_ifs with h1 h2
    · exact h a
    · exact List.Nodup.append (h a) (List.nodup_singleton p) (by simpa using h2)
    · exact h u

/-- The result of `GetByTags`, tag by tag. -/
theorem GetByTags_eq (s : InMemCacheStore) (ts : List String) :
    s.GetByTags ts =
      (ts.flatMap fun t => (s.indexed t).map fun p => copyCache (s.deref p), none) := by
  have key : ∀ (acc : List Cache),
      ts.foldl (fun caches tag =>
        match s.cachesByTag.get tag with
        | none => caches
        | some m => caches ++ m.keys.map fun p => copyCache (s.deref p)) acc =
      acc ++ ts.flatMap fun t => (s.indexed t).map fun p => copyCache (s.deref p) := by
    induction ts with
    | nil => intro acc; simp
    | cons a rest ih =>
      intro acc
      rw [List.foldl_cons, ih, List.flatMap_cons]
      cases h : s.cachesByTag.get a <;>
        simp [InMemCacheStore.indexed, keysAt, h]
  simp only [InMemCacheStore.GetByTags, key, List.nil_append]

/-- What the calls of `Create` recorded in `log` leave in the store. -/
theorem built_inv {g0 : geostore.InMemGeoStore} {log : List CreateCall} {s : InMemCacheStore}
    (h : Built g0 log s) :
    s.sCounter = (log.length + 1) % 2 ^ 64 ∧
    s.heapCaches.length = log.length ∧
    (∀ p c, log[p]? = some c →
      (s.deref p).Id = c.id ∧ c.id = (p + 1) % 2 ^ 64 ∧ c.err = none) ∧
    (∀ t p, p ∈ s.indexed t ↔ ∃ c, log[p]? = some c ∧ t ∈ c.tags) ∧
    (∀ t, (s.indexed t).Nodup) := by
  induction h with
  | fresh =>
    refine ⟨rfl, rfl, fun p c hc => by simp at hc, fun t p => ?_, fun t => ?_⟩
    · simp [InMemCacheStore.indexed, keysAt, NewCacheStore, GoMap.get]
    · simp [InMemCacheStore.indexed, keysAt, NewCacheStore, GoMap.get]
  | create log s s' fuel name lat long tags id err _ hc ih =>
    obtain ⟨i1, i2, i3, i4, i5⟩ := ih
    obtain ⟨hid, herr, _, hC, _, hctr, _, hbyTag, _⟩ := Create_eq_ret hc
    refine ⟨?_, ?_, ?_, ?_, ?_⟩
    · rw [hctr, i1, List.length_append, List.length_singleton]
      omega
    · rw [hC, List.length_append, List.length_singleton, i2, List.length_append,
        List.length_singleton]
    · intro p c hpc
      rcases Nat.lt_or_ge p log.length with hlt | hge
      · rw [List.getElem?_append_left hlt] at hpc
        have hd : s'.deref p = s.deref p := by
          simp only [InMemCacheStore.deref, hC]
          exact List.getD_append _ _ _ _ (by rw [i2]; exact hlt)
        rw [hd]
        exact i3 p c hpc
      · rw [List.getElem?_append_right hge] at hpc
        have hp : p = log.length := by
          by_contra hne
          have : p - log.length ≠ 0 := by omega
          obtain ⟨k, hk⟩ := Nat.exists_eq_succ_of_ne_zero this
          rw [hk] at hpc
          simp at hpc
        subst hp
        simp only [Nat.sub_self, List.getElem?_cons_zero, Option.some.injEq] at hpc
        subst hpc
        have hd : s'.deref log.length =
            Cache.mk s.sCounter name lat long (some s.heapTags.length) := by
          simp only [InMemCacheStore.deref, hC]
          rw [List.getD_append_right _ _ _ _ (by rw [i2])]
          simp [i2]
        rw [hd]
        exact ⟨hid.symm, by rw [hid, i1], herr⟩
    · intro t p
      simp only [InMemCacheStore.indexed, hbyTag, mem_keysAt_indexTags]
      have i4' := i4 t p
      simp only [InMemCacheStore.indexed] at i4'
      rw [i4', i2]
      constructor
      · rintro (⟨c, hc1, hc2⟩ | ⟨rfl, ht⟩)
        · have hlt : p < log.length := by
            rcases Nat.lt_or_ge p log.length with hlt | hge
            · exact hlt
            · rw [List.getElem?_eq_none hge] at hc1; cases hc1
          exact ⟨c, by rw [List.getElem?_append_left hlt]; exact hc1, hc2⟩
        · exact ⟨CreateCall.mk id err name lat long tags,
            by rw [List.getElem?_append_right (le_refl _)]; simp, ht⟩
      · rintro ⟨c, hc1, hc2⟩
        rcases Nat.lt_or_ge p log.length with hlt | hge
        · rw [List.getElem?_append_left hlt] at hc1
          exact Or.inl ⟨c, hc1, hc2⟩
        · rw [List.getElem?_append_right hge] at hc1
          have hp : p = log.length := by
            by_contra hne
            have : p - log.length ≠ 0 := by omega
            obtain ⟨k, hk⟩ := Nat.exists_eq_succ_of_ne_zero this
            rw [hk] at hc1
            simp at hc1
          subst hp
          simp only [Nat.sub_self, List.getElem?_cons_zero, Option.some.injEq] at hc1
          subst hc1
          exact Or.inr ⟨rfl, hc2⟩
    · intro t
      simp only [InMemCacheStore.indexed, hbyTag]
      exact nodup_keysAt_indexTags _ _ _ (fun u => i5 u) t

end model

namespace model

/-! ### `GetByTags` -/

theorem Create_exStore2 :
    exStore1.Create 1 "s2" 1 1 ["river"] = .ret (exStore2, 2, none) := by
  norm_num [InMemCacheStore.Create, geostore.InMemGeoStore.Insert, geostore.QuadTree.insert,
    geostore.globeRoot, geostore.NewQuadTree, geostore.NewQuadrant, geostore.NewNode,
    geostore.GpsToAbsolute, geostore.Quadrant.inQuadrant, Outcome.bind, exStore1, exStore2,
    tagSet, indexTags, GoMap.set, GoMap.get]
  decide

theorem built_exStore2 : Built globeStore exLog2 exStore2 :=
  Built.create _ _ _ 1 "s2" 1 1 ["river"] 2 none
    (Built.create _ _ _ 1 "s1" 0 0 ["ocean", "atlantic"] 1 none Built.fresh Create_exStore1)
    Create_exStore2

theorem mem_ids_GetByTags (s : InMemCacheStore) (ts : List String) (i : Nat) :
    i ∈ (s.GetByTags ts).1.map Cache.Id ↔
      ∃ t ∈ ts, ∃ p ∈ s.indexed t, (s.deref p).Id = i := by
  rw [GetByTags_eq]
  simp only [List.mem_map, List.mem_flatMap]
  constructor
  · rintro ⟨c, ⟨t, ht, p, hp, rfl⟩, rfl⟩
    exact ⟨t, ht, p, hp, rfl⟩
  · rintro ⟨t, ht, p, hp, rfl⟩
    exact ⟨_, ⟨t, ht, p, hp, rfl⟩, rfl⟩

theorem indexed_eq_nil_of_no_tag {g0 : geostore.InMemGeoStore} {log : List CreateCall}
    {s : InMemCacheStore} (h : Built g0 log s) (u : String) (hu : ∀ c ∈ log, u ∉ c.tags) :
    s.indexed u = [] := by
  obtain ⟨_, _, _, i4, _⟩ := built_inv h
  apply List.eq_nil_iff_forall_not_mem.mpr
  intro p hp
  obtain ⟨c, hc1, hc2⟩ := (i4 u p).mp hp
  exact hu c (List.getElem?_mem hc1) hc2

/-- An id occurs in the result of `GetByTags` exactly when it is the id of a created
record carrying one of the requested tags. -/
theorem ids_GetByTags_of_built {g0 : geostore.InMemGeoStore} {log : List CreateCall}
    {s : InMemCacheStore} (h : Built g0 log s) (ts : List String) :
    ∀ i, i ∈ (s.GetByTags ts).1.map Cache.Id ↔
      ∃ c ∈ log, c.id = i ∧ ∃ t ∈ ts, t ∈ c.tags := by
  obtain ⟨_, _, i3, i4, _⟩ := built_inv h
  intro i
  rw [mem_ids_GetByTags]
  constructor
  · rintro ⟨t, ht, p, hp, hid⟩
    obtain ⟨c, hc1, hc2⟩ := (i4 t p).mp hp
    exact ⟨c, List.getElem?_mem hc1, by rw [← hid]; exact ((i3 p c hc1).1).symm, t, ht, hc2⟩
  · rintro ⟨c, hc, hid, t, ht, hct⟩
    obtain ⟨p, hp⟩ := List.mem_iff_getElem?.mp hc
    exact ⟨t, ht, p, (i4 t p).mpr ⟨c, hp, hct⟩, by rw [(i3 p c hp).1, hid]⟩

/-- Claim C7.  For every store built from a fresh store by calls of `Create` only and
every tag list `ts`, `GetByTags(ts)` returns a nil error, and an id occurs in its
result exactly when it is the id of a created record one of whose tags is in `ts` (OR
semantics); a requested tag carried by no record contributes nothing: dropping it from
(or adding it to) the request, at any position, leaves the result as it is. -/
theorem GetByTags_or_semantics (g0 : geostore.InMemGeoStore) (log : List CreateCall)
    (s : InMemCacheStore) (h : Built g0 log s) (ts : List String) :
    (s.GetByTags ts).2 = none ∧
    (∀ i, i ∈ (s.GetByTags ts).1.map Cache.Id ↔
      ∃ c ∈ log, c.id = i ∧ ∃ t ∈ ts, t ∈ c.tags) ∧
    (∀ u, (∀ c ∈ log, u ∉ c.tags) → ∀ ts1 ts2,
      s.GetByTags (ts1 ++ u :: ts2) = s.GetByTags (ts1 ++ ts2)) := by
  refine ⟨by rw [GetByTags_eq], ids_GetByTags_of_built h ts, fun u hu ts1 ts2 => ?_⟩
  · rw [GetByTags_eq, GetByTags_eq]
    simp [List.flatMap_append, indexed_eq_nil_of_no_tag h u hu]

/-- Witness for C7: the scenario of the specification, `s1` tagged ocean and atlantic,
`s2` tagged river, queried with ocean and the unused tag anemometer. -/
theorem GetByTags_or_semantics_witness :
    Built globeStore exLog2 exStore2 ∧
    ((exStore2.GetByTags ["ocean", "anemometer"]).2 = none ∧
    (∀ i, i ∈ (exStore2.GetByTags ["ocean", "anemometer"]).1.map Cache.Id ↔
      ∃ c ∈ exLog2, c.id = i ∧ ∃ t ∈ ["ocean", "anemometer"], t ∈ c.tags) ∧
    (∀ u, (∀ c ∈ exLog2, u ∉ c.tags) → ∀ ts1 ts2,
      exStore2.GetByTags (ts1 ++ u :: ts2) = exStore2.GetByTags (ts1 ++ ts2))) :=
  ⟨built_exStore2,
    GetByTags_or_semantics globeStore exLog2 exStore2 built_exStore2 ["ocean", "anemometer"]⟩

end model

namespace model

theorem sum_indicator_eq_length_filter (ts : List String) (tags : List String) :
    (ts.map fun t => if t ∈ tags then 1 else 0).sum = (ts.filter fun t => decide (t ∈ tags)).length := by
  induction ts with
  | nil => simp
  | cons a rest ih =>
    by_cases h : a ∈ tags
    · simp [List.filter_cons, h, ih, Nat.add_comm]
    · simp [List.filter_cons, h, ih]

/-- Within one requested tag, a created record occurs once if it carries the tag and
not at all otherwise. -/
theorem count_id_indexed {g0 : geostore.InMemGeoStore} {log : List CreateCall}
    {s : InMemCacheStore} (h : Built g0 log s) (hlen : log.length < 2 ^ 64)
    (c : CreateCall) (hc : c ∈ log) (t : String) :
    ((s.indexed t).map fun p => (copyCache (s.deref p)).Id).count c.id =
      if t ∈ c.tags then 1 else 0 := by
  obtain ⟨_, _, i3, i4, i5⟩ := built_inv h
  obtain ⟨p0, hp0⟩ := List.mem_iff_getElem?.mp hc
  have hp0lt : p0 < log.length := (List.getElem?_eq_some.mp hp0).1
  have hcid : c.id = p0 + 1 := by
    rw [(i3 p0 c hp0).2.1, Nat.mod_eq_of_lt (by omega)]
  have hcount : ((s.indexed t).map fun p => (copyCache (s.deref p)).Id).count c.id =
      (s.indexed t).count p0 := by
    rw [List.count_eq_countP, List.countP_map, List.count_eq_countP]
    apply List.countP_congr
    intro p hp
    obtain ⟨c', hc1, _⟩ := (i4 t p).mp hp
    have hplt : p < log.length := (List.getElem?_eq_some.mp hc1).1
    have hpid : (s.deref p).Id = p + 1 := by
      rw [(i3 p c' hc1).1, (i3 p c' hc1).2.1, Nat.mod_eq_of_lt (by omega)]
    simp only [Function.comp, copyCache, hpid, hcid, beq_iff_eq]
    omega
  rw [hcount]
  by_cases ht : t ∈ c.tags
  · rw [if_pos ht]
    exact List.count_eq_one_of_mem (i5 t) ((i4 t p0).mpr ⟨c, hp0, ht⟩)
  · rw [if_neg ht]
    apply List.count_eq_zero_of_not_mem
    intro hmem
    obtain ⟨c', hc1, hc2⟩ := (i4 t p0).mp hmem
    rw [hp0] at hc1
    cases hc1
    exact ht hc2

/-- Claim C6 as the code has it.  For every store built from a fresh store by fewer
than 2^64 calls of `Create` and every list `ts` of requested tags, the id of a created
record occurs in the result of `GetByTags(ts)` once for every position of `ts` whose
tag the record carries; hence no id occurs more than once when the requested tags are
pairwise distinct and no record carries two of them. -/
theorem GetByTags_id_count (g0 : geostore.InMemGeoStore) (log : List CreateCall)
    (s : InMemCacheStore) (h : Built g0 log s) (hlen : log.length < 2 ^ 64)
    (ts : List String) :
    (∀ c ∈ log, ((s.GetByTags ts).1.map Cache.Id).count c.id =
      (ts.filter fun t => decide (t ∈ c.tags)).length) ∧
    (ts.Nodup → (∀ c ∈ log, ∀ t ∈ ts, ∀ u ∈ ts, t ∈ c.tags → u ∈ c.tags → t = u) →
      ((s.GetByTags ts).1.map Cache.Id).Nodup) := by
  have hcount : ∀ c ∈ log, ((s.GetByTags ts).1.map Cache.Id).count c.id =
      (ts.filter fun t => decide (t ∈ c.tags)).length := by
    intro c hc
    rw [GetByTags_eq, List.map_flatMap, List.count_flatMap,
      ← sum_indicator_eq_length_filter]
    congr 1
    apply List.map_congr_left
    intro t _
    simp only [Function.comp]
    rw [← count_id_indexed h hlen c hc t, List.map_map]
    rfl
  refine ⟨hcount, fun hnd hone => ?_⟩
  rw [List.nodup_iff_count_le_one]
  intro a
  by_cases ha : a ∈ (s.GetByTags ts).1.map Cache.Id
  · obtain ⟨c, hc, hid, _⟩ := ((ids_GetByTags_of_built h ts) a).mp ha
    rw [← hid, hcount c hc]
    have hnd' : (ts.filter fun t => decide (t ∈ c.tags)).Nodup := hnd.filter _
    by_contra hgt
    have h2 : 2 ≤ (ts.filter fun t => decide (t ∈ c.tags)).length := by omega
    obtain ⟨x, y, rest, hxy⟩ : ∃ x y rest, (ts.filter fun t => decide (t ∈ c.tags)) = x :: y :: rest := by
      match hl : (ts.filter fun t => decide (t ∈ c.tags)) with
      | [] => rw [hl] at h2; simp at h2
      | [_] => rw [hl] at h2; simp at h2
      | x :: y :: rest => exact ⟨x, y, rest, rfl⟩
    have hx : x ∈ ts.filter fun t => decide (t ∈ c.tags) := by rw [hxy]; simp
    have hy : y ∈ ts.filter fun t => decide (t ∈ c.tags) := by rw [hxy]; simp
    rw [List.mem_filter] at hx hy
    have hxy' : x = y := hone c hc x hx.1 y hy.1 (by simpa using hx.2) (by simpa using hy.2)
    rw [hxy, hxy'] at hnd'
    simp at hnd'
  · rw [List.count_eq_zero_of_not_mem ha]
    omega

end model

namespace model

/-- Counterexample to C6 as stated.  After `Create("s1", 0, 0, ["ocean", "atlantic"])`
on the fresh store, `GetByTags(["ocean", "atlantic"])` returns record 1 twice (it
carries both requested tags), and so does `GetByTags(["ocean", "ocean"])` (a tag
requested twice). -/
theorem GetByTags_returns_record_twice :
    (NewCacheStore globeStore).Create 1 "s1" 0 0 ["ocean", "atlantic"]
      = .ret (exStore1, 1, none) ∧
    (exStore1.GetByTags ["ocean", "atlantic"]).1.map Cache.Id = [1, 1] ∧
    (exStore1.GetByTags ["ocean", "ocean"]).1.map Cache.Id = [1, 1] ∧
    ¬ ((exStore1.GetByTags ["ocean", "atlantic"]).1.map Cache.Id).Nodup := by
  have h1 : (exStore1.GetByTags ["ocean", "atlantic"]).1.map Cache.Id = [1, 1] := by
    simp [InMemCacheStore.GetByTags, exStore1, GoMap.get, GoMap.keys, InMemCacheStore.deref,
      copyCache]
  have h2 : (exStore1.GetByTags ["ocean", "ocean"]).1.map Cache.Id = [1, 1] := by
    simp [InMemCacheStore.GetByTags, exStore1, GoMap.get, GoMap.keys, InMemCacheStore.deref,
      copyCache]
  refine ⟨Create_exStore1, h1, h2, ?_⟩
  rw [h1]
  simp

/-- Witness for the amended C6: the two-record store queried with ocean and river. -/
theorem GetByTags_id_count_witness :
    Built globeStore exLog2 exStore2 ∧ exLog2.length < 2 ^ 64 ∧
    ((∀ c ∈ exLog2, ((exStore2.GetByTags ["ocean", "river"]).1.map Cache.Id).count c.id =
      (["ocean", "river"].filter fun t => decide (t ∈ c.tags)).length) ∧
    ((["ocean", "river"] : List String).Nodup →
      (∀ c ∈ exLog2, ∀ t ∈ ["ocean", "river"], ∀ u ∈ ["ocean", "river"],
        t ∈ c.tags → u ∈ c.tags → t = u) →
      ((exStore2.GetByTags ["ocean", "river"]).1.map Cache.Id).Nodup)) :=
  have hlen : exLog2.length < 2 ^ 64 := by
    simp [exLog2]
  ⟨built_exStore2, hlen,
    GetByTags_id_count globeStore exLog2 exStore2 built_exStore2 hlen ["ocean", "river"]⟩

end model

namespace geostore

/-! ### Coincident nodes: `split` recurses without end -/

theorem inQuadrant_congr (quad : Quadrant) (m n : Node) (h : m.X = n.X ∧ m.Y = n.Y) :
    quad.inQuadrant m = quad.inQuadrant n := by
  simp only [Quadrant.inQuadrant, h.1, h.2]

/-- A node outside the quadrant of `k` is rejected at once. -/
theorem insert_outside (fuel : Nat) (k : QuadTree) (m : Node)
    (h : k.Quadrant.inQuadrant m = false) : k.insert (fuel + 1) m = .ret (k, false) := by
  simp [QuadTree.insert, h]

/-- The children tried before the first one that contains the node leave the loop
as it started. -/
theorem insertFirst_skip (fuel : Nat) (m : Node) (pre rest : List Slot) (Q : QuadTree)
    (hpre : ∀ t ∈ pre, ∃ k, Q.child t = some k ∧ k.Quadrant.inQuadrant m = false) :
    QuadTree.insertFirst (QuadTree.insert (fuel + 1)) m (pre ++ rest) Q =
      QuadTree.insertFirst (QuadTree.insert (fuel + 1)) m rest Q := by
  induction pre with
  | nil => rfl
  | cons t pre ih =>
    obtain ⟨k, hk, hout⟩ := hpre t (List.mem_cons_self _ _)
    rw [List.cons_append, QuadTree.insertFirst]
    simp only [hk, insert_outside fuel k m hout, Outcome.bind_ret, Bool.false_eq_true,
      if_false, setChild_self Q t k hk]
    exact ih (fun u hu => hpre u (List.mem_cons_of_mem _ hu))

/-- The first child, in the order of `qts`, whose quadrant contains a node of the
parent quadrant. -/
theorem first_slot (quad : Quadrant) (n : Node) (h : quad.inQuadrant n = true) :
    ∃ pre s post, QuadTree.qts = pre ++ s :: post ∧ s ∉ pre ∧
      (∀ t ∈ pre, (quad.sub t).inQuadrant n = false) ∧ (quad.sub s).inQuadrant n = true := by
  by_cases h1 : (quad.sub .NW).inQuadrant n = true
  · exact ⟨[], .NW, [.NE, .SE, .SW], rfl, by simp, by simp, h1⟩
  by_cases h2 : (quad.sub .NE).inQuadrant n = true
  · exact ⟨[.NW], .NE, [.SE, .SW], rfl, by simp, by simpa using h1, h2⟩
  by_cases h3 : (quad.sub .SE).inQuadrant n = true
  · exact ⟨[.NW, .NE], .SE, [.SW], rfl, by simp,
      by simp only [List.mem_cons, List.mem_singleton, List.not_mem_nil, or_false]
         rintro t (rfl | rfl)
         · simpa using h1
         · simpa using h2, h3⟩
  have h4 : (quad.sub .SW).inQuadrant n = true := by
    obtain ⟨s, hs⟩ := sub_cover quad n h
    cases s
    · exact absurd hs h1
    · exact absurd hs h2
    · exact hs
    · exact absurd hs h3
  exact ⟨[.NW, .NE, .SE], .SW, [], rfl, by simp,
    by simp only [List.mem_cons, List.mem_singleton, List.not_mem_nil, or_false]
       rintro t (rfl | rfl | rfl)
       · simpa using h1
       · simpa using h2
       · simpa using h3, h4⟩

/-- Redistribution of coincident nodes: they all go to the same child leaf `K`; once
`K` is full the next one makes `K` split, which is the call `ins` is assumed not to
return from. -/
theorem redistribute_pile (fuel : Nat) (n : Node)
    (ih : ∀ (q : QuadTree) (m : Node), q.isSubdivided = false →
      ¬ ((q.Nodes.length : Int) < q.MaxCapacity) → q.Quadrant.inQuadrant m = true →
      (∀ x ∈ q.Nodes, x.X = m.X ∧ x.Y = m.Y) → q.insert fuel m = .outOfFuel)
    (pre : List Slot) (s : Slot) (post : List Slot)
    (hqts : QuadTree.qts = pre ++ s :: post) (hs : s ∉ pre) :
    ∀ (ms : List Node) (Q K : QuadTree),
      (∀ t ∈ pre, ∃ k, Q.child t = some k ∧ k.Quadrant.inQuadrant n = false) →
      Q.child s = some K → K.isSubdivided = false → K.Quadrant.inQuadrant n = true →
      (∀ x ∈ K.Nodes, x.X = n.X ∧ x.Y = n.Y) →
      (∀ x ∈ ms, x.X = n.X ∧ x.Y = n.Y) → ms ≠ [] →
      ¬ (((K.Nodes.length + ms.length : Nat) : Int) ≤ K.MaxCapacity) →
      QuadTree.redistribute (QuadTree.insert fuel) ms Q = .outOfFuel := by
  intro ms
  induction ms with
  | nil => intro Q K _ _ _ _ _ _ hne; exact absurd rfl hne
  | cons m rest ihms =>
    intro Q K hpre hK hleaf hin hKn hms _ hcount
    have hm : m.X = n.X ∧ m.Y = n.Y := hms m (List.mem_cons_self _ _)
    rw [QuadTree.redistribute, hqts]
    cases fuel with
    | zero =>
      cases pre with
      | nil =>
        simp [QuadTree.insertFirst, hK, QuadTree.insert, Outcome.bind]
      | cons t pre =>
        obtain ⟨k, hk, _⟩ := hpre t (List.mem_cons_self _ _)
        simp [QuadTree.insertFirst, hk, QuadTree.insert, Outcome.bind]
    | succ f =>
      have hpre' : ∀ t ∈ pre, ∃ k, Q.child t = some k ∧ k.Quadrant.inQuadrant m = false := by
        intro t ht
        obtain ⟨k, hk, hout⟩ := hpre t ht
        exact ⟨k, hk, by rw [inQuadrant_congr _ m n hm]; exact hout⟩
      rw [insertFirst_skip f m pre (s :: post) Q hpre', QuadTree.insertFirst]
      simp only [hK]
      have hinm : K.Quadrant.inQuadrant m = true := by
        rw [inQuadrant_congr _ m n hm]; exact hin
      by_cases hroom : (K.Nodes.length : Int) < K.MaxCapacity
      · have hins : K.insert (f + 1) m = .ret ({ K with Nodes := K.Nodes ++ [m] }, true) := by
          simp [QuadTree.insert, hinm, hleaf, hroom]
        simp only [hins, Outcome.bind_ret, if_true]
        have hrest : rest ≠ [] := by
          intro hr
          subst hr
          simp only [List.length_cons, List.length_nil] at hcount
          omega
        apply ihms (Q.setChild s { K with Nodes := K.Nodes ++ [m] })
          { K with Nodes := K.Nodes ++ [m] }
        · intro t ht
          obtain ⟨k, hk, hout⟩ := hpre t ht
          have hts : t ≠ s := fun e => hs (e ▸ ht)
          exact ⟨k, by rw [child_setChild_other Q s t _ hts]; exact hk, hout⟩
        · exact child_setChild_same Q s _
        · exact hleaf
        · exact hin
        · intro x hx
          rcases List.mem_append.mp hx with hx | hx
          · exact hKn x hx
          · simp only [List.mem_singleton] at hx; rw [hx]; exact hm
        · exact fun x hx => hms x (List.mem_cons_of_mem _ hx)
        · exact hrest
        · simp only [List.length_append, List.length_singleton, List.length_cons] at hcount ⊢
          push_cast at hcount ⊢
          omega
      · have hdiv : K.insert (f + 1) m = .outOfFuel :=
          ih K m hleaf hroom hinm
            (fun x hx => ⟨(hKn x hx).1.trans hm.1.symm, (hKn x hx).2.trans hm.2.symm⟩)
        simp only [hdiv, Outcome.bind]

/-- Inserting into a full leaf a node that has the coordinates of all the nodes the
leaf holds never returns, whatever the recursion budget: every split hands the
whole pile to one child, which is full again. -/
theorem insert_full_coincident_diverges :
    ∀ (fuel : Nat) (q : QuadTree) (n : Node), q.isSubdivided = false →
      ¬ ((q.Nodes.length : Int) < q.MaxCapacity) → q.Quadrant.inQuadrant n = true →
      (∀ x ∈ q.Nodes, x.X = n.X ∧ x.Y = n.Y) → q.insert fuel n = .outOfFuel := by
  intro fuel
  induction fuel with
  | zero => intro q n _ _ _ _; rfl
  | succ fuel ih =>
    intro q n hleaf hfull hin hall
    rw [QuadTree.insert]
    simp only [hin, Bool.not_true, Bool.false_eq_true, if_false, hleaf, hfull]
    rw [splitWith_eq]
    obtain ⟨pre, s, post, hqts, hs, hpre, hsin⟩ := first_slot q.Quadrant n hin
    have hred := redistribute_pile fuel n ih pre s post hqts hs (q.Nodes ++ [n])
      { q with
        NW := some (NewQuadTree (q.Level + 1) (q.Quadrant.sub .NW) q.MaxCapacity)
        NE := some (NewQuadTree (q.Level + 1) (q.Quadrant.sub .NE) q.MaxCapacity)
        SW := some (NewQuadTree (q.Level + 1) (q.Quadrant.sub .SW) q.MaxCapacity)
        SE := some (NewQuadTree (q.Level + 1) (q.Quadrant.sub .SE) q.MaxCapacity)
        isSubdivided := true }
      (NewQuadTree (q.Level + 1) (q.Quadrant.sub s) q.MaxCapacity)
      (fun t ht => ⟨NewQuadTree (q.Level + 1) (q.Quadrant.sub t) q.MaxCapacity,
        by cases t <;> rfl, hpre t ht⟩)
      (by cases s <;> rfl) rfl hsin (fun x hx => by simp [NewQuadTree] at hx)
      (fun x hx => by
        rcases List.mem_append.mp hx with hx | hx
        · exact hall x hx
        · simp only [List.mem_singleton] at hx; rw [hx]; exact ⟨rfl, rfl⟩)
      (by simp)
      (by
        simp only [NewQuadTree, List.length_nil, List.length_append, List.length_singleton]
        push_cast
        omega)
    rw [hred]
    rfl

end geostore

namespace model

/-! ### The id counter -/

theorem exPile_zero : exPile 0 = NewCacheStore globeStore := by
  simp [exPile, NewCacheStore, globeStore, geostore.NewGeoStoreInMem, geostore.globeRoot,
    geostore.NewQuadTree]

theorem Create_exPile1 : (exPile 0).Create 1 "a" 0 0 [] = .ret (exPile 1, 1, none) := by
  norm_num [InMemCacheStore.Create, geostore.InMemGeoStore.Insert, geostore.QuadTree.insert,
    geostore.globeRoot, geostore.NewQuadTree, geostore.NewQuadrant, geostore.NewNode,
    geostore.GpsToAbsolute, geostore.Quadrant.inQuadrant, Outcome.bind, exPile, tagSet,
    indexTags, GoMap.set, List.range, List.range.loop, List.replicate]

theorem Create_exPile2 : (exPile 1).Create 1 "a" 0 0 [] = .ret (exPile 2, 2, none) := by
  norm_num [InMemCacheStore.Create, geostore.InMemGeoStore.Insert, geostore.QuadTree.insert,
    geostore.globeRoot, geostore.NewQuadTree, geostore.NewQuadrant, geostore.NewNode,
    geostore.GpsToAbsolute, geostore.Quadrant.inQuadrant, Outcome.bind, exPile, tagSet,
    indexTags, GoMap.set, List.range, List.range.loop, List.replicate]

theorem Create_exPile3 : (exPile 2).Create 1 "a" 0 0 [] = .ret (exPile 3, 3, none) := by
  norm_num [InMemCacheStore.Create, geostore.InMemGeoStore.Insert, geostore.QuadTree.insert,
    geostore.globeRoot, geostore.NewQuadTree, geostore.NewQuadrant, geostore.NewNode,
    geostore.GpsToAbsolute, geostore.Quadrant.inQuadrant, Outcome.bind, exPile, tagSet,
    indexTags, GoMap.set, List.range, List.range.loop, List.replicate]

theorem Create_exPile4 : (exPile 3).Create 1 "a" 0 0 [] = .ret (exPile 4, 4, none) := by
  norm_num [InMemCacheStore.Create, geostore.InMemGeoStore.Insert, geostore.QuadTree.insert,
    geostore.globeRoot, geostore.NewQuadTree, geostore.NewQuadrant, geostore.NewNode,
    geostore.GpsToAbsolute, geostore.Quadrant.inQuadrant, Outcome.bind, exPile, tagSet,
    indexTags, GoMap.set, List.range, List.range.loop, List.replicate]

theorem built_exPile4 : Built globeStore exPileLog (exPile 4) :=
  Built.create _ _ _ 1 "a" 0 0 [] 4 none
    (Built.create _ _ _ 1 "a" 0 0 [] 3 none
      (Built.create _ _ _ 1 "a" 0 0 [] 2 none
        (Built.create _ _ _ 1 "a" 0 0 [] 1 none (exPile_zero ▸ Built.fresh) Create_exPile1)
        Create_exPile2)
      Create_exPile3)
    Create_exPile4

/-- Counterexample to C9 as stated.  On the store `run.Run` sets up (whole globe,
capacity 4), after four calls `Create("a", 0, 0, nil)`, which return the ids 1 to 4,
a fifth call with the same coordinates never returns: its spatial insert splits the
full root leaf, all five nodes land in one child, which is full again, and so on at
every depth. -/
theorem Create_fifth_coincident_never_returns :
    Built globeStore exPileLog (exPile 4) ∧
    (∀ fuel, (exPile 4).Create fuel "a" 0 0 [] = Outcome.outOfFuel) ∧
    (∀ fuel r, (exPile 4).Create fuel "a" 0 0 [] ≠ Outcome.ret r) := by
  have hdiv : ∀ fuel, (exPile 4).Create fuel "a" 0 0 [] = Outcome.outOfFuel := by
    intro fuel
    have h := geostore.insert_full_coincident_diverges fuel (exPile 4).geostore.Root
      (geostore.NewNode 0 0 5) rfl
      (by norm_num [exPile, geostore.globeRoot, geostore.NewQuadTree])
      (by norm_num [exPile, geostore.globeRoot, geostore.NewQuadTree, geostore.NewQuadrant,
        geostore.NewNode, geostore.GpsToAbsolute, geostore.Quadrant.inQuadrant])
      (by
        intro x hx
        simp only [exPile, List.mem_map, List.mem_range] at hx
        obtain ⟨i, _, rfl⟩ := hx
        norm_num [geostore.NewNode, geostore.GpsToAbsolute])
    have hc : (exPile 4).sCounter = 5 := rfl
    simp only [InMemCacheStore.Create, geostore.InMemGeoStore.Insert, hc, h, Outcome.bind]
  refine ⟨built_exPile4, hdiv, fun fuel r => ?_⟩
  rw [hdiv fuel]
  simp

end model

namespace model

/-- `Create` returns as soon as its spatial insert does. -/
theorem Create_of_insert {fuel : Nat} {s : InMemCacheStore} {name : String} {lat long : ℚ}
    {tags : List String} {g : geostore.InMemGeoStore}
    (hg : s.geostore.Insert fuel (geostore.NewNode long lat s.sCounter) = .ret g) :
    s.Create fuel name lat long tags = .ret
      (InMemCacheStore.mk (s.heapTags ++ [tagSet tags])
        (s.heapCaches ++ [Cache.mk s.sCounter name lat long (some s.heapTags.length)])
        (s.caches.set s.sCounter s.heapCaches.length) ((s.sCounter + 1) % 2 ^ 64)
        (s.cachesByName.set name s.heapCaches.length)
        (indexTags s.heapCaches.length tags s.cachesByTag) g, s.sCounter, none) := by
  simp only [InMemCacheStore.Create, hg, Outcome.bind]

/-- Claim C9 as the code has it.  On a store built from a fresh store by `k - 1`
returned calls of `Create` (`k < 2^64`), the `k`-th call, whatever its arguments,
returns exactly when its spatial insert returns, and then it returns id `k` with a
nil error; so the ids returned so far are 1, 2, 3, … in order of the calls, strictly
increasing and pairwise distinct; `Update`, `Delete` and `DeleteAll` leave the counter
as it is. -/
theorem Create_assigns_next_id (g0 : geostore.InMemGeoStore) (log : List CreateCall)
    (s : InMemCacheStore) (h : Built g0 log s) (hlen : log.length + 1 < 2 ^ 64) :
    (∀ fuel name lat long tags s' id err,
      s.Create fuel name lat long tags = .ret (s', id, err) →
        id = log.length + 1 ∧ err = none ∧
        s.geostore.Insert fuel (geostore.NewNode long lat (log.length + 1))
          = .ret s'.geostore) ∧
    (∀ fuel name lat long tags g,
      s.geostore.Insert fuel (geostore.NewNode long lat (log.length + 1)) = .ret g →
        ∃ s', s.Create fuel name lat long tags = .ret (s', log.length + 1, none)) ∧
    (∀ i c, log[i]? = some c → c.id = i + 1 ∧ c.err = none) ∧
    (log.map CreateCall.id).Pairwise (fun a b => a < b) ∧
    (∀ name c, (s.Update name c).1.sCounter = s.sCounter) ∧
    (∀ id, (s.Delete id).1.sCounter = s.sCounter) ∧
    s.DeleteAll.1.sCounter = s.sCounter := by
  obtain ⟨i1, _, i3, _, _⟩ := built_inv h
  have hctr : s.sCounter = log.length + 1 := by
    rw [i1, Nat.mod_eq_of_lt hlen]
  have hids : ∀ i c, log[i]? = some c → c.id = i + 1 ∧ c.err = none := by
    intro i c hc
    have hi : i < log.length := (List.getElem?_eq_some.mp hc).1
    obtain ⟨_, h2, h3⟩ := i3 i c hc
    exact ⟨by rw [h2, Nat.mod_eq_of_lt (by omega)], h3⟩
  refine ⟨?_, ?_, hids, ?_, ?_, fun _ => rfl, rfl⟩
  · intro fuel name lat long tags s' id err hc
    obtain ⟨hid, herr, _, _, _, _, _, _, hins⟩ := Create_eq_ret hc
    exact ⟨by rw [hid, hctr], herr, by rw [← hctr]; exact hins⟩
  · intro fuel name lat long tags g hg
    rw [← hctr] at hg ⊢
    exact ⟨_, Create_of_insert hg⟩
  · rw [List.pairwise_map, List.pairwise_iff_getElem]
    intro i j hi hj hij
    have h1 := (hids i log[i] (List.getElem?_eq_getElem hi)).1
    have h2 := (hids j log[j] (List.getElem?_eq_getElem hj)).1
    omega
  · intro name c
    simp only [InMemCacheStore.Update]
    cases s.cachesByName.get name <;> rfl

/-- Witness for the amended C9: the third call of `Create` on the two-record store. -/
theorem Create_assigns_next_id_witness :
    Built globeStore exLog2 exStore2 ∧ exLog2.length + 1 < 2 ^ 64 ∧
    ((∀ fuel name lat long tags s' id err,
      exStore2.Create fuel name lat long tags = .ret (s', id, err) →
        id = exLog2.length + 1 ∧ err = none ∧
        exStore2.geostore.Insert fuel (geostore.NewNode long lat (exLog2.length + 1))
          = .ret s'.geostore) ∧
    (∀ fuel name lat long tags g,
      exStore2.geostore.Insert fuel (geostore.NewNode long lat (exLog2.length + 1)) = .ret g →
        ∃ s', exStore2.Create fuel name lat long tags = .ret (s', exLog2.length + 1, none)) ∧
    (∀ i c, exLog2[i]? = some c → c.id = i + 1 ∧ c.err = none) ∧
    (exLog2.map CreateCall.id).Pairwise (fun a b => a < b) ∧
    (∀ name c, (exStore2.Update name c).1.sCounter = exStore2.sCounter) ∧
    (∀ id, (exStore2.Delete id).1.sCounter = exStore2.sCounter) ∧
    exStore2.DeleteAll.1.sCounter = exStore2.sCounter) :=
  have hlen : exLog2.length + 1 < 2 ^ 64 := by
    simp [exLog2]
  ⟨built_exStore2, hlen, Create_assigns_next_id globeStore exLog2 exStore2 built_exStore2 hlen⟩

end model

namespace geostore

/-! ### Tree nodes and paths -/

theorem valid_cap {c : Int} {q : QuadTree} (h : Valid c q) : q.MaxCapacity = c := by
  cases h with
  | leaf _ _ _ hcap _ _ => exact hcap
  | node _ _ _ _ _ _ hcap _ _ => exact hcap

theorem valid_leaf_child {c : Int} {q : QuadTree} (h : Valid c q)
    (hsub : q.isSubdivided = false) (s : Slot) : q.child s = none := by
  cases h with
  | leaf _ _ hkid _ _ _ => exact hkid s
  | node _ _ hs _ _ _ _ _ _ => rw [hsub] at hs; cases hs

theorem valid_child {c : Int} {q k : QuadTree} {s : Slot} (h : Valid c q)
    (hk : q.child s = some k) :
    q.isSubdivided = true ∧ q.Nodes = [] ∧ Valid c k ∧ k.Quadrant = q.Quadrant.sub s ∧
      k.Level = q.Level + 1 := by
  cases h with
  | leaf _ _ hkid _ _ _ => rw [hkid s] at hk; cases hk
  | node _ kid hsub hkid hquad hlvl _ hnodes hvalid =>
    have : kid s = k := by
      have := hkid s; rw [hk] at this; exact (Option.some.inj this).symm
    subst this
    exact ⟨hsub, hnodes, hvalid s, hquad s, hlvl s⟩

/-- Every tree node of a valid tree is the root of a valid tree. -/
theorem valid_at {c : Int} : ∀ (path : List Slot) (q t : QuadTree),
    Valid c q → q.at? path = some t → Valid c t := by
  intro path
  induction path with
  | nil =>
    intro q t hq h
    simp only [QuadTree.at?, Option.some.injEq] at h
    subst h; exact hq
  | cons s rest ih =>
    intro q t hq h
    cases hk : q.child s with
    | none => simp [QuadTree.at?, hk] at h
    | some k =>
      simp only [QuadTree.at?, hk] at h
      exact ih k t (valid_child hq hk).2.2.1 h

/-- The nodes of a leaf of a valid tree are among the nodes collected over its
leaves. -/
theorem leaf_nodes_subset {c : Int} : ∀ (path : List Slot) (q L : QuadTree),
    Valid c q → q.at? path = some L → L.isSubdivided = false →
    ∀ n ∈ L.Nodes, n ∈ q.leafNodes := by
  intro path
  induction path with
  | nil =>
    intro q L _ h hleaf n hn
    simp only [QuadTree.at?, Option.some.injEq] at h
    subst h
    rw [leafNodes_eq, hleaf]
    exact hn
  | cons s rest ih =>
    intro q L hq h hleaf n hn
    cases hk : q.child s with
    | none => simp [QuadTree.at?, hk] at h
    | some k =>
      simp only [QuadTree.at?, hk] at h
      obtain ⟨hsub, _, hvk, _, _⟩ := valid_child hq hk
      have hmem := ih k L hvk h hleaf n hn
      rw [leafNodes_eq, hsub]
      simp only [if_true, List.mem_append]
      cases s <;> simp only [QuadTree.child] at hk <;> simp [hk, leafNodesOpt, hmem]

theorem sameOwnFields_setChild (q : QuadTree) (s : Slot) (k : QuadTree) :
    SameOwnFields (q.setChild s k) q := by
  obtain ⟨h1, h2, h3, h4, h5⟩ := setChild_fields q s k
  exact ⟨h5, h4, h2, h3, h1⟩

/-- Replacing the tree node at `path` leaves every tree node that is not below it with
its own fields, and every tree node that is neither below nor above it unchanged. -/
theorem replaceAt_frame (r : QuadTree) : ∀ (path' path : List Slot) (q k : QuadTree),
    q.at? path' = some k → ¬ path <+: path' →
    ∃ k', (q.replaceAt path r).at? path' = some k' ∧ SameOwnFields k' k ∧
      (¬ path' <+: path → k' = k) := by
  intro path'
  induction path' with
  | nil =>
    intro path q k h hnp
    simp only [QuadTree.at?, Option.some.injEq] at h
    subst h
    cases path with
    | nil => exact absurd (List.prefix_refl _) hnp
    | cons s rest =>
      refine ⟨q.replaceAt (s :: rest) r, rfl, ?_, fun hn => absurd (List.nil_prefix) hn⟩
      simp only [QuadTree.replaceAt]
      cases q.child s with
      | none => exact ⟨rfl, rfl, rfl, rfl, rfl⟩
      | some k0 => exact sameOwnFields_setChild _ _ _
  | cons s' rest' ih =>
    intro path q k h hnp
    cases hk : q.child s' with
    | none => simp [QuadTree.at?, hk] at h
    | some k0 =>
      simp only [QuadTree.at?, hk] at h
      cases path with
      | nil => exact absurd (List.nil_prefix) hnp
      | cons s rest =>
        by_cases hs : s' = s
        · subst hs
          have hnp' : ¬ rest <+: rest' := by
            intro hp
            exact hnp ((List.prefix_cons_inj s').mpr hp)
          obtain ⟨k', h1, h2, h3⟩ := ih rest k0 k h hnp'
          refine ⟨k', ?_, h2, fun hn => h3 (fun hp => hn ((List.prefix_cons_inj s').mpr hp))⟩
          simp only [QuadTree.replaceAt, hk, QuadTree.at?, child_setChild_same]
          exact h1
        · refine ⟨k, ?_, ⟨rfl, rfl, rfl, rfl, rfl⟩, fun _ => rfl⟩
          simp only [QuadTree.replaceAt]
          cases hks : q.child s with
          | none => simp only [QuadTree.at?, hk]; exact h
          | some k1 =>
            simp only [QuadTree.at?, child_setChild_other q s s' _ hs, hk]
            exact h

/-- The replaced tree node sits at the path. -/
theorem replaceAt_at (r : QuadTree) : ∀ (path : List Slot) (q L : QuadTree),
    q.at? path = some L → (q.replaceAt path r).at? path = some r := by
  intro path
  induction path with
  | nil => intro q L _; rfl
  | cons s rest ih =>
    intro q L h
    cases hk : q.child s with
    | none => simp [QuadTree.at?, hk] at h
    | some k =>
      simp only [QuadTree.at?, hk] at h
      simp only [QuadTree.replaceAt, hk, QuadTree.at?, child_setChild_same]
      exact ih k L h

end geostore

namespace geostore

/-! ### The leaf a point is routed to -/

theorem locates_at {P : Node} {q L : QuadTree} {path : List Slot} (h : Locates P q path L) :
    q.at? path = some L ∧ L.isSubdivided = false ∧ L.Quadrant.inQuadrant P = true := by
  induction h with
  | here q hleaf hin => exact ⟨rfl, hleaf, hin⟩
  | down q k L pre s post path _ _ _ hk _ _ ih =>
    exact ⟨by simp only [QuadTree.at?, hk]; exact ih.1, ih.2⟩

/-- The first child, in the order of `QuadTrees`, whose quadrant contains a node of
the parent quadrant. -/
theorem first_slot_lookup (quad : Quadrant) (n : Node) (h : quad.inQuadrant n = true) :
    ∃ pre s post, [Slot.NW, Slot.NE, Slot.SW, Slot.SE] = pre ++ s :: post ∧
      (∀ t ∈ pre, (quad.sub t).inQuadrant n = false) ∧ (quad.sub s).inQuadrant n = true := by
  by_cases h1 : (quad.sub .NW).inQuadrant n = true
  · exact ⟨[], .NW, [.NE, .SW, .SE], rfl, by simp, h1⟩
  by_cases h2 : (quad.sub .NE).inQuadrant n = true
  · exact ⟨[.NW], .NE, [.SW, .SE], rfl, by simpa using h1, h2⟩
  by_cases h3 : (quad.sub .SW).inQuadrant n = true
  · exact ⟨[.NW, .NE], .SW, [.SE], rfl,
      by simp only [List.mem_cons, List.mem_singleton, List.not_mem_nil, or_false]
         rintro t (rfl | rfl)
         · simpa using h1
         · simpa using h2, h3⟩
  have h4 : (quad.sub .SE).inQuadrant n = true := by
    obtain ⟨s, hs⟩ := sub_cover quad n h
    cases s
    · exact absurd hs h1
    · exact absurd hs h2
    · exact absurd hs h3
    · exact hs
  exact ⟨[.NW, .NE, .SW], .SE, [], rfl,
    by simp only [List.mem_cons, List.mem_singleton, List.not_mem_nil, or_false]
       rintro t (rfl | rfl | rfl)
       · simpa using h1
       · simpa using h2
       · simpa using h3, h4⟩

/-- In a valid tree every point of the root quadrant is routed to a leaf. -/
theorem locates_exists {c : Int} {q : QuadTree} (hq : Valid c q) (P : Node) :
    q.Quadrant.inQuadrant P = true → ∃ path L, Locates P q path L := by
  induction hq with
  | leaf q hsub _ _ _ _ =>
    intro hin
    exact ⟨[], q, Locates.here q hsub hin⟩
  | node q kid hsub hkid hquad _ _ _ _ ih =>
    intro hin
    obtain ⟨pre, s, post, hqts, hpre, hs⟩ := first_slot_lookup q.Quadrant P hin
    obtain ⟨path, L, hloc⟩ := ih s (by rw [hquad s]; exact hs)
    refine ⟨s :: path, L, Locates.down q (kid s) L pre s post path hsub ?_ ?_ (hkid s)
      (by rw [hquad s]; exact hs) hloc⟩
    · simp only [QuadTree.QuadTrees, hsub, if_true]; exact hqts
    · intro t ht
      exact ⟨kid t, hkid t, by rw [hquad t]; exact hpre t ht⟩

theorem firstContaining_skip (P : Node) (q : QuadTree) (pre rest : List Slot)
    (hpre : ∀ t ∈ pre, ∃ kt, q.child t = some kt ∧ kt.Quadrant.inQuadrant P = false) :
    firstContaining P q (pre ++ rest) = firstContaining P q rest := by
  induction pre with
  | nil => rfl
  | cons t pre ih =>
    obtain ⟨kt, hk, hout⟩ := hpre t (List.mem_cons_self _ _)
    rw [List.cons_append, firstContaining]
    simp only [hk, hout, Bool.false_eq_true, if_false]
    exact ih (fun u hu => hpre u (List.mem_cons_of_mem _ hu))

/-- `findQuadTree` returns the leaf the point is routed to, for every budget of more
iterations than the leaf is deep. -/
theorem findLoop_locates {P : Node} {q L : QuadTree} {path : List Slot}
    (h : Locates P q path L) :
    ∀ fuel, path.length + 1 ≤ fuel → findLoop fuel P [q] = .ret (some L) := by
  induction h with
  | here q hleaf hin =>
    intro fuel hf
    obtain ⟨f, rfl⟩ : ∃ f, fuel = f + 1 := ⟨fuel - 1, by omega⟩
    simp [findLoop, hleaf, hin]
  | down q k L pre s post path hsub hqts hpre hk hin _ ih =>
    intro fuel hf
    obtain ⟨f, rfl⟩ : ∃ f, fuel = f + 1 := ⟨fuel - 1, by simp at hf; omega⟩
    have hfc : firstContaining P q q.QuadTrees = .ret (some k) := by
      rw [hqts, firstContaining_skip P q pre (s :: post) hpre, firstContaining]
      simp [hk, hin]
    simp only [findLoop, hsub, if_true, hfc, Outcome.bind_ret, List.length_nil, queueCap,
      List.nil_append]
    simpa using ih f (by simp at hf; omega)

/-- A returning `insert` of a node of the root quadrant into a valid tree is a
returning `insert` into the leaf the node is routed to; the rest of the tree stays. -/
theorem insert_locates {c : Int} {P : Node} {q L : QuadTree} {path : List Slot}
    (h : Locates P q path L) :
    ∀ (fuel : Nat) (q' : QuadTree) (b : Bool), Valid c q → q.insert fuel P = .ret (q', b) →
    ∃ fuelL L', fuelL ≤ fuel ∧ L.insert fuelL P = .ret (L', true) ∧
      q' = q.replaceAt path L' := by
  induction h with
  | here q hleaf hin =>
    intro fuel q' b hq hins
    have hb := (insert_spec c fuel q P (q', b) hq hins).1
    simp only [hin] at hb
    subst hb
    exact ⟨fuel, q', le_refl _, hins, rfl⟩
  | down q k L pre s post path hsub hqts hpre hk hin _ ih =>
    intro fuel q' b hq hins
    obtain ⟨_, _, hvk, hkq, _⟩ := valid_child hq hk
    have hinq : q.Quadrant.inQuadrant P = true := by
      rw [hkq] at hin
      exact sub_subset q.Quadrant s P hin
    cases fuel with
    | zero => simp [QuadTree.insert] at hins
    | succ fuel =>
      rw [QuadTree.insert] at hins
      simp only [hinq, Bool.not_true, Bool.false_eq_true, if_false, hsub, if_true, hqts] at hins
      obtain ⟨r0, hr0, hret⟩ := Outcome.bind_eq_ret hins
      simp only [Outcome.ret.injEq, Prod.mk.injEq] at hret
      cases fuel with
      | zero =>
        cases pre with
        | nil => simp [QuadTree.insertFirst, hk, QuadTree.insert, Outcome.bind] at hr0
        | cons t pre =>
          obtain ⟨kt, hkt, _⟩ := hpre t (List.mem_cons_self _ _)
          simp [QuadTree.insertFirst, hkt, QuadTree.insert, Outcome.bind] at hr0
      | succ f =>
        rw [insertFirst_skip f P pre (s :: post) q hpre, QuadTree.insertFirst] at hr0
        simp only [hk] at hr0
        obtain ⟨r1, hr1, hret1⟩ := Outcome.bind_eq_ret hr0
        have hb1 := (insert_spec c (f + 1) k P r1 hvk hr1).1
        rw [hin] at hb1
        simp only [hb1, if_true, Outcome.ret.injEq] at hret1
        have hr1' : k.insert (f + 1) P = .ret (r1.1, true) := by
          rw [hr1, ← hb1]
        obtain ⟨fuelL, L', hle, hL, hrep⟩ := ih (f + 1) r1.1 true hvk hr1'
        refine ⟨fuelL, L', by omega, hL, ?_⟩
        rw [← hret.1, ← hret1]
        simp only [QuadTree.replaceAt, hk, hrep]

end geostore

namespace geostore

theorem at?_append (q : QuadTree) (p1 p2 : List Slot) :
    q.at? (p1 ++ p2) = (q.at? p1).bind fun k => k.at? p2 := by
  induction p1 generalizing q with
  | nil => rfl
  | cons s rest ih =>
    simp only [List.cons_append, QuadTree.at?]
    cases q.child s with
    | none => rfl
    | some k => exact ih k

/-- Nothing lies below a leaf of a valid tree. -/
theorem below_leaf_eq {c : Int} {q L k : QuadTree} {pathL path : List Slot} (hq : Valid c q)
    (hL : q.at? pathL = some L) (hleaf : L.isSubdivided = false) (hk : q.at? path = some k)
    (hpre : pathL <+: path) : path = pathL := by
  obtain ⟨ext, rfl⟩ := hpre
  rw [at?_append, hL] at hk
  cases ext with
  | nil => simp
  | cons s rest =>
    simp only [Option.bind, QuadTree.at?,
      valid_leaf_child (valid_at pathL q L hq hL) hleaf s] at hk
    cases hk

/-- What a returning `insert` into a valid leaf that contains the node does: append
when there is room, `split` otherwise. -/
theorem leaf_insert_cases {c : Int} {L L' : QuadTree} {P : Node} {fuel : Nat}
    (hL : Valid c L) (hleaf : L.isSubdivided = false) (hin : L.Quadrant.inQuadrant P = true)
    (h : L.insert fuel P = .ret (L', true)) :
    ((L.Nodes.length : Int) < L.MaxCapacity → L' = { L with Nodes := L.Nodes ++ [P] }) ∧
    (¬ (L.Nodes.length : Int) < L.MaxCapacity →
      L'.isSubdivided = true ∧ L'.Nodes = [] ∧ ∃ f, L.split f P = .ret (L', true)) := by
  cases fuel with
  | zero => simp [QuadTree.insert] at h
  | succ fuel =>
    rw [QuadTree.insert] at h
    have hns : ¬ (L.isSubdivided = true) := by simp [hleaf]
    simp only [hin, Bool.not_true, Bool.false_eq_true, if_false] at h
    rw [if_neg hns] at h
    constructor
    · intro hroom
      simp only [hroom, if_true, Outcome.ret.injEq, Prod.mk.injEq, and_true] at h
      exact h.symm
    · intro hfull
      simp only [hfull, if_false] at h
      have hok := splitWith_spec (insert_spec c fuel) L P (L', true) hL hleaf hin h
      have hv : Valid c L' := hok.2.2.1
      have hsub : L'.isSubdivided = true := by
        have h' := h
        rw [splitWith_eq] at h'
        obtain ⟨q2, hq2, hret⟩ := Outcome.bind_eq_ret h'
        simp only [Outcome.ret.injEq, Prod.mk.injEq, and_true] at hret
        have hall : ∀ m ∈ L.Nodes ++ [P], L.Quadrant.inQuadrant m = true := by
          intro m hm
          rcases List.mem_append.mp hm with hm | hm
          · cases hL with
            | leaf _ _ _ _ hin' _ => exact hin' m hm
            | node _ _ hs _ _ _ _ _ _ => rw [hleaf] at hs; cases hs
          · simp only [List.mem_singleton] at hm; rw [hm]; exact hin
        have hkv : KidsValid c { L with
            NW := some (NewQuadTree (L.Level + 1) (L.Quadrant.sub .NW) L.MaxCapacity)
            NE := some (NewQuadTree (L.Level + 1) (L.Quadrant.sub .NE) L.MaxCapacity)
            SW := some (NewQuadTree (L.Level + 1) (L.Quadrant.sub .SW) L.MaxCapacity)
            SE := some (NewQuadTree (L.Level + 1) (L.Quadrant.sub .SE) L.MaxCapacity)
            isSubdivided := true } := by
          refine ⟨rfl, fun s => NewQuadTree (L.Level + 1) (L.Quadrant.sub s) L.MaxCapacity,
            fun s => ⟨by cases s <;> rfl, rfl, rfl, ?_⟩⟩
          rw [valid_cap hL]; exact valid_NewQuadTree _ _ _
        obtain ⟨g1, _⟩ := redistribute_spec (insert_spec c fuel) _ _ q2 hkv hall hq2
        rw [← hret]
        exact g1.1
      have hnodes : L'.Nodes = [] := by
        cases hv with
        | leaf _ hs _ _ _ _ => rw [hsub] at hs; cases hs
        | node _ _ _ _ _ _ _ hn _ => exact hn
      exact ⟨hsub, hnodes, fuel, h⟩

/-- Claim C18.  For every reachable tree and every node `P` of the root quadrant
there is a leaf `L`, at some path from the root, such that `findQuadTree(P, root)`
returns `L` (for every budget from some bound on) and every returning `insert(P)`
works on `L` alone: the tree afterwards is the old tree with `L` replaced by `L'`;
when `L` holds fewer than `MaxCapacity` nodes, `L'` is `L` with `P` appended to its
node list; when `L` is full, `L'` is what `L.split(P)` leaves, an internal node.
Every tree node other than `L` keeps its own fields, and every tree node that is not
on the way from the root to `L` is unchanged with all that lies below it; `L` is a
leaf, so no tree node lies below it. -/
theorem insert_works_on_found_leaf (level : Int) (quad : Quadrant) (c : Int) (t : QuadTree)
    (P : Node) (hreach : Reachable level quad c t) (hin : quad.inQuadrant P = true) :
    ∃ path L fuel0, t.at? path = some L ∧ L.isSubdivided = false ∧
      (∀ f, fuel0 ≤ f → findQuadTree f P t = .ret (some L)) ∧
      (∀ path' k, t.at? path' = some k → path <+: path' → path' = path) ∧
      ∀ fuel t' b, t.insert fuel P = .ret (t', b) →
        ∃ L', t' = t.replaceAt path L' ∧ t'.at? path = some L' ∧
          ((L.Nodes.length : Int) < L.MaxCapacity →
            L' = { L with Nodes := L.Nodes ++ [P] }) ∧
          (¬ (L.Nodes.length : Int) < L.MaxCapacity →
            L'.isSubdivided = true ∧ L'.Nodes = [] ∧ ∃ f, L.split f P = .ret (L', true)) ∧
          (∀ path' k, t.at? path' = some k → ¬ path <+: path' →
            ∃ k', t'.at? path' = some k' ∧ SameOwnFields k' k ∧
              (¬ path' <+: path → k' = k)) := by
  obtain ⟨hv, hq, _⟩ := valid_of_reachable hreach
  obtain ⟨path, L, hloc⟩ := locates_exists hv P (by rw [hq]; exact hin)
  obtain ⟨hat, hleaf, hLin⟩ := locates_at hloc
  refine ⟨path, L, path.length + 1, hat, hleaf, findLoop_locates hloc,
    fun path' k hk hp => below_leaf_eq hv hat hleaf hk hp, fun fuel t' b hins => ?_⟩
  obtain ⟨fuelL, L', _, hL, hrep⟩ := insert_locates hloc fuel t' b hv hins
  obtain ⟨h1, h2⟩ := leaf_insert_cases (valid_at path t L hv hat) hleaf hLin hL
  refine ⟨L', hrep, by rw [hrep]; exact replaceAt_at L' path t L hat, h1, h2, ?_⟩
  intro path' k hk hnp
  rw [hrep]
  exact replaceAt_frame L' path' path t k hk hnp

/-- Witness for C18: `exB` and the reachable one-leaf tree holding `exA`. -/
theorem insert_works_on_found_leaf_witness :
    Reachable 1 exQuad 1 exLeafA ∧ exQuad.inQuadrant exB = true ∧
    ∃ path L fuel0, exLeafA.at? path = some L ∧ L.isSubdivided = false ∧
      (∀ f, fuel0 ≤ f → findQuadTree f exB exLeafA = .ret (some L)) ∧
      (∀ path' k, exLeafA.at? path' = some k → path <+: path' → path' = path) ∧
      ∀ fuel t' b, exLeafA.insert fuel exB = .ret (t', b) →
        ∃ L', t' = exLeafA.replaceAt path L' ∧ t'.at? path = some L' ∧
          ((L.Nodes.length : Int) < L.MaxCapacity →
            L' = { L with Nodes := L.Nodes ++ [exB] }) ∧
          (¬ (L.Nodes.length : Int) < L.MaxCapacity →
            L'.isSubdivided = true ∧ L'.Nodes = [] ∧
              ∃ f, L.split f exB = .ret (L', true)) ∧
          (∀ path' k, exLeafA.at? path' = some k → ¬ path <+: path' →
            ∃ k', t'.at? path' = some k' ∧ SameOwnFields k' k ∧
              (¬ path' <+: path → k' = k)) :=
  have h1 : Reachable 1 exQuad 1 exLeafA :=
    Reachable.step _ _ 1 exA true Reachable.fresh insert_exA
  have h2 : exQuad.inQuadrant exB = true := by
    norm_num [Quadrant.inQuadrant, exQuad, exB]
  ⟨h1, h2, insert_works_on_found_leaf 1 exQuad 1 exLeafA exB h1 h2⟩

/-- Claim C19.  In every tree reachable from a fresh leaf of capacity `c ≥ 1` by
inserts that return, every leaf (a tree node with `isSubdivided` false, at any path
from the root) holds at most `c` nodes. -/
theorem leaf_holds_at_most_capacity (level : Int) (quad : Quadrant) (c : Int) (t : QuadTree)
    (hc : 1 ≤ c) (hreach : Reachable level quad c t) (path : List Slot) (L : QuadTree)
    (hL : t.at? path = some L) (hleaf : L.isSubdivided = false) :
    (L.Nodes.length : Int) ≤ c := by
  obtain ⟨hv, _, _⟩ := valid_of_reachable hreach
  have hvL := valid_at path t L hv hL
  cases hvL with
  | node _ _ hs _ _ _ _ _ _ => rw [hleaf] at hs; cases hs
  | leaf _ _ _ _ _ hlen =>
    have : max c 0 = c := max_eq_left (by omega)
    rw [this] at hlen
    exact hlen

/-- Witness for C19: the leaf in the north-east slot of the tree holding `exA`, `exB`. -/
theorem leaf_holds_at_most_capacity_witness :
    (1 : Int) ≤ 1 ∧ Reachable 1 exQuad 1 exTreeAB ∧
    exTreeAB.at? [Slot.NE] = some { NewQuadTree 2 { XMin := 2, YMin := 2, XMax := 4, YMax := 4 } 1
      with Nodes := [exB] } ∧
    ({ NewQuadTree 2 { XMin := 2, YMin := 2, XMax := 4, YMax := 4 } 1
      with Nodes := [exB] } : QuadTree).isSubdivided = false ∧
    ((({ NewQuadTree 2 { XMin := 2, YMin := 2, XMax := 4, YMax := 4 } 1
      with Nodes := [exB] } : QuadTree).Nodes.length : Int) ≤ 1) :=
  ⟨le_refl _, reachable_exTreeAB, rfl, rfl,
    leaf_holds_at_most_capacity 1 exQuad 1 exTreeAB (le_refl _) reachable_exTreeAB [Slot.NE] _
      rfl rfl⟩

end geostore

namespace geostore

/-- A tree node of a valid tree is a leaf without children or an internal node with
four children and no nodes of its own. -/
theorem valid_leaf_or_internal {c : Int} {k : QuadTree} (h : Valid c k) :
    (k.isSubdivided = false ∧ k.NW = none ∧ k.NE = none ∧ k.SW = none ∧ k.SE = none) ∨
    (k.isSubdivided = true ∧
      (∃ nw ne sw se, k.NW = some nw ∧ k.NE = some ne ∧ k.SW = some sw ∧ k.SE = some se) ∧
      k.Nodes = []) := by
  cases h with
  | leaf _ hsub hkid _ _ _ =>
    exact Or.inl ⟨hsub, hkid .NW, hkid .NE, hkid .SW, hkid .SE⟩
  | node _ kid hsub hkid _ _ _ hnodes _ =>
    exact Or.inr ⟨hsub, ⟨kid .NW, kid .NE, kid .SW, kid .SE, hkid .NW, hkid .NE, hkid .SW,
      hkid .SE⟩, hnodes⟩

/-- One returning `insert` keeps every internal tree node internal, its own node list
empty. -/
theorem insert_keeps_internal {c : Int} {q q' : QuadTree} {n : Node} {fuel : Nat} {b : Bool}
    (hq : Valid c q) (hins : q.insert fuel n = .ret (q', b)) (path : List Slot) (k : QuadTree)
    (hk : q.at? path = some k) (hsub : k.isSubdivided = true) :
    ∃ k', q'.at? path = some k' ∧ k'.isSubdivided = true ∧ k'.Nodes = [] := by
  have hknodes : k.Nodes = [] := by
    cases valid_at path q k hq hk with
    | leaf _ hs _ _ _ _ => rw [hsub] at hs; cases hs
    | node _ _ _ _ _ _ _ hn _ => exact hn
  by_cases hin : q.Quadrant.inQuadrant n = true
  · obtain ⟨pathL, L, hloc⟩ := locates_exists hq n hin
    obtain ⟨hat, hleaf, _⟩ := locates_at hloc
    obtain ⟨_, L', _, _, hrep⟩ := insert_locates hloc fuel q' b hq hins
    have hnp : ¬ pathL <+: path := by
      intro hp
      have := below_leaf_eq hq hat hleaf hk hp
      subst this
      rw [hat] at hk
      cases hk
      rw [hleaf] at hsub
      cases hsub
    obtain ⟨k', h1, h2, _⟩ := replaceAt_frame L' path pathL q k hk hnp
    rw [hrep]
    exact ⟨k', h1, by rw [h2.2.2.2.2, hsub], by rw [h2.2.2.1, hknodes]⟩
  · have hin' : q.Quadrant.inQuadrant n = false := by simpa using hin
    obtain ⟨hb, hsame, _⟩ := insert_spec c fuel q n (q', b) hq hins
    have : q' = q := hsame (by rw [hb, hin'])
    rw [this]
    exact ⟨k, hk, hsub, hknodes⟩

theorem insertSeq_valid {c : Int} {q t : QuadTree} {ns : List Node} (h : InsertSeq q ns t) :
    Valid c q → Valid c t := by
  induction h with
  | nil q => exact id
  | cons q q' t n ns fuel b hins _ ih =>
    intro hq
    exact ih (insert_spec c fuel q n (q', b) hq hins).2.2.1

/-- Claim C20.  In every tree reachable from a fresh leaf by inserts that return, each
tree node (at any path from the root) is either a leaf, with `isSubdivided` false and
the four child pointers nil, or internal, with `isSubdivided` true, the four child
pointers set and an empty node list of its own; it never holds both nodes and
children.  A tree node that is internal is still internal, with an empty node list,
after any further returning inserts. -/
theorem tree_nodes_leaf_or_internal (level : Int) (quad : Quadrant) (c : Int) (t : QuadTree)
    (hreach : Reachable level quad c t) :
    (∀ path k, t.at? path = some k →
      (k.isSubdivided = false ∧ k.NW = none ∧ k.NE = none ∧ k.SW = none ∧ k.SE = none) ∨
      (k.isSubdivided = true ∧
        (∃ nw ne sw se, k.NW = some nw ∧ k.NE = some ne ∧ k.SW = some sw ∧ k.SE = some se) ∧
        k.Nodes = [])) ∧
    (∀ ns t', InsertSeq t ns t' → ∀ path k, t.at? path = some k → k.isSubdivided = true →
      ∃ k', t'.at? path = some k' ∧ k'.isSubdivided = true ∧ k'.Nodes = []) := by
  have hv : Valid c t := (valid_of_reachable hreach).1
  refine ⟨fun path k hk => valid_leaf_or_internal (valid_at path t k hv hk), ?_⟩
  intro ns t' hseq
  clear hreach
  induction hseq with
  | nil q =>
    intro path k hk hsub
    obtain hl | hi := valid_leaf_or_internal (valid_at path q k hv hk)
    · rw [hl.1] at hsub; cases hsub
    · exact ⟨k, hk, hsub, hi.2.2⟩
  | cons q q' t n ns fuel b hins _ ih =>
    intro path k hk hsub
    obtain ⟨k1, hk1, hsub1, _⟩ := insert_keeps_internal hv hins path k hk hsub
    exact ih (insert_spec c fuel q n (q', b) hv hins).2.2.1 path k1 hk1 hsub1

/-- Witness for C20: the tree holding `exA` and `exB`. -/
theorem tree_nodes_leaf_or_internal_witness :
    Reachable 1 exQuad 1 exTreeAB ∧
    ((∀ path k, exTreeAB.at? path = some k →
      (k.isSubdivided = false ∧ k.NW = none ∧ k.NE = none ∧ k.SW = none ∧ k.SE = none) ∨
      (k.isSubdivided = true ∧
        (∃ nw ne sw se, k.NW = some nw ∧ k.NE = some ne ∧ k.SW = some sw ∧ k.SE = some se) ∧
        k.Nodes = [])) ∧
    (∀ ns t', InsertSeq exTreeAB ns t' → ∀ path k, exTreeAB.at? path = some k →
      k.isSubdivided = true →
      ∃ k', t'.at? path = some k' ∧ k'.isSubdivided = true ∧ k'.Nodes = [])) :=
  ⟨reachable_exTreeAB, tree_nodes_leaf_or_internal 1 exQuad 1 exTreeAB reachable_exTreeAB⟩

end geostore

namespace model

/-! ### `Update` -/

theorem getD_set {α : Type} (l : List α) (p q : Nat) (a d : α) :
    (l.set p a).getD q d = if q = p ∧ p < l.length then a else l.getD q d := by
  simp only [List.getD_eq_getElem?_getD, List.getElem?_set]
  by_cases hqp : p = q
  · subst hqp
    by_cases hlt : p < l.length
    · simp [hlt]
    · simp [hlt, List.getElem?_eq_none (not_lt.mp hlt)]
  · have hqp' : ¬ q = p := fun e => hqp e.symm
    simp [hqp, hqp']

/-- What `Update` does when the name is present. -/
theorem Update_eq_present {s : InMemCacheStore} {name : String} {p : Nat} (c : Cache)
    (hp : s.cachesByName.get name = some p) :
    s.Update name c =
      ({ s with heapCaches := s.heapCaches.set p (updatedRecord (s.deref p) c) },
        updatedRecord (s.deref p) c, none) := by
  simp only [InMemCacheStore.Update, hp, updatedRecord, copyCache]

/-- What `Update` does when the name is absent. -/
theorem Update_eq_absent {s : InMemCacheStore} {name : String} (c : Cache)
    (hp : s.cachesByName.get name = none) :
    s.Update name c =
      (s, Cache.zero, some (GoError.errorf ("cache not found to update; name=" ++ name))) := by
  simp only [InMemCacheStore.Update, hp]

/-- `Update` touches the heap of `Cache` objects only: the indices, the counter, the
tag maps and the spatial index stay, and no object changes its `Id` or `Name`. -/
theorem Update_frame (s : InMemCacheStore) (name : String) (c : Cache) :
    (s.Update name c).1.heapTags = s.heapTags ∧
    (s.Update name c).1.caches = s.caches ∧
    (s.Update name c).1.sCounter = s.sCounter ∧
    (s.Update name c).1.cachesByName = s.cachesByName ∧
    (s.Update name c).1.cachesByTag = s.cachesByTag ∧
    (s.Update name c).1.geostore = s.geostore ∧
    (s.Update name c).1.heapCaches.length = s.heapCaches.length ∧
    (∀ q, ((s.Update name c).1.deref q).Id = (s.deref q).Id ∧
      ((s.Update name c).1.deref q).Name = (s.deref q).Name) := by
  cases hp : s.cachesByName.get name with
  | none =>
    rw [Update_eq_absent c hp]
    exact ⟨rfl, rfl, rfl, rfl, rfl, rfl, rfl, fun q => ⟨rfl, rfl⟩⟩
  | some p =>
    rw [Update_eq_present c hp]
    refine ⟨rfl, rfl, rfl, rfl, rfl, rfl, by simp, fun q => ?_⟩
    simp only [InMemCacheStore.deref, getD_set]
    split_ifs with h
    · rw [h.1]; exact ⟨rfl, rfl⟩
    · exact ⟨rfl, rfl⟩

/-- What the calls recorded by `Ran` leave in the store. -/
theorem ran_inv {g0 : geostore.InMemGeoStore} {k : Nat} {s : InMemCacheStore}
    (h : Ran g0 k s) :
    s.sCounter = (k + 1) % 2 ^ 64 ∧
    s.heapCaches.length = k ∧
    (∀ p, p < k → (s.deref p).Id = (p + 1) % 2 ^ 64) ∧
    (∀ id p, s.caches.get id = some p → p < k ∧ (s.deref p).Id = id) ∧
    (∀ name p, s.cachesByName.get name = some p → p < k ∧ (s.deref p).Name = name) ∧
    (k < 2 ^ 64 → ∀ p, p < k → s.caches.get (s.deref p).Id = some p) := by
  induction h with
  | fresh =>
    refine ⟨rfl, rfl, fun p hp => by omega, fun id p hp => ?_, fun name p hp => ?_,
      fun _ p hp => by omega⟩
    · simp [NewCacheStore, GoMap.get] at hp
    · simp [NewCacheStore, GoMap.get] at hp
  | create k s s' fuel name lat long tags id err _ hc ih =>
    obtain ⟨i1, i2, i3, i4, i5, i6⟩ := ih
    obtain ⟨_, _, _, hC, hcaches, hctr, hnames, _, _⟩ := Create_eq_ret hc
    have hold : ∀ p, p < k → s'.deref p = s.deref p := by
      intro p hp
      simp only [InMemCacheStore.deref, hC]
      exact List.getD_append _ _ _ _ (by rw [i2]; exact hp)
    have hnew : s'.deref k = Cache.mk s.sCounter name lat long (some s.heapTags.length) := by
      simp only [InMemCacheStore.deref, hC]
      rw [List.getD_append_right _ _ _ _ (by rw [i2])]
      simp [i2]
    refine ⟨?_, ?_, ?_, ?_, ?_, ?_⟩
    · rw [hctr, i1]; omega
    · rw [hC, List.length_append, List.length_singleton, i2]
    · intro p hp
      rcases Nat.lt_or_ge p k with hlt | hge
      · rw [hold p hlt]; exact i3 p hlt
      · have : p = k := by omega
        subst this
        rw [hnew, i1]
    · intro id' p hget
      rw [hcaches, GoMap.get_set, i2] at hget
      split_ifs at hget with hid
      · simp only [Option.some.injEq] at hget
        subst hget
        exact ⟨by omega, by rw [hnew, hid]⟩
      · obtain ⟨hlt, hidp⟩ := i4 id' p hget
        exact ⟨by omega, by rw [hold p hlt]; exact hidp⟩
    · intro nm p hget
      rw [hnames, GoMap.get_set, i2] at hget
      split_ifs at hget with hnm
      · simp only [Option.some.injEq] at hget
        subst hget
        exact ⟨by omega, by rw [hnew, hnm]⟩
      · obtain ⟨hlt, hnp⟩ := i5 nm p hget
        exact ⟨by omega, by rw [hold p hlt]; exact hnp⟩
    · intro hk p hp
      rw [hcaches, GoMap.get_set, i2]
      rcases Nat.lt_or_ge p k with hlt | hge
      · rw [hold p hlt]
        have hne : (s.deref p).Id ≠ s.sCounter := by
          rw [i3 p hlt, i1, Nat.mod_eq_of_lt (by omega), Nat.mod_eq_of_lt (by omega)]
          omega
        rw [if_neg hne]
        exact i6 (by omega) p hlt
      · have : p = k := by omega
        subst this
        rw [hnew]
        simp
  | update k s name c _ ih =>
    obtain ⟨i1, i2, i3, i4, i5, i6⟩ := ih
    obtain ⟨_, f2, f3, f4, _, _, f7, f8⟩ := Update_frame s name c
    refine ⟨by rw [f3]; exact i1, by rw [f7]; exact i2,
      fun p hp => by rw [(f8 p).1]; exact i3 p hp, fun id p hget => ?_, fun nm p hget => ?_,
      fun hk p hp => ?_⟩
    · rw [f2] at hget
      exact ⟨(i4 id p hget).1, by rw [(f8 p).1]; exact (i4 id p hget).2⟩
    · rw [f4] at hget
      exact ⟨(i5 nm p hget).1, by rw [(f8 p).2]; exact (i5 nm p hget).2⟩
    · rw [f2, (f8 p).1]
      exact i6 hk p hp
  | alloc k s m _ ih =>
    exact ih

end model

namespace model

theorem copyCache_eq (c : Cache) : copyCache c = c := rfl

theorem ran_exStore2 : Ran globeStore 2 exStore2 :=
  Ran.create 1 _ _ 1 "s2" 1 1 ["river"] 2 none
    (Ran.create 0 _ _ 1 "s1" 0 0 ["ocean", "atlantic"] 1 none Ran.fresh Create_exStore1)
    Create_exStore2

/-- Claim C11.  For every store reached from a fresh store by fewer than 2^64 returned
calls of `Create` and any calls of `Update`, and every name present in the name index,
`Update(name, c)` returns a nil error and a record that keeps `Id` and `Name` of the
existing record and takes `Lat`, `Long` and `Tags` from `c` (`c.Id` and `c.Name` play
no part); right afterwards `GetByName(name)` and `GetById` of that id both return this
record; every other `Cache` object is unchanged, and so is what `GetById` returns for
every other id and `GetByName` for every other name. -/
theorem Update_present_overwrites (g0 : geostore.InMemGeoStore) (k : Nat)
    (s : InMemCacheStore) (name : String) (c : Cache) (p : Nat) (h : Ran g0 k s)
    (hk : k < 2 ^ 64) (hp : s.cachesByName.get name = some p) :
    ∃ s' r, s.Update name c = (s', r, none) ∧
      s.GetByName name = (s.deref p, none) ∧
      r.Id = (s.deref p).Id ∧ r.Name = (s.deref p).Name ∧ r.Name = name ∧
      r.Lat = c.Lat ∧ r.Long = c.Long ∧ r.Tags = c.Tags ∧
      s'.GetByName name = (r, none) ∧ s'.GetById r.Id = (r, none) ∧
      (∀ q, q ≠ p → s'.deref q = s.deref q) ∧
      (∀ id, id ≠ r.Id → s'.GetById id = s.GetById id) ∧
      (∀ nm, nm ≠ name → s'.GetByName nm = s.GetByName nm) := by
  obtain ⟨_, i2, _, i4, i5, i6⟩ := ran_inv h
  obtain ⟨hplt, hpname⟩ := i5 name p hp
  have hU := Update_eq_present c hp
  obtain ⟨_, f2, _, f4, _, _, _, _⟩ := Update_frame s name c
  have hr : (s.Update name c).2.1 = updatedRecord (s.deref p) c := by rw [hU]
  have hderef : ∀ q, (s.Update name c).1.deref q =
      if q = p then updatedRecord (s.deref p) c else s.deref q := by
    intro q
    rw [hU]
    simp only [InMemCacheStore.deref, getD_set, i2, hplt, and_true]
  refine ⟨(s.Update name c).1, (s.Update name c).2.1, by rw [hU], ?_, by rw [hr]; rfl,
    by rw [hr]; rfl, by rw [hr]; exact hpname, by rw [hr]; rfl, by rw [hr]; rfl,
    by rw [hr]; rfl, ?_, ?_, ?_, ?_, ?_⟩
  · simp only [InMemCacheStore.GetByName, hp, copyCache_eq]
  · simp only [InMemCacheStore.GetByName, f4, hp, copyCache_eq, hderef, if_true, hr]
  · have hid : s.caches.get (s.deref p).Id = some p := i6 hk p hplt
    have hrid : (updatedRecord (s.deref p) c).Id = (s.deref p).Id := rfl
    simp only [InMemCacheStore.GetById, f2, hr, hrid, hid, copyCache_eq, hderef, if_true]
  · intro q hq
    rw [hderef, if_neg hq]
  · intro id hid
    have hrid : (s.Update name c).2.1.Id = (s.deref p).Id := by rw [hr]; rfl
    rw [hrid] at hid
    simp only [InMemCacheStore.GetById, f2]
    cases hget : s.caches.get id with
    | none => rfl
    | some q =>
      have hqp : q ≠ p := by
        intro e
        subst e
        exact hid (i4 id q hget).2.symm
      simp only [copyCache_eq, hderef, if_neg hqp]
  · intro nm hnm
    simp only [InMemCacheStore.GetByName, f4]
    cases hget : s.cachesByName.get nm with
    | none => rfl
    | some q =>
      have hqp : q ≠ p := by
        intro e
        subst e
        exact hnm ((i5 nm q hget).2.symm.trans hpname)
      simp only [copyCache_eq, hderef, if_neg hqp]

/-- Witness for C11: `Update("s1", exUpdate)` on the two-record store. -/
theorem Update_present_overwrites_witness :
    Ran globeStore 2 exStore2 ∧ 2 < 2 ^ 64 ∧ exStore2.cachesByName.get "s1" = some 0 ∧
    ∃ s' r, exStore2.Update "s1" exUpdate = (s', r, none) ∧
      exStore2.GetByName "s1" = (exStore2.deref 0, none) ∧
      r.Id = (exStore2.deref 0).Id ∧ r.Name = (exStore2.deref 0).Name ∧ r.Name = "s1" ∧
      r.Lat = exUpdate.Lat ∧ r.Long = exUpdate.Long ∧ r.Tags = exUpdate.Tags ∧
      s'.GetByName "s1" = (r, none) ∧ s'.GetById r.Id = (r, none) ∧
      (∀ q, q ≠ 0 → s'.deref q = exStore2.deref q) ∧
      (∀ id, id ≠ r.Id → s'.GetById id = exStore2.GetById id) ∧
      (∀ nm, nm ≠ "s1" → s'.GetByName nm = exStore2.GetByName nm) :=
  have h2 : (2 : Nat) < 2 ^ 64 := by norm_num
  have h3 : exStore2.cachesByName.get "s1" = some 0 := by
    simp [exStore2, GoMap.get]
  ⟨ran_exStore2, h2, h3,
    Update_present_overwrites globeStore 2 exStore2 "s1" exUpdate 0 ran_exStore2 h2 h3⟩

/-- Claim C12.  In every store state `Update(name, c)` leaves the tag index and the
spatial index as they are: for every tag list `GetByTags` returns records with the
same ids (in the same order) after the call as before it, and for every query the
spatial index's `FindNearest` returns the same ids, whatever tags and coordinates `c`
carries; on a store built by `Create` calls the ids `GetByTags` returns after the
`Update` are still those of the records created with a requested tag. -/
theorem Update_does_not_resync (s : InMemCacheStore) (name : String) (c : Cache) :
    (s.Update name c).1.cachesByTag = s.cachesByTag ∧
    (s.Update name c).1.geostore = s.geostore ∧
    (∀ ts, ((s.Update name c).1.GetByTags ts).1.map Cache.Id =
      (s.GetByTags ts).1.map Cache.Id) ∧
    (∀ fuel lat long maxDistance limit,
      (s.Update name c).1.geostore.FindNearest fuel lat long maxDistance limit =
        s.geostore.FindNearest fuel lat long maxDistance limit) ∧
    (∀ g0 log, Built g0 log s → ∀ ts i,
      i ∈ ((s.Update name c).1.GetByTags ts).1.map Cache.Id ↔
        ∃ cc ∈ log, cc.id = i ∧ ∃ t ∈ ts, t ∈ cc.tags) := by
  obtain ⟨_, _, _, _, f5, f6, _, f8⟩ := Update_frame s name c
  have hids : ∀ ts, ((s.Update name c).1.GetByTags ts).1.map Cache.Id =
      (s.GetByTags ts).1.map Cache.Id := by
    intro ts
    rw [GetByTags_eq, GetByTags_eq]
    simp only [List.map_flatMap, List.map_map, InMemCacheStore.indexed, f5]
    congr 1
    funext t
    apply List.map_congr_left
    intro q _
    simp only [Function.comp, copyCache_eq]
    exact (f8 q).1
  refine ⟨f5, f6, hids, fun fuel lat long maxDistance limit => by rw [f6], ?_⟩
  intro g0 log hb ts i
  rw [hids ts]
  exact ids_GetByTags_of_built hb ts i

/-- Claim C13.  In every store state in which the name is absent from the name index,
`Update(name, c)` returns an error (and the zero `Cache`) and leaves the store as it
was: heap objects, id map, name index, tag index, counter and spatial index. -/
theorem Update_absent_leaves_store (s : InMemCacheStore) (name : String) (c : Cache)
    (h : s.cachesByName.get name = none) :
    (s.Update name c).1 = s ∧ (s.Update name c).2.2 ≠ none ∧
      (s.Update name c).2.1 = Cache.zero := by
  rw [Update_eq_absent c h]
  exact ⟨rfl, by simp, rfl⟩

/-- Witness for C13: `Update("nosuch", exUpdate)` on the two-record store. -/
theorem Update_absent_leaves_store_witness :
    exStore2.cachesByName.get "nosuch" = none ∧
    ((exStore2.Update "nosuch" exUpdate).1 = exStore2 ∧
      (exStore2.Update "nosuch" exUpdate).2.2 ≠ none ∧
      (exStore2.Update "nosuch" exUpdate).2.1 = Cache.zero) :=
  have h : exStore2.cachesByName.get "nosuch" = none := by
    simp only [exStore2, GoMap.get]
    decide
  ⟨h, Update_absent_leaves_store exStore2 "nosuch" exUpdate h⟩

/-- Claim C14, evaluated on the code.  For an absent name `Update` returns the error
built by `fmt.Errorf("cache not found to update; name=%s", name)`, which is not a
`CacheNotFoundErr`, whereas `GetByName` returns `&CacheNotFoundErr{name: name}`: on the
fresh store, for the name "nosuch", and in every store state. -/
theorem Update_absent_error_is_not_CacheNotFoundErr :
    ((NewCacheStore globeStore).Update "nosuch" exUpdate).2.2 =
      some (GoError.errorf "cache not found to update; name=nosuch") ∧
    ((NewCacheStore globeStore).GetByName "nosuch").2 =
      some (GoError.CacheNotFoundErr 0 "nosuch") ∧
    (∀ (s : InMemCacheStore) (name : String) (c : Cache), s.cachesByName.get name = none →
      (s.GetByName name).2 = some (GoError.CacheNotFoundErr 0 name) ∧
      (s.Update name c).2.2 = some (GoError.errorf ("cache not found to update; name=" ++ name)) ∧
      ∀ id nm, (s.Update name c).2.2 ≠ some (GoError.CacheNotFoundErr id nm)) := by
  refine ⟨?_, ?_, ?_⟩
  · simp only [InMemCacheStore.Update, NewCacheStore, GoMap.get]
    rfl
  · simp only [InMemCacheStore.GetByName, NewCacheStore, GoMap.get]
  · intro s name c h
    rw [Update_eq_absent c h]
    refine ⟨by simp only [InMemCacheStore.GetByName, h], rfl, fun id nm => by simp⟩

end model

namespace model

/-! ### Two records under one name -/

theorem Create_exStoreDup :
    exStore1.Create 1 "s1" 1 1 ["river"] = .ret (exStoreDup, 2, none) := by
  norm_num [InMemCacheStore.Create, geostore.InMemGeoStore.Insert, geostore.QuadTree.insert,
    geostore.globeRoot, geostore.NewQuadTree, geostore.NewQuadrant, geostore.NewNode,
    geostore.GpsToAbsolute, geostore.Quadrant.inQuadrant, Outcome.bind, exStore1, exStoreDup,
    tagSet, indexTags, GoMap.set, GoMap.get]
  decide

theorem succ_mod_ne (x : Nat) : (x + 1) % 2 ^ 64 ≠ x := by
  intro h
  have hlt : x < 2 ^ 64 := by
    rw [← h]
    exact Nat.mod_lt _ (by norm_num)
  rcases Nat.lt_or_ge (x + 1) (2 ^ 64) with h1 | h1
  · rw [Nat.mod_eq_of_lt h1] at h
    omega
  · have : x + 1 = 2 ^ 64 := by omega
    rw [this, Nat.mod_self] at h
    omega

/-- Claim C15.  If `Create` is called twice in a row with the same name and returns
the ids `i1` and then `i2`, both calls return a nil error and the ids differ;
afterwards `GetByName(name)` returns the second record (`Id = i2`), while the first
record is still there: `GetById(i1)` returns it as before the second call, with the
tags it was created with, and `GetByTags` returns it for every request that contains
one of its tags. -/
theorem Create_twice_same_name (s s1 s2 : InMemCacheStore) (fuel1 fuel2 : Nat)
    (name : String) (lat1 long1 lat2 long2 : ℚ) (tags1 tags2 : List String) (i1 i2 : Nat)
    (e1 e2 : Option GoError)
    (h1 : s.Create fuel1 name lat1 long1 tags1 = .ret (s1, i1, e1))
    (h2 : s1.Create fuel2 name lat2 long2 tags2 = .ret (s2, i2, e2)) :
    e1 = none ∧ e2 = none ∧ i1 ≠ i2 ∧
    ∃ r1 r2 : Cache,
      s1.GetById i1 = (r1, none) ∧ r1.Id = i1 ∧ r1.Name = name ∧ r1.Lat = lat1 ∧
      r1.Long = long1 ∧
      s2.GetByName name = (r2, none) ∧ s2.GetById i2 = (r2, none) ∧ r2.Id = i2 ∧
      r2.Name = name ∧ r2.Lat = lat2 ∧ r2.Long = long2 ∧
      s2.GetById i1 = (r1, none) ∧
      (∀ x, (s2.tagsOf r1).get x = if x ∈ tags1 then some true else none) ∧
      (∀ ts t, t ∈ tags1 → t ∈ ts → r1 ∈ (s2.GetByTags ts).1) := by
  obtain ⟨hid1, herr1, hT1, hC1, hcaches1, hctr1, _, hbyTag1, _⟩ := Create_eq_ret h1
  obtain ⟨hid2, herr2, hT2, hC2, hcaches2, _, hnames2, hbyTag2, _⟩ := Create_eq_ret h2
  have hne : i1 ≠ i2 := by
    rw [hid1, hid2, hctr1]
    exact (succ_mod_ne s.sCounter).symm
  have hlen1 : s1.heapCaches.length = s.heapCaches.length + 1 := by
    rw [hC1, List.length_append, List.length_singleton]
  have hd1 : s1.deref s.heapCaches.length =
      Cache.mk s.sCounter name lat1 long1 (some s.heapTags.length) := by
    simp [InMemCacheStore.deref, hC1, List.getD_append_right]
  have hd12 : s2.deref s.heapCaches.length = s1.deref s.heapCaches.length := by
    simp only [InMemCacheStore.deref, hC2]
    exact List.getD_append _ _ _ _ (by rw [hlen1]; omega)
  have hd2 : s2.deref s1.heapCaches.length =
      Cache.mk s1.sCounter name lat2 long2 (some s1.heapTags.length) := by
    simp [InMemCacheStore.deref, hC2, List.getD_append_right]
  refine ⟨herr1, herr2, hne, Cache.mk s.sCounter name lat1 long1 (some s.heapTags.length),
    Cache.mk s1.sCounter name lat2 long2 (some s1.heapTags.length),
    ?_, hid1.symm, rfl, rfl, rfl, ?_, ?_, hid2.symm, rfl, rfl, rfl, ?_, ?_, ?_⟩
  · simp only [InMemCacheStore.GetById, hcaches1, hid1, GoMap.get_set_same, hd1, copyCache_eq]
  · simp only [InMemCacheStore.GetByName, hnames2, GoMap.get_set_same, hd2, copyCache_eq]
  · simp only [InMemCacheStore.GetById, hcaches2, hid2, GoMap.get_set_same, hd2, copyCache_eq]
  · have hget : s2.caches.get i1 = some s.heapCaches.length := by
      rw [hcaches2, GoMap.get_set_other _ _ _ _ (by rw [← hid2]; exact hne), hcaches1, hid1,
        GoMap.get_set_same]
    simp only [InMemCacheStore.GetById, hget, hd12, hd1, copyCache_eq]
  · intro x
    simp only [InMemCacheStore.tagsOf, hT2, hT1]
    rw [List.getD_append _ _ _ _ (by simp), List.getD_append_right _ _ _ _ (le_refl _)]
    simp [tagSet_get]
  · intro ts t ht1 hts
    rw [GetByTags_eq]
    simp only [List.mem_flatMap, List.mem_map]
    refine ⟨t, hts, s.heapCaches.length, ?_, by rw [hd12, hd1, copyCache_eq]⟩
    simp only [InMemCacheStore.indexed, hbyTag2]
    rw [mem_keysAt_indexTags, hbyTag1, mem_keysAt_indexTags]
    exact Or.inl (Or.inr ⟨rfl, ht1⟩)

/-- Witness for C15: `Create("s1", 0, 0, ["ocean", "atlantic"])` and then
`Create("s1", 1, 1, ["river"])` on the fresh store. -/
theorem Create_twice_same_name_witness :
    (NewCacheStore globeStore).Create 1 "s1" 0 0 ["ocean", "atlantic"]
      = .ret (exStore1, 1, none) ∧
    exStore1.Create 1 "s1" 1 1 ["river"] = .ret (exStoreDup, 2, none) ∧
    ((none : Option GoError) = none ∧ (none : Option GoError) = none ∧ (1 : Nat) ≠ 2 ∧
    ∃ r1 r2 : Cache,
      exStore1.GetById 1 = (r1, none) ∧ r1.Id = 1 ∧ r1.Name = "s1" ∧ r1.Lat = 0 ∧
      r1.Long = 0 ∧
      exStoreDup.GetByName "s1" = (r2, none) ∧ exStoreDup.GetById 2 = (r2, none) ∧ r2.Id = 2 ∧
      r2.Name = "s1" ∧ r2.Lat = 1 ∧ r2.Long = 1 ∧
      exStoreDup.GetById 1 = (r1, none) ∧
      (∀ x, (exStoreDup.tagsOf r1).get x =
        if x ∈ ["ocean", "atlantic"] then some true else none) ∧
      (∀ ts t, t ∈ ["ocean", "atlantic"] → t ∈ ts → r1 ∈ (exStoreDup.GetByTags ts).1)) :=
  ⟨Create_exStore1, Create_exStoreDup,
    Create_twice_same_name (NewCacheStore globeStore) exStore1 exStoreDup 1 1 "s1" 0 0 1 1
      ["ocean", "atlantic"] ["river"] 1 2 none none Create_exStore1 Create_exStoreDup⟩

/-! ### The store's `FindNearest` -/

/-- Claim C17, evaluated on the code.  On a store whose spatial index returns the id 7
while the id map holds no record under 7, `FindNearest` dereferences the nil pointer
`s.caches[7]` in `copyCache` and panics; it returns neither an error nor anything
else. -/
theorem FindNearest_panics_on_missing_record :
    exOrphanStore.caches.get 7 = none ∧
    (∀ fuel, exOrphanStore.geostore.FindNearest (fuel + 1) 0 0 0 0 = Outcome.ret [7]) ∧
    (∀ fuel, exOrphanStore.FindNearest (fuel + 1) 0 0 0 0 = Outcome.panic) ∧
    (∀ fuel r, exOrphanStore.FindNearest fuel 0 0 0 0 ≠ Outcome.ret r) := by
  have hg : ∀ fuel, exOrphanStore.geostore.FindNearest (fuel + 1) 0 0 0 0 = Outcome.ret [7] := by
    intro fuel
    norm_num [exOrphanStore, NewCacheStore, geostore.InMemGeoStore.FindNearest,
      geostore.findQuadTree, geostore.findLoop, geostore.globeRoot, geostore.NewQuadTree,
      geostore.NewQuadrant, geostore.NewNode, geostore.GpsToAbsolute,
      geostore.Quadrant.inQuadrant, Outcome.bind]
  have hp : ∀ fuel, exOrphanStore.FindNearest (fuel + 1) 0 0 0 0 = Outcome.panic := by
    intro fuel
    have hc : exOrphanStore.caches.get 7 = none := rfl
    simp only [InMemCacheStore.FindNearest, hg fuel, Outcome.bind, InMemCacheStore.resolve, hc]
  refine ⟨rfl, hg, hp, fun fuel r => ?_⟩
  cases fuel with
  | zero =>
    simp [InMemCacheStore.FindNearest, exOrphanStore, NewCacheStore,
      geostore.InMemGeoStore.FindNearest, geostore.findQuadTree, geostore.findLoop,
      Outcome.bind]
  | succ f => rw [hp f]; simp

end model

namespace model

/-- On a store that started with an empty spatial index, the index is a reachable tree
and every node it holds carries an id for which the id map has a record. -/
theorem ran_geo_inv {level : Int} {quad : geostore.Quadrant} {c : Int} {k : Nat}
    {s : InMemCacheStore} {g0 : geostore.InMemGeoStore}
    (hg0 : g0 = geostore.NewGeoStoreInMem (geostore.NewQuadTree level quad c))
    (h : Ran g0 k s) :
    geostore.Reachable level quad c s.geostore.Root ∧
    ∀ n ∈ s.geostore.Root.leafNodes, ∃ p, s.caches.get n.Id = some p := by
  induction h with
  | fresh =>
    subst hg0
    refine ⟨geostore.Reachable.fresh, fun n hn => ?_⟩
    simp [NewCacheStore, geostore.NewGeoStoreInMem, geostore.leafNodes_eq,
      geostore.NewQuadTree] at hn
  | create k s s' fuel name lat long tags id err _ hc ih =>
    obtain ⟨hreach, hids⟩ := ih
    obtain ⟨_, _, _, _, hcaches, _, _, _, hgeo⟩ := Create_eq_ret hc
    simp only [geostore.InMemGeoStore.Insert] at hgeo
    obtain ⟨r, hr, hret⟩ := Outcome.bind_eq_ret hgeo
    simp only [Outcome.ret.injEq] at hret
    have hroot : s'.geostore.Root = r.1 := by rw [← hret]
    have hv := (geostore.valid_of_reachable hreach).1
    obtain ⟨_, hsame, _, _, _, hperm⟩ := geostore.insert_spec c fuel s.geostore.Root
      (geostore.NewNode long lat s.sCounter) r hv hr
    refine ⟨?_, fun n hn => ?_⟩
    · rw [hroot]
      exact geostore.Reachable.step _ _ fuel _ r.2 hreach hr
    · rw [hcaches, GoMap.get_set]
      by_cases hid : n.Id = s.sCounter
      · exact ⟨_, by rw [if_pos hid]⟩
      · rw [if_neg hid]
        rw [hroot] at hn
        cases hb : r.2 with
        | false =>
          rw [hsame hb] at hn
          exact hids n hn
        | true =>
          have hmem := (hperm hb).subset hn
          rcases List.mem_cons.mp hmem with rfl | hold
          · exact absurd rfl hid
          · exact hids n hold
  | update k s name cache _ ih =>
    obtain ⟨_, f2, _, _, _, f6, _, _⟩ := Update_frame s name cache
    rw [f2, f6]
    exact ih
  | alloc k s m _ ih =>
    exact ih

theorem resolve_all (s : InMemCacheStore) (ids : List Nat)
    (h : ∀ id ∈ ids, ∃ p, s.caches.get id = some p) :
    s.resolve ids = .ret (ids.map fun id => (s.GetById id).1) := by
  induction ids with
  | nil => rfl
  | cons id rest ih =>
    obtain ⟨p, hp⟩ := h id (List.mem_cons_self _ _)
    simp only [InMemCacheStore.resolve, hp, ih (fun x hx => h x (List.mem_cons_of_mem _ hx)),
      Outcome.bind, List.map_cons, InMemCacheStore.GetById]

/-- Claim C16.  For every store reached from a fresh store bound to an initially empty
spatial index (a fresh leaf) by returned calls of `Create` and calls of `Update`, and
every query whose translated point lies in the root quadrant, the spatial index's
`FindNearest` returns a list of ids (the same for every budget from some bound on and
for all `maxDistance`, `limit`); every one of these ids is present in the id map; and
the store's `FindNearest` returns a nil error and the records stored under these ids,
one per id, in the same order. -/
theorem FindNearest_resolves_ids (level : Int) (quad : geostore.Quadrant) (c : Int) (k : Nat)
    (s : InMemCacheStore) (lat long : ℚ)
    (h : Ran (geostore.NewGeoStoreInMem (geostore.NewQuadTree level quad c)) k s)
    (hin : quad.inQuadrant (geostore.NewNode long lat 1) = true) :
    ∃ ids fuel0, ∀ fuel, fuel0 ≤ fuel → ∀ (maxDistance : ℚ) (limit : Int),
      s.geostore.FindNearest fuel lat long maxDistance limit = .ret ids ∧
      (∀ id ∈ ids, (∃ p, s.caches.get id = some p) ∧ (s.GetById id).2 = none) ∧
      s.FindNearest fuel lat long maxDistance limit =
        .ret (ids.map fun id => (s.GetById id).1, none) := by
  obtain ⟨hreach, hids⟩ := ran_geo_inv rfl h
  obtain ⟨hv, hq, _⟩ := geostore.valid_of_reachable hreach
  obtain ⟨path, L, hloc⟩ := geostore.locates_exists hv (geostore.NewNode long lat 1)
    (by rw [hq]; exact hin)
  obtain ⟨hat, hleaf, _⟩ := geostore.locates_at hloc
  have hpres : ∀ id ∈ L.Nodes.map (fun n => n.Id), ∃ p, s.caches.get id = some p := by
    intro id hid
    obtain ⟨n, hn, rfl⟩ := List.mem_map.mp hid
    exact hids n (geostore.leaf_nodes_subset path _ L hv hat hleaf n hn)
  refine ⟨L.Nodes.map (fun n => n.Id), path.length + 1, fun fuel hf maxDistance limit => ?_⟩
  have hfind : geostore.findQuadTree fuel (geostore.NewNode long lat 1) s.geostore.Root
      = .ret (some L) := geostore.findLoop_locates hloc fuel hf
  have hgeo : s.geostore.FindNearest fuel lat long maxDistance limit
      = .ret (L.Nodes.map fun n => n.Id) := by
    simp only [geostore.InMemGeoStore.FindNearest, hfind, Outcome.bind]
  refine ⟨hgeo, fun id hid => ?_, ?_⟩
  · obtain ⟨p, hp⟩ := hpres id hid
    exact ⟨⟨p, hp⟩, by simp only [InMemCacheStore.GetById, hp]⟩
  · simp only [InMemCacheStore.FindNearest, hgeo, Outcome.bind, resolve_all s _ hpres]

/-- Witness for C16: the two-record store queried at `lat = 0, long = 0`. -/
theorem FindNearest_resolves_ids_witness :
    Ran (geostore.NewGeoStoreInMem
      (geostore.NewQuadTree 1 (geostore.NewQuadrant (-180) (-90) 180 90 true) 4)) 2 exStore2 ∧
    (geostore.NewQuadrant (-180) (-90) 180 90 true).inQuadrant (geostore.NewNode 0 0 1) = true ∧
    ∃ ids fuel0, ∀ fuel, fuel0 ≤ fuel → ∀ (maxDistance : ℚ) (limit : Int),
      exStore2.geostore.FindNearest fuel 0 0 maxDistance limit = .ret ids ∧
      (∀ id ∈ ids, (∃ p, exStore2.caches.get id = some p) ∧ (exStore2.GetById id).2 = none) ∧
      exStore2.FindNearest fuel 0 0 maxDistance limit =
        .ret (ids.map fun id => (exStore2.GetById id).1, none) :=
  have hin : (geostore.NewQuadrant (-180) (-90) 180 90 true).inQuadrant
      (geostore.NewNode 0 0 1) = true := by
    norm_num [geostore.Quadrant.inQuadrant, geostore.NewQuadrant, geostore.NewNode,
      geostore.GpsToAbsolute]
  ⟨ran_exStore2, hin,
    FindNearest_resolves_ids 1 (geostore.NewQuadrant (-180) (-90) 180 90 true) 4 2 exStore2 0 0
      ran_exStore2 hin⟩

end model

/-! ## A larger budget does not change what a call returns -/

namespace Outcome

theorem bind_ret_mono {α β : Type} {x y : Outcome α} {f g : α → Outcome β} {b : β}
    (hx : ∀ a, x = ret a → y = ret a) (hf : ∀ a c, f a = ret c → g a = ret c)
    (h : x.bind f = ret b) : y.bind g = ret b := by
  obtain ⟨a, ha, hb⟩ := bind_eq_ret h
  rw [hx a ha]
  exact hf a b hb

end Outcome

namespace geostore

theorem insertFirst_mono {ins ins' : QuadTree → Node → Outcome (QuadTree × Bool)}
    (hins : ∀ q n r, ins q n = .ret r → ins' q n = .ret r) (node : Node) :
    ∀ (slots : List Slot) (q : QuadTree) (r : QuadTree × Bool),
      QuadTree.insertFirst ins node slots q = .ret r →
      QuadTree.insertFirst ins' node slots q = .ret r := by
  intro slots
  induction slots with
  | nil => intro q r h; exact h
  | cons s rest ih =>
    intro q r h
    rw [QuadTree.insertFirst] at h ⊢
    cases hc : q.child s with
    | none => rw [hc] at h; cases h
    | some qt =>
      rw [hc] at h
      simp only at h ⊢
      refine Outcome.bind_ret_mono (hins qt node) ?_ h
      intro a c hac
      by_cases ha : a.2 = true
      · simpa [ha] using hac
      · simp only [ha, if_false, Bool.false_eq_true] at hac ⊢
        exact ih _ _ hac

theorem redistribute_mono {ins ins' : QuadTree → Node → Outcome (QuadTree × Bool)}
    (hins : ∀ q n r, ins q n = .ret r → ins' q n = .ret r) :
    ∀ (nodes : List Node) (q r : QuadTree),
      QuadTree.redistribute ins nodes q = .ret r →
      QuadTree.redistribute ins' nodes q = .ret r := by
  intro nodes
  induction nodes with
  | nil => intro q r h; exact h
  | cons n rest ih =>
    intro q r h
    rw [QuadTree.redistribute] at h ⊢
    exact Outcome.bind_ret_mono (insertFirst_mono hins n QuadTree.qts q) (fun a c => ih a.1 c) h

theorem insert_succ_mono :
    ∀ (fuel : Nat) (q : QuadTree) (n : Node) (r : QuadTree × Bool),
      q.insert fuel n = .ret r → q.insert (fuel + 1) n = .ret r := by
  intro fuel
  induction fuel with
  | zero => intro q n r h; cases h
  | succ fuel ih =>
    intro q n r h
    rw [QuadTree.insert] at h ⊢
    by_cases h1 : (!q.Quadrant.inQuadrant n) = true
    · simpa [h1] using h
    · rw [if_neg h1] at h ⊢
      by_cases h2 : q.isSubdivided = true
      · rw [if_pos h2] at h ⊢
        exact Outcome.bind_ret_mono (insertFirst_mono ih n q.QuadTrees q) (fun _ _ hh => hh) h
      · rw [if_neg h2] at h ⊢
        by_cases h3 : (q.Nodes.length : Int) < q.MaxCapacity
        · rw [if_pos h3] at h ⊢
          exact h
        · rw [if_neg h3] at h ⊢
          rw [splitWith_eq] at h ⊢
          exact Outcome.bind_ret_mono (redistribute_mono ih _ _) (fun _ _ hh => hh) h

theorem insert_mono {fuel fuel' : Nat} (hle : fuel ≤ fuel') (q : QuadTree) (n : Node)
    (r : QuadTree × Bool) (h : q.insert fuel n = .ret r) : q.insert fuel' n = .ret r := by
  induction hle with
  | refl => exact h
  | step _ ih => exact insert_succ_mono _ q n r ih

theorem findLoop_succ_mono :
    ∀ (fuel : Nat) (node : Node) (queue : List QuadTree) (r : Option QuadTree),
      findLoop fuel node queue = .ret r → findLoop (fuel + 1) node queue = .ret r := by
  intro fuel
  induction fuel with
  | zero =>
    intro node queue r h
    cases queue with
    | nil => simp [findLoop] at h
    | cons q queue => simp [findLoop] at h
  | succ fuel ih =>
    intro node queue r h
    cases queue with
    | nil => simp [findLoop] at h
    | cons q queue =>
      rw [findLoop] at h ⊢
      by_cases h1 : q.isSubdivided = true
      · rw [if_pos h1] at h ⊢
        refine Outcome.bind_ret_mono (fun _ hh => hh) ?_ h
        intro found c hc
        cases found with
        | none => exact ih _ _ _ hc
        | some qt =>
          simp only at hc ⊢
          by_cases h2 : queue.length < queueCap
          · rw [if_pos h2] at hc ⊢
            exact ih _ _ _ hc
          · rw [if_neg h2] at hc
            cases hc
      · rw [if_neg h1] at h ⊢
        by_cases h3 : q.Quadrant.inQuadrant node = true
        · rw [if_pos h3] at h ⊢
          exact h
        · rw [if_neg h3] at h ⊢
          exact ih _ _ _ h

theorem findLoop_mono {fuel fuel' : Nat} (hle : fuel ≤ fuel') (node : Node)
    (queue : List QuadTree) (r : Option QuadTree) (h : findLoop fuel node queue = .ret r) :
    findLoop fuel' node queue = .ret r := by
  induction hle with
  | refl => exact h
  | step _ ih => exact findLoop_succ_mono _ node queue r ih

theorem FindNearest_mono {fuel fuel' : Nat} (hle : fuel ≤ fuel') (g : InMemGeoStore)
    (lat long maxDistance : ℚ) (limit : Int) (l : List Nat)
    (h : g.FindNearest fuel lat long maxDistance limit = .ret l) :
    g.FindNearest fuel' lat long maxDistance limit = .ret l := by
  unfold InMemGeoStore.FindNearest findQuadTree at h ⊢
  exact Outcome.bind_ret_mono (fun a => findLoop_mono hle _ _ a) (fun _ _ hh => hh) h

theorem Insert_mono {fuel fuel' : Nat} (hle : fuel ≤ fuel') (g g' : InMemGeoStore) (n : Node)
    (h : g.Insert fuel n = .ret g') : g.Insert fuel' n = .ret g' := by
  unfold InMemGeoStore.Insert at h ⊢
  exact Outcome.bind_ret_mono (fun a => insert_mono hle _ _ a) (fun _ _ hh => hh) h

theorem insertAll_mono {fuel fuel' : Nat} (hle : fuel ≤ fuel') :
    ∀ (ns : List Node) (g g' : InMemGeoStore),
      InMemGeoStore.insertAll fuel ns g = .ret g' →
      InMemGeoStore.insertAll fuel' ns g = .ret g' := by
  intro ns
  induction ns with
  | nil => intro g g' h; exact h
  | cons n rest ih =>
    intro g g' h
    rw [InMemGeoStore.insertAll] at h ⊢
    exact Outcome.bind_ret_mono (fun a => Insert_mono hle g a n) (fun a c => ih a c) h

/-- Claim C22.  With capacity 4 and the whole-globe root quadrant, inserting the nine
fixture nodes in the order of the test (ids 1, 6, 7, 8, 9, 2, 3, 4, 5) and then calling
`FindNearest(52.58987722297317, -114.69660872375789, 0, 0)` returns, for every
recursion and iteration budget from 5 on, the ids 6, 7, 8, 9 (each once, in this
order): the set of the returned ids is exactly `{6, 7, 8, 9}`.  The decimal literals
of the fixture are taken as exact rationals. -/
theorem TestFindNearest_returns_canadian_cluster (fuel : Nat) (hfuel : 5 ≤ fuel) :
    actualNearestNodes fuel = .ret [6, 7, 8, 9] ∧
    ∀ l, actualNearestNodes fuel = .ret l → ∀ i, i ∈ l ↔ i ∈ ({6, 7, 8, 9} : Finset Nat) := by
  have h5 : actualNearestNodes 5 = .ret [6, 7, 8, 9] := by decide!
  have h : actualNearestNodes fuel = .ret [6, 7, 8, 9] := by
    unfold actualNearestNodes at h5 ⊢
    exact Outcome.bind_ret_mono (fun a => insertAll_mono hfuel _ _ a)
      (fun a c => FindNearest_mono hfuel a _ _ _ _ c) h5
  refine ⟨h, fun l hl i => ?_⟩
  rw [h] at hl
  cases hl
  simp

/-- Witness for C22: the budget 20. -/
theorem TestFindNearest_returns_canadian_cluster_witness :
    5 ≤ 20 ∧ actualNearestNodes 20 = .ret [6, 7, 8, 9] ∧
    ∀ l, actualNearestNodes 20 = .ret l → ∀ i, i ∈ l ↔ i ∈ ({6, 7, 8, 9} : Finset Nat) :=
  ⟨by decide, TestFindNearest_returns_canadian_cluster 20 (by decide)⟩

end geostore

/-! ## Coincident nodes beyond the capacity -/

namespace geostore

theorem leaf_insert_append (fuel : Nat) (q : QuadTree) (n : Node)
    (hleaf : q.isSubdivided = false) (hin : q.Quadrant.inQuadrant n = true)
    (hlen : (q.Nodes.length : Int) < q.MaxCapacity) :
    q.insert (fuel + 1) n = .ret ({ q with Nodes := q.Nodes ++ [n] }, true) := by
  rw [QuadTree.insert]
  simp [hin, hleaf, hlen]

theorem insertSeq_leaf_fill :
    ∀ (ns : List Node) (q : QuadTree), q.isSubdivided = false →
      (∀ m ∈ ns, q.Quadrant.inQuadrant m = true) →
      ((q.Nodes.length : Int) + (ns.length : Int) ≤ q.MaxCapacity) →
      ∀ t, InsertSeq q ns t ↔ t = { q with Nodes := q.Nodes ++ ns } := by
  intro ns
  induction ns with
  | nil =>
    intro q _ _ _ t
    have hq : ({ q with Nodes := q.Nodes ++ [] } : QuadTree) = q := by
      cases q; simp
    rw [hq]
    constructor
    · intro h; cases h; rfl
    · rintro rfl; exact InsertSeq.nil _
  | cons n ns ih =>
    intro q hleaf hin hlen t
    have hn : q.Quadrant.inQuadrant n = true := hin n (List.mem_cons_self _ _)
    have hlt : (q.Nodes.length : Int) < q.MaxCapacity := by
      simp only [List.length_cons, Nat.cast_add, Nat.cast_one] at hlen
      omega
    have hstep := ih { q with Nodes := q.Nodes ++ [n] } hleaf
      (fun m hm => hin m (List.mem_cons_of_mem _ hm))
      (by
        simp only [List.length_cons, List.length_append, List.length_nil, Nat.cast_add,
          Nat.cast_one, Nat.cast_zero] at hlen ⊢
        omega) t
    have happ : ({ ({ q with Nodes := q.Nodes ++ [n] } : QuadTree) with
        Nodes := ({ q with Nodes := q.Nodes ++ [n] } : QuadTree).Nodes ++ ns } : QuadTree) =
        { q with Nodes := q.Nodes ++ n :: ns } := by
      simp
    rw [happ] at hstep
    constructor
    · intro h
      cases h with
      | cons _ q' _ _ _ fuel b hins hrest =>
        cases fuel with
        | zero => simp [QuadTree.insert] at hins
        | succ fuel =>
          rw [leaf_insert_append fuel q n hleaf hn hlt] at hins
          cases hins
          exact hstep.1 hrest
    · intro h
      refine InsertSeq.cons _ _ _ _ _ 1 true (leaf_insert_append 0 q n hleaf hn hlt) ?_
      exact hstep.2 h

/-- Claim C21.  For every capacity `c ≥ 0` (a natural number) and every node `n` inside
the root quadrant: inserting `c` nodes with the coordinates of `n` into the fresh leaf
returns each time and leaves one tree only, the leaf holding these `c` nodes; on it
neither `insert(n)`, the `(c+1)`-th insert, nor the call of `split` it makes returns
within any recursion budget: the subdivision goes on to every depth (for `c = 0` the
list of earlier nodes is empty and this is the first insert). -/
theorem insert_coincident_beyond_capacity_never_returns (c : Nat) (level : Int)
    (quad : Quadrant) (n : Node) (hin : quad.inQuadrant n = true) (ns : List Node)
    (hlen : ns.length = c) (hco : ∀ m ∈ ns, m.X = n.X ∧ m.Y = n.Y) :
    InsertSeq (NewQuadTree level quad c) ns { NewQuadTree level quad c with Nodes := ns } ∧
    ∀ t, InsertSeq (NewQuadTree level quad c) ns t →
      t = { NewQuadTree level quad c with Nodes := ns } ∧
      ∀ fuel, t.insert fuel n = .outOfFuel ∧ t.split fuel n = .outOfFuel := by
  have hfill := insertSeq_leaf_fill ns (NewQuadTree level quad c) rfl
    (fun m hm => by
      have := inQuadrant_congr quad m n (hco m hm)
      simpa [NewQuadTree, this] using hin)
    (by simp [NewQuadTree, hlen])
  have hnil : ({ NewQuadTree level quad c with
      Nodes := (NewQuadTree level quad c).Nodes ++ ns } : QuadTree) =
      { NewQuadTree level quad c with Nodes := ns } := by
    simp [NewQuadTree]
  rw [hnil] at hfill
  refine ⟨(hfill _).2 rfl, fun t ht => ?_⟩
  have ht' := (hfill t).1 ht
  subst ht'
  refine ⟨rfl, ?_⟩
  have hdiv : ∀ fuel, ({ NewQuadTree level quad c with Nodes := ns } : QuadTree).insert fuel n =
      .outOfFuel := fun fuel =>
    insert_full_coincident_diverges fuel _ n rfl (by simp [NewQuadTree, hlen]) hin hco
  intro fuel
  refine ⟨hdiv fuel, ?_⟩
  have h := hdiv (fuel + 1)
  rw [QuadTree.insert] at h
  simpa [QuadTree.split, NewQuadTree, hin, hlen] using h

/-- Witness for C21: capacity 1 on `[0,4] x [0,4]`, the node `exA` stored and a second
node at the same point inserted. -/
theorem insert_coincident_beyond_capacity_never_returns_witness :
    exQuad.inQuadrant { X := 1, Y := 1, Id := 9 } = true ∧
    ([exA] : List Node).length = 1 ∧
    (∀ m ∈ [exA], m.X = (1 : ℚ) ∧ m.Y = (1 : ℚ)) ∧
    InsertSeq (NewQuadTree 1 exQuad 1) [exA] { NewQuadTree 1 exQuad 1 with Nodes := [exA] } ∧
    ∀ t, InsertSeq (NewQuadTree 1 exQuad 1) [exA] t →
      t = { NewQuadTree 1 exQuad 1 with Nodes := [exA] } ∧
      ∀ fuel, t.insert fuel { X := 1, Y := 1, Id := 9 } = .outOfFuel ∧
        t.split fuel { X := 1, Y := 1, Id := 9 } = .outOfFuel :=
  have h1 : exQuad.inQuadrant { X := 1, Y := 1, Id := 9 } = true := by
    norm_num [Quadrant.inQuadrant, exQuad]
  have h2 : ∀ m ∈ [exA], m.X = (1 : ℚ) ∧ m.Y = (1 : ℚ) := by
    intro m hm
    simp only [List.mem_singleton] at hm
    subst hm
    exact ⟨rfl, rfl⟩
  ⟨h1, rfl, h2,
    insert_coincident_beyond_capacity_never_returns 1 1 exQuad
      { X := 1, Y := 1, Id := 9 } h1 [exA] rfl h2⟩

/-! ## Containment and coordinate translation -/

/-- On rational coordinates `q.inQuadrant(n)` is true exactly when `q.XMin ≤ n.X ≤ q.XMax`
and `q.YMin ≤ n.Y ≤ q.YMax`, all four bounds inclusive; a node on the line of an edge is
inside exactly when it lies between the ends of that edge, and the four corners are
inside as soon as `q` is not empty. -/
theorem inQuadrant_rat_inclusive_bounds (q : Quadrant) (n : Node) :
    (q.inQuadrant n = true ↔
      q.XMin ≤ n.X ∧ n.X ≤ q.XMax ∧ q.YMin ≤ n.Y ∧ n.Y ≤ q.YMax) ∧
    (q.inQuadrant { n with X := q.XMin } = true ↔
      q.XMin ≤ q.XMax ∧ q.YMin ≤ n.Y ∧ n.Y ≤ q.YMax) ∧
    (q.inQuadrant { n with X := q.XMax } = true ↔
      q.XMin ≤ q.XMax ∧ q.YMin ≤ n.Y ∧ n.Y ≤ q.YMax) ∧
    (q.inQuadrant { n with Y := q.YMin } = true ↔
      q.XMin ≤ n.X ∧ n.X ≤ q.XMax ∧ q.YMin ≤ q.YMax) ∧
    (q.inQuadrant { n with Y := q.YMax } = true ↔
      q.XMin ≤ n.X ∧ n.X ≤ q.XMax ∧ q.YMin ≤ q.YMax) ∧
    ((q.inQuadrant { n with X := q.XMin, Y := q.YMin } = true ∧
        q.inQuadrant { n with X := q.XMin, Y := q.YMax } = true ∧
        q.inQuadrant { n with X := q.XMax, Y := q.YMin } = true ∧
        q.inQuadrant { n with X := q.XMax, Y := q.YMax } = true) ↔
      q.XMin ≤ q.XMax ∧ q.YMin ≤ q.YMax) := by
  refine ⟨inQuadrant_iff q n, ?_, ?_, ?_, ?_, ?_⟩ <;> simp only [inQuadrant_iff] <;>
    constructor <;> intro h <;> simp only [le_refl, true_and, and_true, and_self] at h ⊢ <;>
    tauto

/-- Claim C24.  Coordinate translation adds fixed offsets: `GpsToAbsolute(x, y)` is
`(x + 180, y + 90)`; `NewNode(long, lat, id)` has `X = long + 180`, `Y = lat + 90` and
`Id = id`; `NewQuadrant` with `convertFromGps = true` translates both corners in this
way and with `false` keeps them; the whole globe `(-180,-90)-(180,90)` becomes the
quadrant `[0,360] x [0,180]`. -/
theorem GpsToAbsolute_adds_offsets (x y long lat xMin yMin xMax yMax : ℚ) (id : Nat) :
    GpsToAbsolute x y = (x + 180, y + 90) ∧
    (NewNode long lat id).X = long + 180 ∧ (NewNode long lat id).Y = lat + 90 ∧
    (NewNode long lat id).Id = id ∧
    NewQuadrant xMin yMin xMax yMax true =
      { XMin := xMin + 180, YMin := yMin + 90, XMax := xMax + 180, YMax := yMax + 90 } ∧
    NewQuadrant xMin yMin xMax yMax false =
      { XMin := xMin, YMin := yMin, XMax := xMax, YMax := yMax } ∧
    NewQuadrant (-180) (-90) 180 90 true = { XMin := 0, YMin := 0, XMax := 360, YMax := 180 } ∧
    GpsToAbsolute (-150.0) 23.9 = (30, 113.9) := by
  refine ⟨rfl, rfl, rfl, rfl, rfl, rfl, ?_, ?_⟩
  · norm_num [NewQuadrant, GpsToAbsolute]
  · norm_num [GpsToAbsolute]

end geostore

/-! ## A stored node that the lookup misses -/

namespace geostore

theorem insertSeq_append {q t u : QuadTree} {ns ms : List Node} (h : InsertSeq q ns t) :
    InsertSeq t ms u → InsertSeq q (ns ++ ms) u := by
  induction h with
  | nil q => exact id
  | cons q q' t n ns fuel b hins _ ih =>
    intro hu
    exact InsertSeq.cons _ _ _ _ _ fuel b hins (ih hu)

theorem reachable_of_insertSeq {level : Int} {quad : Quadrant} {c : Int} {q t : QuadTree}
    {ns : List Node} (h : InsertSeq q ns t) :
    Reachable level quad c q → Reachable level quad c t := by
  induction h with
  | nil q => exact id
  | cons q q' t n ns fuel b hins _ ih =>
    intro hq
    exact ih (Reachable.step _ _ fuel n b hq hins)

theorem insertSeq_exMeridianTree :
    InsertSeq (NewQuadTree 1 (NewQuadrant (-180) (-90) 180 90 true) 4) exMeridianNodes
      exMeridianTree := by
  have h4 := (insertSeq_leaf_fill
    [exMeridian, NewNode 90 45 2, NewNode (-90) 45 3, NewNode (-90) (-45) 4]
    (NewQuadTree 1 (NewQuadrant (-180) (-90) 180 90 true) 4) rfl
    (by
      intro m hm
      simp only [List.mem_cons, List.mem_singleton, List.not_mem_nil, or_false] at hm
      rcases hm with rfl | rfl | rfl | rfl <;>
        norm_num [Quadrant.inQuadrant, NewQuadTree, NewQuadrant, NewNode, GpsToAbsolute,
          exMeridian])
    (by simp [NewQuadTree]) _).2 rfl
  have h5 : ({ NewQuadTree 1 (NewQuadrant (-180) (-90) 180 90 true) 4 with
      Nodes := (NewQuadTree 1 (NewQuadrant (-180) (-90) 180 90 true) 4).Nodes ++
        [exMeridian, NewNode 90 45 2, NewNode (-90) 45 3, NewNode (-90) (-45) 4] } :
        QuadTree).insert 2 (NewNode 90 (-45) 5) = .ret (exMeridianTree, true) := by
    norm_num [QuadTree.insert, QuadTree.splitWith, QuadTree.redistribute, QuadTree.insertFirst,
      QuadTree.qts, QuadTree.child, QuadTree.setChild, Quadrant.inQuadrant, NewQuadTree,
      NewQuadrant, NewNode, GpsToAbsolute, exMeridian, exMeridianTree, exMeridianSW, globeRoot,
      Outcome.bind]
  exact insertSeq_append h4 (InsertSeq.cons _ _ _ _ _ 2 true h5 (InsertSeq.nil _))

/-- Claim C30 fails on the tree `exMeridianTree`, which five returning inserts build
from the fresh globe root of capacity 4.  The node `exMeridian` (longitude 0, latitude
-45) lies on the vertical midline: `split`, which offers a node to the children in the
order NW, NE, SE, SW, has put it into the south-east leaf, while `findQuadTree`, which
visits them in the order NW, NE, SW, SE, returns the south-west leaf for the same
coordinates.  So `findQuadTree(n, root)` returns a leaf that does not hold the stored
node `n`, and `FindNearest` at the position of `n` returns `[4]`, without `n.Id = 1`. -/
theorem findQuadTree_misses_node_on_midline :
    Reachable 1 (NewQuadrant (-180) (-90) 180 90 true) 4 exMeridianTree ∧
    exMeridian ∈ exMeridianTree.leafNodes ∧
    (∃ se, exMeridianTree.SE = some se ∧ exMeridian ∈ se.Nodes) ∧
    (∀ fuel, findQuadTree (fuel + 2) exMeridian exMeridianTree = .ret (some exMeridianSW)) ∧
    exMeridian ∉ exMeridianSW.Nodes ∧
    (∀ fuel, (NewGeoStoreInMem exMeridianTree).FindNearest (fuel + 2) (-45) 0 0 0 = .ret [4]) ∧
    exMeridian.Id ∉ [4] ∧
    ((InMemGeoStore.insertAll 2 exMeridianNodes (getTestGeoStore 4)).bind fun g =>
      g.FindNearest 2 (-45) 0 0 0) = .ret [4] := by
  have hfind : ∀ fuel,
      findQuadTree (fuel + 2) exMeridian exMeridianTree = .ret (some exMeridianSW) := by
    intro fuel
    norm_num [findQuadTree, findLoop, firstContaining, QuadTree.QuadTrees, QuadTree.child,
      Quadrant.inQuadrant, NewQuadTree, NewQuadrant, NewNode, GpsToAbsolute, exMeridian,
      exMeridianTree, exMeridianSW, globeRoot, Outcome.bind, queueCap]
  refine ⟨reachable_of_insertSeq insertSeq_exMeridianTree Reachable.fresh, ?_, ?_, hfind, ?_,
    ?_, ?_, ?_⟩
  · norm_num [leafNodes_eq, leafNodesOpt, exMeridianTree, exMeridianSW, exMeridian, NewQuadTree,
      NewNode, GpsToAbsolute, globeRoot]
  · refine ⟨_, rfl, ?_⟩
    norm_num [exMeridian, NewQuadTree, NewNode, GpsToAbsolute]
  · norm_num [exMeridianSW, exMeridian, NewQuadTree, NewNode, GpsToAbsolute]
  · intro fuel
    have h := hfind fuel
    have hn : NewNode 0 (-45) 1 = exMeridian := rfl
    simp only [InMemGeoStore.FindNearest, NewGeoStoreInMem, hn, h, Outcome.bind]
    simp [exMeridianSW, NewQuadTree]
  · simp [exMeridian, NewNode]
  · decide!

end geostore

/-! ## The operations that do nothing -/

namespace model

/-- Claim C26.  `Delete`, `DeleteAll` and `GetAll` are no-ops: on every store and for
every id, `Delete(id)` and `DeleteAll()` return a nil error and the store they were
given, so that `GetById` of every id returns afterwards what it returned before, and
`GetAll()` returns no record and a nil error whatever the store holds (on `exStore2`,
which holds two records, for instance). -/
theorem Delete_DeleteAll_GetAll_do_nothing (s : InMemCacheStore) (id j : Nat) :
    s.Delete id = (s, none) ∧ s.DeleteAll = (s, none) ∧ s.GetAll = ([], none) ∧
    (s.Delete id).1.GetById j = s.GetById j ∧ s.DeleteAll.1.GetById j = s.GetById j ∧
    (exStore2.Delete 1).1.GetById 1 = (Cache.mk 1 "s1" 0 0 (some 0), none) ∧
    exStore2.DeleteAll.1.GetById 2 = (Cache.mk 2 "s2" 1 1 (some 1), none) ∧
    exStore2.GetAll = ([], none) := by
  refine ⟨rfl, rfl, rfl, rfl, rfl, ?_, ?_, rfl⟩ <;> decide

end model

/-! ## The response of the controller -/

namespace controller

theorem sort_Strings_sorted (x : List String) : (sort.Strings x).Sorted (· ≤ ·) :=
  List.sorted_insertionSort (· ≤ ·) x

theorem sort_Strings_perm (x : List String) : (sort.Strings x).Perm x :=
  List.perm_insertionSort (· ≤ ·) x

theorem sort_Strings_congr {x y : List String} (h : x.Perm y) :
    sort.Strings x = sort.Strings y :=
  List.eq_of_perm_of_sorted (((sort_Strings_perm x).trans h).trans (sort_Strings_perm y).symm)
    (sort_Strings_sorted x) (sort_Strings_sorted y)

/-- Claim C25.  For every record whose tag map is a Go map (pairwise distinct keys),
`cacheModelToResponseCache` returns a response with the `Id`, `Name`, `Lat` and `Long` of
the record, and with tags: nil when the tag map has no key; otherwise the list of the
keys in strictly increasing string order, each key of the map exactly once and nothing
else.  The list does not depend on the order in which `range` visits the keys. -/
theorem cacheModelToResponseCache_sorted_tags (s : model.InMemCacheStore) (cache : model.Cache)
    (hmap : (s.tagsOf cache).keys.Nodup) :
    (cacheModelToResponseCache s cache).Id = cache.Id ∧
    (cacheModelToResponseCache s cache).RequestPostCache.Name = cache.Name ∧
    (cacheModelToResponseCache s cache).RequestPostCache.Lat = cache.Lat ∧
    (cacheModelToResponseCache s cache).RequestPostCache.Long = cache.Long ∧
    ((s.tagsOf cache).keys = [] →
      (cacheModelToResponseCache s cache).RequestPostCache.Tags = none) ∧
    ((s.tagsOf cache).keys ≠ [] →
      ∃ tags, (cacheModelToResponseCache s cache).RequestPostCache.Tags = some tags ∧
        tags.Sorted (· < ·) ∧
        ∀ t, tags.count t = if ((s.tagsOf cache).get t).isSome then 1 else 0) ∧
    ∀ (s' : model.InMemCacheStore) (cache' : model.Cache),
      (s'.tagsOf cache').keys.Perm (s.tagsOf cache).keys →
      (cacheModelToResponseCache s' cache').RequestPostCache.Tags =
        (cacheModelToResponseCache s cache).RequestPostCache.Tags := by
  refine ⟨rfl, rfl, rfl, rfl, ?_, ?_, ?_⟩
  · intro h
    simp [cacheModelToResponseCache, h]
  · intro h
    have hpos : (s.tagsOf cache).keys.length > 0 := List.length_pos.2 h
    refine ⟨sort.Strings (s.tagsOf cache).keys, ?_, ?_, ?_⟩
    · simp only [cacheModelToResponseCache, if_pos hpos]
    · exact (sort_Strings_sorted _).lt_of_le ((sort_Strings_perm _).nodup_iff.2 hmap)
    · intro t
      rw [(sort_Strings_perm _).count_eq, List.count_eq_of_nodup hmap]
      by_cases ht : t ∈ (s.tagsOf cache).keys
      · have : (s.tagsOf cache).get t ≠ none := fun h0 =>
          (GoMap.get_eq_none_iff _ _).1 h0 ht
        simp [ht, Option.isSome_iff_ne_none, this]
      · have : (s.tagsOf cache).get t = none := (GoMap.get_eq_none_iff _ _).2 ht
        simp [ht, this]
  · intro s' cache' hperm
    simp only [cacheModelToResponseCache, hperm.length_eq, sort_Strings_congr hperm]

/-- Witness for C25: the record with id 1 of `exStore1`, tagged "ocean" and
"atlantic". -/
theorem cacheModelToResponseCache_sorted_tags_witness :
    (model.exStore1.tagsOf (model.Cache.mk 1 "s1" 0 0 (some 0))).keys.Nodup ∧
    (cacheModelToResponseCache model.exStore1 (model.Cache.mk 1 "s1" 0 0 (some 0))).Id = 1 ∧
    (cacheModelToResponseCache model.exStore1
      (model.Cache.mk 1 "s1" 0 0 (some 0))).RequestPostCache.Tags = some ["atlantic", "ocean"] :=
  ⟨by decide,
    (cacheModelToResponseCache_sorted_tags model.exStore1 (model.Cache.mk 1 "s1" 0 0 (some 0))
      (by decide)).1,
    by decide!⟩

end controller

/-! ## Reads, and what a caller can do with their result -/

namespace model

theorem call_read_frame {fuel : Nat} {s s' : InMemCacheStore} {c : Call} {r : Reply}
    (hread : c.isRead = true) (h : s.call fuel c = .ret (s', r)) : s' = s := by
  cases c <;> simp only [Call.isRead, Bool.false_eq_true] at hread <;>
    simp only [InMemCacheStore.call] at h
  · obtain ⟨a, _, ha⟩ := Outcome.bind_eq_ret h
    cases ha
    rfl
  all_goals
    cases h
    rfl

theorem run_reads_frame {fuel : Nat} :
    ∀ (calls : List Call) (s s' : InMemCacheStore) (replies : List Reply),
      (∀ c ∈ calls, c.isRead = true) → s.run fuel calls = .ret (s', replies) → s' = s := by
  intro calls
  induction calls with
  | nil =>
    intro s s' replies _ h
    simp only [InMemCacheStore.run] at h
    cases h
    rfl
  | cons c rest ih =>
    intro s s' replies hread h
    rw [InMemCacheStore.run] at h
    obtain ⟨r, hr, h1⟩ := Outcome.bind_eq_ret h
    obtain ⟨r', hr', h2⟩ := Outcome.bind_eq_ret h1
    have hs : r.1 = s := call_read_frame (hread c (List.mem_cons_self _ _)) hr
    have hs' : r'.1 = r.1 :=
      ih r.1 r'.1 r'.2 (fun c' hc' => hread c' (List.mem_cons_of_mem _ hc')) hr'
    cases h2
    rw [hs', hs]

theorem run_GetByName_replicate (fuel : Nat) (s : InMemCacheStore) (name : String) :
    ∀ k : Nat, s.run fuel (List.replicate k (Call.GetByName name)) =
      .ret (s, List.replicate k (Reply.record (s.GetByName name).1 (s.GetByName name).2)) := by
  intro k
  induction k with
  | zero => rfl
  | succ k ih =>
    rw [List.replicate_succ, InMemCacheStore.run]
    simp only [InMemCacheStore.call, Outcome.bind_ret, ih, List.replicate_succ]

/-- Claim C27.  Reads do not change the store: when a sequence of calls of `GetById`,
`GetByName`, `GetByTags` and `FindNearest` has returned, the store (id map, name index,
tag index, counter, spatial index and the objects they point to) is the store before
the calls, so `GetByName(name)` returns afterwards what it returned before; and `k`
calls of `GetByName(name)` in a row all return, each the same result. -/
theorem reads_leave_store_unchanged (fuel : Nat) (s s' : InMemCacheStore) (calls : List Call)
    (replies : List Reply) (hread : ∀ c ∈ calls, c.isRead = true)
    (hrun : s.run fuel calls = .ret (s', replies)) :
    s' = s ∧
    (s'.caches = s.caches ∧ s'.cachesByName = s.cachesByName ∧
      s'.cachesByTag = s.cachesByTag ∧ s'.sCounter = s.sCounter ∧ s'.geostore = s.geostore) ∧
    (∀ name, s'.GetByName name = s.GetByName name) ∧
    ∀ (k : Nat) (name : String), s.run fuel (List.replicate k (Call.GetByName name)) =
      .ret (s, List.replicate k (Reply.record (s.GetByName name).1 (s.GetByName name).2)) := by
  have h := run_reads_frame calls s s' replies hread hrun
  subst h
  exact ⟨rfl, ⟨rfl, rfl, rfl, rfl, rfl⟩, fun _ => rfl, fun k name =>
    run_GetByName_replicate fuel _ name k⟩

theorem run_exReads : exStore2.run 3 exReads = .ret (exStore2, exReplies) := by
  norm_num [InMemCacheStore.run, InMemCacheStore.call, InMemCacheStore.GetById,
    InMemCacheStore.GetByName, InMemCacheStore.GetByTags, InMemCacheStore.FindNearest,
    InMemCacheStore.resolve, InMemCacheStore.deref, copyCache, GoMap.get, GoMap.keys,
    geostore.InMemGeoStore.FindNearest, geostore.findQuadTree, geostore.findLoop,
    geostore.globeRoot, geostore.NewQuadTree, geostore.NewQuadrant, geostore.NewNode,
    geostore.GpsToAbsolute, geostore.Quadrant.inQuadrant, Outcome.bind, exStore2, exReads,
    exReplies]
  decide

/-- Witness for C27: one read of each kind on `exStore2`. -/
theorem reads_leave_store_unchanged_witness :
    (∀ c ∈ exReads, c.isRead = true) ∧ exStore2.run 3 exReads = .ret (exStore2, exReplies) ∧
    exStore2 = exStore2 ∧
    (exStore2.caches = exStore2.caches ∧ exStore2.cachesByName = exStore2.cachesByName ∧
      exStore2.cachesByTag = exStore2.cachesByTag ∧ exStore2.sCounter = exStore2.sCounter ∧
      exStore2.geostore = exStore2.geostore) ∧
    (∀ name, exStore2.GetByName name = exStore2.GetByName name) ∧
    ∀ (k : Nat) (name : String), exStore2.run 3 (List.replicate k (Call.GetByName name)) =
      .ret (exStore2, List.replicate k
        (Reply.record (exStore2.GetByName name).1 (exStore2.GetByName name).2)) :=
  ⟨by decide, run_exReads,
    reads_leave_store_unchanged 3 exStore2 exStore2 exReads exReplies (by decide) run_exReads⟩

/-- Claim C28 fails: the record `GetById` and `GetByName` return is a copy of the
fields, and the field `Tags` is a reference to the map the store's record refers to.
On `exStore1`, whose record 1 is tagged "ocean" and "atlantic": after the caller
executes `r.Tags["x"] = true` on the record `r` handed back by `GetById(1)`, a later
`GetById(1)` and `GetByName("s1")` return a record whose tags hold "x" as well, and the
controller answers with the tags atlantic, ocean, x; after `delete(r.Tags, "ocean")` a
later read returns a record tagged "atlantic" only, which `GetByTags(["ocean"])` still
lists. -/
theorem returned_record_shares_tag_map :
    exStore1.GetById 1 = (Cache.mk 1 "s1" 0 0 (some 0), none) ∧
    exStore1.GetByName "s1" = (Cache.mk 1 "s1" 0 0 (some 0), none) ∧
    (exStore1.tagsOf (exStore1.GetById 1).1).keys = ["ocean", "atlantic"] ∧
    exStore1.callerSetTag (exStore1.GetById 1).1 "x" true = .ret exStore1Tagged ∧
    (exStore1Tagged.tagsOf (exStore1Tagged.GetById 1).1).keys = ["ocean", "atlantic", "x"] ∧
    (exStore1Tagged.tagsOf (exStore1Tagged.GetByName "s1").1).keys
      = ["ocean", "atlantic", "x"] ∧
    (controller.cacheModelToResponseCache exStore1
      (exStore1.GetById 1).1).RequestPostCache.Tags = some ["atlantic", "ocean"] ∧
    (controller.cacheModelToResponseCache exStore1Tagged
      (exStore1Tagged.GetById 1).1).RequestPostCache.Tags = some ["atlantic", "ocean", "x"] ∧
    exStore1.callerDeleteTag (exStore1.GetByName "s1").1 "ocean" = exStore1Untagged ∧
    (exStore1Untagged.tagsOf (exStore1Untagged.GetById 1).1).keys = ["atlantic"] ∧
    (exStore1Untagged.GetByTags ["ocean"]).1 = [(exStore1Untagged.GetById 1).1] := by
  refine ⟨by decide, by decide, by decide, ?_, by decide, by decide, by decide!, by decide!, ?_,
    by decide, by decide⟩
  · simp [InMemCacheStore.callerSetTag, InMemCacheStore.GetById, GoMap.get, GoMap.set,
      InMemCacheStore.deref, copyCache, exStore1, exStore1Tagged]
  · simp [InMemCacheStore.callerDeleteTag, InMemCacheStore.GetByName, GoMap.get, GoMap.delete,
      InMemCacheStore.deref, copyCache, exStore1, exStore1Untagged]

end model

/-! ## Termination of `insert` -/

namespace geostore

theorem exists_common_fuel (P : Slot → Nat → Prop)
    (hmono : ∀ s f f', f ≤ f' → P s f → P s f') (h : ∀ s, ∃ f, P s f) :
    ∃ f, ∀ s, P s f := by
  obtain ⟨a, ha⟩ := h .NW
  obtain ⟨b, hb⟩ := h .NE
  obtain ⟨c, hc⟩ := h .SW
  obtain ⟨d, hd⟩ := h .SE
  refine ⟨max (max a b) (max c d), fun s => ?_⟩
  cases s
  · exact hmono _ _ _ (by omega) ha
  · exact hmono _ _ _ (by omega) hb
  · exact hmono _ _ _ (by omega) hc
  · exact hmono _ _ _ (by omega) hd

theorem insertFirst_terminates {c : Int} (m : Node) (fuel : Nat) :
    ∀ (ss : List Slot) (Q : QuadTree),
      (∀ s ∈ ss, ∃ k, Q.child s = some k ∧ Valid c k ∧ ∃ r, k.insert fuel m = .ret r) →
      ∃ r, QuadTree.insertFirst (QuadTree.insert fuel) m ss Q = .ret r := by
  intro ss
  induction ss with
  | nil => intro Q _; exact ⟨_, rfl⟩
  | cons s rest ih =>
    intro Q h
    obtain ⟨k, hk, hv, r, hr⟩ := h s (List.mem_cons_self _ _)
    rw [QuadTree.insertFirst, hk]
    simp only [hr, Outcome.bind_ret]
    by_cases hb : r.2 = true
    · exact ⟨_, by rw [if_pos hb]⟩
    · rw [if_neg hb]
      have hk' : r.1 = k :=
        (insert_spec c fuel k m r hv hr).2.1 (by simpa using hb)
      rw [hk', setChild_self Q s k hk]
      exact ih Q fun s' hs' => h s' (List.mem_cons_of_mem _ hs')

theorem leafNodes_NewQuadTree (level : Int) (quad : Quadrant) (c : Int) :
    (NewQuadTree level quad c).leafNodes = [] := by
  rw [leafNodes_eq]
  rfl

theorem kid_leafNodes_sublist (q k : QuadTree) (s : Slot) (hsub : q.isSubdivided = true)
    (hk : q.child s = some k) : k.leafNodes.Sublist q.leafNodes := by
  rw [leafNodes_eq q, if_pos hsub]
  cases s <;> simp only [QuadTree.child] at hk <;> rw [hk] <;> simp only [leafNodesOpt]
  · exact (List.sublist_append_left _ _).trans
      ((List.sublist_append_left _ _).trans (List.sublist_append_left _ _))
  · exact (List.sublist_append_right _ _).trans
      ((List.sublist_append_left _ _).trans (List.sublist_append_left _ _))
  · exact (List.sublist_append_right _ _).trans (List.sublist_append_left _ _)
  · exact List.sublist_append_right _ _

theorem kids_terminate {c : Int} {S : List Node} {B : Quadrant → Prop}
    (hkid : ∀ (k : QuadTree) (m : Node), Valid c k → B k.Quadrant →
      (m :: k.leafNodes).Subperm S → ∃ fuel r, k.insert fuel m = .ret r)
    (Q : QuadTree) (hQ : KidsValid c Q) (hB : ∀ s, B (Q.Quadrant.sub s)) (m : Node)
    (hS : (m :: Q.leafNodes).Subperm S) (ss : List Slot) :
    ∃ fuel r, QuadTree.insertFirst (QuadTree.insert fuel) m ss Q = .ret r := by
  obtain ⟨hsub, kid, hkids⟩ := hQ
  have hall : ∀ s, ∃ f, ∃ r, (kid s).insert f m = .ret r := by
    intro s
    obtain ⟨hk, hquad, _, hv⟩ := hkids s
    refine hkid (kid s) m hv (hquad ▸ hB s) ?_
    exact ((kid_leafNodes_sublist Q (kid s) s hsub hk).cons₂ m).subperm.trans hS
  obtain ⟨fuel, hfuel⟩ := exists_common_fuel (fun s f => ∃ r, (kid s).insert f m = .ret r)
    (fun s f f' hle h => by
      obtain ⟨r, hr⟩ := h
      exact ⟨r, insert_mono hle _ _ r hr⟩) hall
  refine ⟨fuel, insertFirst_terminates (c := c) m fuel ss Q fun s _ => ?_⟩
  exact ⟨kid s, (hkids s).1, (hkids s).2.2.2, hfuel s⟩

theorem redistribute_terminates {c : Int} {S : List Node} {B : Quadrant → Prop}
    (hkid : ∀ (k : QuadTree) (m : Node), Valid c k → B k.Quadrant →
      (m :: k.leafNodes).Subperm S → ∃ fuel r, k.insert fuel m = .ret r) :
    ∀ (ms : List Node) (Q : QuadTree), KidsValid c Q → (∀ s, B (Q.Quadrant.sub s)) →
      (∀ m ∈ ms, Q.Quadrant.inQuadrant m = true) → (ms ++ Q.leafNodes).Subperm S →
      ∃ fuel Q', QuadTree.redistribute (QuadTree.insert fuel) ms Q = .ret Q' := by
  intro ms
  induction ms with
  | nil => intro Q _ _ _ _; exact ⟨0, Q, rfl⟩
  | cons m rest ih =>
    intro Q hQ hB hin hS
    have hS1 : (m :: Q.leafNodes).Subperm S := by
      refine List.Subperm.trans ?_ hS
      have : (m :: Q.leafNodes).Sublist (m :: (rest ++ Q.leafNodes)) :=
        (List.sublist_append_right rest Q.leafNodes).cons₂ m
      simpa using this.subperm
    obtain ⟨f1, r, hr⟩ := kids_terminate hkid Q hQ hB m hS1 QuadTree.qts
    obtain ⟨hQ1, hperm, hquad, _⟩ := insertFirst_kids
      (fun k r' hv h => insert_spec c f1 k m r' hv h) QuadTree.qts mem_qts Q r hQ
      (hin m (List.mem_cons_self _ _)) hr
    have hS2 : (rest ++ r.1.leafNodes).Subperm S := by
      refine List.Subperm.trans (List.Perm.subperm ?_) hS
      exact (List.Perm.append_left rest hperm).trans List.perm_middle
    obtain ⟨f2, Q', hQ'⟩ := ih r.1 hQ1 (fun s => hquad ▸ hB s)
      (fun x hx => hquad ▸ hin x (List.mem_cons_of_mem _ hx)) hS2
    have hmono1 : ∀ (q : QuadTree) (n : Node) (x : QuadTree × Bool),
        q.insert f1 n = .ret x → q.insert (max f1 f2) n = .ret x :=
      fun q n x h => insert_mono (le_max_left _ _) q n x h
    have hmono2 : ∀ (q : QuadTree) (n : Node) (x : QuadTree × Bool),
        q.insert f2 n = .ret x → q.insert (max f1 f2) n = .ret x :=
      fun q n x h => insert_mono (le_max_right _ _) q n x h
    refine ⟨max f1 f2, Q', ?_⟩
    rw [QuadTree.redistribute, insertFirst_mono hmono1 m QuadTree.qts Q r hr, Outcome.bind_ret]
    exact redistribute_mono hmono2 rest r.1 Q' hQ'

theorem sub_width (q : Quadrant) (s : Slot) :
    (q.sub s).XMax - (q.sub s).XMin = (q.XMax - q.XMin) / 2 ∧
    (q.sub s).YMax - (q.sub s).YMin = (q.YMax - q.YMin) / 2 := by
  cases s <;> simp only [Quadrant.sub, NewQuadrant_false, Quadrant.xOffset, Quadrant.yOffset] <;>
    constructor <;> ring

theorem internal_terminates {c : Int} (q : QuadTree) (kid : Slot → QuadTree)
    (hsub : q.isSubdivided = true) (hkid : ∀ s, q.child s = some (kid s))
    (hvalid : ∀ s, Valid c (kid s)) (n : Node)
    (h : ∀ s, ∃ fuel r, (kid s).insert fuel n = .ret r) :
    ∃ fuel r, q.insert fuel n = .ret r := by
  obtain ⟨fuel, hfuel⟩ := exists_common_fuel (fun s f => ∃ r, (kid s).insert f n = .ret r)
    (fun s f f' hle h => by
      obtain ⟨r, hr⟩ := h
      exact ⟨r, insert_mono hle _ _ r hr⟩) h
  obtain ⟨r, hr⟩ := insertFirst_terminates (c := c) n fuel q.QuadTrees q
    fun s _ => ⟨kid s, hkid s, hvalid s, hfuel s⟩
  by_cases hin : q.Quadrant.inQuadrant n = true
  · refine ⟨fuel + 1, (r.1, true), ?_⟩
    rw [QuadTree.insert]
    simp [hin, hsub, hr]
  · exact ⟨1, (q, false), insert_outside 0 q n (by simpa using hin)⟩

/-- The core of the termination argument.  `S` lists all nodes in play, `ε` separates
the distinct coordinates occurring in `S`; a tree whose quadrant has width and height at
most `ε * 2 ^ d` accepts a node of `S` after at most `d` further levels of splitting. -/
theorem insert_terminates_bounded {c : Int} {S : List Node} {ε : ℚ}
    (hsep : ∀ a ∈ S, ∀ b ∈ S, (|a.X - b.X| ≤ ε → a.X = b.X) ∧ (|a.Y - b.Y| ≤ ε → a.Y = b.Y))
    (hmult : ∀ m ∈ S, (coincident S m : Int) ≤ c) (hε : 0 < ε) :
    ∀ (d : Nat) (t : QuadTree), Valid c t →
      t.Quadrant.XMax - t.Quadrant.XMin ≤ ε * 2 ^ d →
      t.Quadrant.YMax - t.Quadrant.YMin ≤ ε * 2 ^ d →
      ∀ n, (n :: t.leafNodes).Subperm S → ∃ fuel r, t.insert fuel n = .ret r := by
  have hnode : ∀ (d : Nat) (q : QuadTree) (kid : Slot → QuadTree),
      q.isSubdivided = true → (∀ s, q.child s = some (kid s)) →
      (∀ s, (kid s).Quadrant = q.Quadrant.sub s) → (∀ s, Valid c (kid s)) →
      (∀ s, (kid s).Quadrant.XMax - (kid s).Quadrant.XMin ≤ ε * 2 ^ d →
        (kid s).Quadrant.YMax - (kid s).Quadrant.YMin ≤ ε * 2 ^ d →
        ∀ n, (n :: (kid s).leafNodes).Subperm S → ∃ fuel r, (kid s).insert fuel n = .ret r) →
      q.Quadrant.XMax - q.Quadrant.XMin ≤ ε * 2 ^ d →
      q.Quadrant.YMax - q.Quadrant.YMin ≤ ε * 2 ^ d →
      ∀ n, (n :: q.leafNodes).Subperm S → ∃ fuel r, q.insert fuel n = .ret r := by
    intro d q kid hsub hkid hquad hvalid ih hw hh n hS
    have hpos : (0 : ℚ) ≤ ε * 2 ^ d := by positivity
    refine internal_terminates q kid hsub hkid hvalid n fun s => ?_
    have hwid := sub_width q.Quadrant s
    refine ih s ?_ ?_ n
      (((kid_leafNodes_sublist q (kid s) s hsub (hkid s)).cons₂ n).subperm.trans hS)
    · rw [hquad s, hwid.1]; linarith
    · rw [hquad s, hwid.2]; linarith
  intro d
  induction d with
  | zero =>
    intro t hv
    induction hv with
    | leaf q hsub hkid hcap hin hlen =>
      intro hw hh n hS
      by_cases hn : q.Quadrant.inQuadrant n = true
      · have hleaf : q.leafNodes = q.Nodes := by rw [leafNodes_eq, hsub]; simp
        rw [hleaf] at hS
        have hnS : n ∈ S := hS.subset (List.mem_cons_self _ _)
        have hall : ∀ x ∈ n :: q.Nodes, decide (x.X = n.X ∧ x.Y = n.Y) = true := by
          intro x hx
          have hxS : x ∈ S := hS.subset hx
          have hxq : q.Quadrant.inQuadrant x = true := by
            rcases List.mem_cons.1 hx with rfl | hx'
            · exact hn
            · exact hin x hx'
          rw [inQuadrant_iff] at hxq hn
          simp only [pow_zero, mul_one] at hw hh
          have hX := (hsep x hxS n hnS).1 (by rw [abs_le]; constructor <;> linarith)
          have hY := (hsep x hxS n hnS).2 (by rw [abs_le]; constructor <;> linarith)
          simp [hX, hY]
        have hcount : (n :: q.Nodes).countP (fun x => decide (x.X = n.X ∧ x.Y = n.Y)) =
            (n :: q.Nodes).length := List.countP_eq_length.2 hall
        have hle := hS.countP_le (fun x => decide (x.X = n.X ∧ x.Y = n.Y))
        rw [hcount] at hle
        have hc := hmult n hnS
        unfold coincident at hc
        have hlt : (q.Nodes.length : Int) < q.MaxCapacity := by
          rw [hcap]
          simp only [List.length_cons] at hle
          omega
        exact ⟨1, _, leaf_insert_append 0 q n hsub hn hlt⟩
      · exact ⟨1, (q, false), insert_outside 0 q n (by simpa using hn)⟩
    | node q kid hsub hkid hquad hlvl hcap hnodes hvalid ih =>
      exact hnode 0 q kid hsub hkid hquad hvalid ih
  | succ d ihd =>
    intro t hv
    induction hv with
    | leaf q hsub hkid hcap hin hlen =>
      intro hw hh n hS
      by_cases hn : q.Quadrant.inQuadrant n = true
      · by_cases hlt : (q.Nodes.length : Int) < q.MaxCapacity
        · exact ⟨1, _, leaf_insert_append 0 q n hsub hn hlt⟩
        · have hleaf : q.leafNodes = q.Nodes := by rw [leafNodes_eq, hsub]; simp
          rw [hleaf] at hS
          have hkv : KidsValid c
              { q with
                NW := some (NewQuadTree (q.Level + 1) (q.Quadrant.sub .NW) q.MaxCapacity)
                NE := some (NewQuadTree (q.Level + 1) (q.Quadrant.sub .NE) q.MaxCapacity)
                SW := some (NewQuadTree (q.Level + 1) (q.Quadrant.sub .SW) q.MaxCapacity)
                SE := some (NewQuadTree (q.Level + 1) (q.Quadrant.sub .SE) q.MaxCapacity)
                isSubdivided := true } := by
            refine ⟨rfl, fun s => NewQuadTree (q.Level + 1) (q.Quadrant.sub s) q.MaxCapacity,
              fun s => ⟨?_, rfl, rfl, ?_⟩⟩
            · cases s <;> rfl
            · rw [hcap]; exact valid_NewQuadTree _ _ _
          obtain ⟨fuel, Q', hQ'⟩ := redistribute_terminates
            (B := fun quad => quad.XMax - quad.XMin ≤ ε * 2 ^ d ∧
              quad.YMax - quad.YMin ≤ ε * 2 ^ d)
            (fun k m hk hB hkS => ihd k hk hB.1 hB.2 m hkS)
            (q.Nodes ++ [n]) _ hkv
            (fun s => by
              have hwid := sub_width q.Quadrant s
              simp only
              rw [hwid.1, hwid.2]
              rw [pow_succ] at hw hh
              constructor <;> linarith)
            (fun m hm => by
              rcases List.mem_append.1 hm with h1 | h1
              · exact hin m h1
              · rw [List.mem_singleton.1 h1]; exact hn)
            (by
              refine List.Subperm.trans (List.Perm.subperm ?_) hS
              rw [leafNodes_eq]
              simp only [if_true, leafNodesOpt, leafNodes_NewQuadTree, List.append_nil]
              exact List.perm_append_singleton n q.Nodes)
          refine ⟨fuel + 1, ({ Q' with Nodes := [] }, true), ?_⟩
          rw [QuadTree.insert]
          simp only [hn, Bool.not_true, Bool.false_eq_true, if_false, hsub, hlt]
          rw [splitWith_eq, hQ', Outcome.bind_ret]
      · exact ⟨1, (q, false), insert_outside 0 q n (by simpa using hn)⟩
    | node q kid hsub hkid hquad hlvl hcap hnodes hvalid ih =>
      exact hnode (d + 1) q kid hsub hkid hquad hvalid ih

end geostore

namespace geostore

theorem exists_small_pos (l : List ℚ) : ∃ ε : ℚ, 0 < ε ∧ ∀ x ∈ l, |x| ≤ ε → x = 0 := by
  induction l with
  | nil => exact ⟨1, one_pos, by simp⟩
  | cons a l ih =>
    obtain ⟨ε, hε, h⟩ := ih
    by_cases ha : a = 0
    · refine ⟨ε, hε, fun x hx hle => ?_⟩
      rcases List.mem_cons.1 hx with rfl | hx'
      · exact ha
      · exact h x hx' hle
    · have hpos : 0 < |a| := abs_pos.2 ha
      refine ⟨min ε (|a| / 2), lt_min hε (by positivity), fun x hx hle => ?_⟩
      rcases List.mem_cons.1 hx with rfl | hx'
      · exfalso
        have := le_trans hle (min_le_right _ _)
        linarith
      · exact h x hx' (le_trans hle (min_le_left _ _))

theorem exists_separation (S : List Node) :
    ∃ ε : ℚ, 0 < ε ∧ ∀ a ∈ S, ∀ b ∈ S,
      (|a.X - b.X| ≤ ε → a.X = b.X) ∧ (|a.Y - b.Y| ≤ ε → a.Y = b.Y) := by
  obtain ⟨ε, hε, h⟩ :=
    exists_small_pos (S.flatMap fun a => S.flatMap fun b => [a.X - b.X, a.Y - b.Y])
  refine ⟨ε, hε, fun a ha b hb => ⟨fun hle => ?_, fun hle => ?_⟩⟩
  · have := h (a.X - b.X)
      (by simp only [List.mem_flatMap]; exact ⟨a, ha, b, hb, by simp⟩) hle
    linarith
  · have := h (a.Y - b.Y)
      (by simp only [List.mem_flatMap]; exact ⟨a, ha, b, hb, by simp⟩) hle
    linarith

theorem exists_depth (w h ε : ℚ) (hε : 0 < ε) : ∃ d : Nat, w ≤ ε * 2 ^ d ∧ h ≤ ε * 2 ^ d := by
  obtain ⟨d, hd⟩ := pow_unbounded_of_one_lt (max (w / ε) (h / ε)) (by norm_num : (1 : ℚ) < 2)
  refine ⟨d, ?_, ?_⟩
  · have h1 : w / ε < 2 ^ d := lt_of_le_of_lt (le_max_left _ _) hd
    have h2 := (div_lt_iff₀ hε).1 h1
    linarith
  · have h1 : h / ε < 2 ^ d := lt_of_le_of_lt (le_max_right _ _) hd
    have h2 := (div_lt_iff₀ hε).1 h1
    linarith

theorem coincident_le_one_of_pairwise (S : List Node) (m : Node)
    (h : S.Pairwise fun a b => ¬ (a.X = b.X ∧ a.Y = b.Y)) : coincident S m ≤ 1 := by
  unfold coincident
  induction S with
  | nil => simp
  | cons a S ih =>
    rw [List.pairwise_cons] at h
    by_cases ha : a.X = m.X ∧ a.Y = m.Y
    · have hzero : S.countP (fun x => decide (x.X = m.X ∧ x.Y = m.Y)) = 0 := by
        rw [List.countP_eq_zero]
        intro x hx hxm
        simp only [decide_eq_true_eq] at hxm
        exact h.1 x hx ⟨ha.1.trans hxm.1.symm, ha.2.trans hxm.2.symm⟩
      rw [List.countP_cons_of_pos _ _ (by simpa using ha), hzero]
    · rw [List.countP_cons_of_neg _ _ (by simpa using ha)]
      exact ih h.2

theorem insert_terminates_of_multiplicity {c : Int} {t : QuadTree} (hv : Valid c t) (n : Node)
    (hmult : ∀ m ∈ n :: t.leafNodes, (coincident (n :: t.leafNodes) m : Int) ≤ c) :
    ∃ fuel r, ∀ f, fuel ≤ f → t.insert f n = .ret r := by
  obtain ⟨ε, hε, hsep⟩ := exists_separation (n :: t.leafNodes)
  obtain ⟨d, hw, hh⟩ := exists_depth (t.Quadrant.XMax - t.Quadrant.XMin)
    (t.Quadrant.YMax - t.Quadrant.YMin) ε hε
  obtain ⟨fuel, r, hr⟩ := insert_terminates_bounded hsep hmult hε d t hv hw hh n
    (List.Subperm.refl _)
  exact ⟨fuel, r, fun f hf => insert_mono hf t n r hr⟩

/-- Claim C33.  Over exact rational coordinates, for every tree reachable from a fresh
leaf by returning inserts: `insert` of a node returns (with every recursion budget from
some bound on, always the same result) whenever, among the nodes already stored together
with the new node, no point carries more than `c` nodes, `c` the capacity; in particular
it returns when `c ≥ 1` and all these nodes have pairwise distinct coordinates.  Neither
the well-formedness of the root quadrant nor `c ≥ 1` is needed for the first statement
(a capacity below 1 admits no node at all under its hypothesis). -/
theorem insert_terminates_unless_overfull_point (level : Int) (quad : Quadrant) (c : Int)
    (t : QuadTree) (n : Node) (hreach : Reachable level quad c t) :
    ((∀ m ∈ n :: t.leafNodes, (coincident (n :: t.leafNodes) m : Int) ≤ c) →
      ∃ fuel r, ∀ f, fuel ≤ f → t.insert f n = .ret r) ∧
    (1 ≤ c → (n :: t.leafNodes).Pairwise (fun a b => ¬ (a.X = b.X ∧ a.Y = b.Y)) →
      ∃ fuel r, ∀ f, fuel ≤ f → t.insert f n = .ret r) := by
  have hv := (valid_of_reachable hreach).1
  refine ⟨insert_terminates_of_multiplicity hv n, fun hc hpw => ?_⟩
  refine insert_terminates_of_multiplicity hv n fun m _ => ?_
  have h1 := coincident_le_one_of_pairwise (n :: t.leafNodes) m hpw
  omega

theorem exTreeAB_exC_distinct :
    (exC :: exTreeAB.leafNodes).Pairwise (fun a b => ¬ (a.X = b.X ∧ a.Y = b.Y)) := by
  norm_num [leafNodes_eq, leafNodesOpt, exTreeAB, NewQuadTree, exC, exA, exB]

theorem exTreeAB_exC_multiplicity :
    ∀ m ∈ exC :: exTreeAB.leafNodes, (coincident (exC :: exTreeAB.leafNodes) m : Int) ≤ 1 := by
  intro m _
  have h1 := coincident_le_one_of_pairwise (exC :: exTreeAB.leafNodes) m exTreeAB_exC_distinct
  omega

/-- Witness for C33: the node `exC` inserted into `exTreeAB` (capacity 1), where it
meets `exA` in the south-west leaf and makes that leaf split. -/
theorem insert_terminates_unless_overfull_point_witness :
    Reachable 1 exQuad 1 exTreeAB ∧
    (∀ m ∈ exC :: exTreeAB.leafNodes,
      (coincident (exC :: exTreeAB.leafNodes) m : Int) ≤ 1) ∧
    (1 : Int) ≤ 1 ∧
    (exC :: exTreeAB.leafNodes).Pairwise (fun a b => ¬ (a.X = b.X ∧ a.Y = b.Y)) ∧
    (∃ fuel r, ∀ f, fuel ≤ f → exTreeAB.insert f exC = .ret r) ∧
    (∃ fuel r, ∀ f, fuel ≤ f → exTreeAB.insert f exC = .ret r) :=
  ⟨reachable_exTreeAB, exTreeAB_exC_multiplicity, le_refl _, exTreeAB_exC_distinct,
    (insert_terminates_unless_overfull_point 1 exQuad 1 exTreeAB exC reachable_exTreeAB).1
      exTreeAB_exC_multiplicity,
    (insert_terminates_unless_overfull_point 1 exQuad 1 exTreeAB exC reachable_exTreeAB).2
      (le_refl _) exTreeAB_exC_distinct⟩

end geostore

/-! ## The two child orders, and the geometry of `split` -/

namespace geostore

theorem insertFirst_first {c : Int} (fuel : Nat) (n : Node) (quad : Quadrant) :
    ∀ (order : List Slot) (q : QuadTree) (r : QuadTree × Bool),
      (∀ s ∈ order, ∃ k, q.child s = some k ∧ Valid c k ∧ k.Quadrant = quad.sub s) →
      QuadTree.insertFirst (QuadTree.insert fuel) n order q = .ret r →
      (quad.firstSlot order n = none ∧ r = (q, false)) ∨
      (∃ s k k', quad.firstSlot order n = some s ∧ q.child s = some k ∧
        k.insert fuel n = .ret (k', true) ∧ r = (q.setChild s k', true)) := by
  intro order
  induction order with
  | nil =>
    intro q r _ h
    simp only [QuadTree.insertFirst] at h
    cases h
    exact Or.inl ⟨rfl, rfl⟩
  | cons s rest ih =>
    intro q r hkids h
    obtain ⟨k, hk, hv, hquad⟩ := hkids s (List.mem_cons_self _ _)
    rw [QuadTree.insertFirst, hk] at h
    obtain ⟨r1, hr1, h2⟩ := Outcome.bind_eq_ret h
    obtain ⟨hflag, hsame, _⟩ := insert_spec c fuel k n r1 hv hr1
    by_cases hb : r1.2 = true
    · rw [if_pos hb] at h2
      cases h2
      refine Or.inr ⟨s, k, r1.1, ?_, hk, ?_, rfl⟩
      · have hin : (quad.sub s).inQuadrant n = true := by rw [← hquad, ← hflag, hb]
        simp [Quadrant.firstSlot, List.find?, hin]
      · rw [← hb]; exact hr1
    · rw [if_neg hb] at h2
      have hb' : r1.2 = false := by simpa using hb
      rw [hsame hb', setChild_self q s k hk] at h2
      have hout : (quad.sub s).inQuadrant n = false := by rw [← hquad, ← hflag, hb']
      have hfs : quad.firstSlot (s :: rest) n = quad.firstSlot rest n := by
        simp [Quadrant.firstSlot, List.find?, hout]
      rw [hfs]
      exact ih q r (fun s' hs' => hkids s' (List.mem_cons_of_mem _ hs')) h2

theorem child_leafNodes_setChild (q : QuadTree) (s t : Slot) (k : QuadTree) :
    (q.setChild s k).child t = if t = s then some k else q.child t := by
  by_cases h : t = s
  · subst h
    simp [child_setChild_same]
  · simp [h, child_setChild_other q s t k h]

theorem redistribute_places {c : Int} (fuel : Nat) :
    ∀ (ms : List Node) (Q Q' : QuadTree), KidsValid c Q →
      QuadTree.redistribute (QuadTree.insert fuel) ms Q = .ret Q' →
      KidsValid c Q' ∧ Q'.Quadrant = Q.Quadrant ∧ Q'.Level = Q.Level ∧
      ∀ s, ∃ k k', Q.child s = some k ∧ Q'.child s = some k' ∧
        k'.leafNodes.Perm
          (ms.filter (fun m => decide (Q.Quadrant.firstSlot QuadTree.qts m = some s)) ++
            k.leafNodes) := by
  intro ms
  induction ms with
  | nil =>
    intro Q Q' hQ h
    simp only [QuadTree.redistribute] at h
    cases h
    refine ⟨hQ, rfl, rfl, fun s => ?_⟩
    obtain ⟨_, kid, hkid⟩ := hQ
    exact ⟨kid s, kid s, (hkid s).1, (hkid s).1, by simp⟩
  | cons m rest ih =>
    intro Q Q' hQ h
    rw [QuadTree.redistribute] at h
    obtain ⟨r, hr, h2⟩ := Outcome.bind_eq_ret h
    have hQ0 := hQ
    obtain ⟨hsub, kid, hkid⟩ := hQ
    have hfirst := insertFirst_first (c := c) fuel m Q.Quadrant QuadTree.qts Q r
      (fun s _ => ⟨kid s, (hkid s).1, (hkid s).2.2.2, (hkid s).2.1⟩) hr
    rcases hfirst with ⟨hnone, hr0⟩ | ⟨s0, k0, k0', hsome, hk0, hins, hr0⟩
    · rw [hr0] at h2
      obtain ⟨hQ', hquad, hlvl, hplace⟩ := ih Q Q' hQ0 h2
      refine ⟨hQ', hquad, hlvl, fun s => ?_⟩
      obtain ⟨k, k', hk, hk', hperm⟩ := hplace s
      refine ⟨k, k', hk, hk', ?_⟩
      rw [List.filter_cons_of_neg (by simp [hnone])]
      exact hperm
    · rw [hr0] at h2
      have hok : InsertOK c k0 m (k0', true) :=
        insert_spec c fuel k0 m (k0', true) (by
          have := (hkid s0).1
          rw [hk0] at this
          cases this
          exact (hkid s0).2.2.2) hins
      have hQ1 : KidsValid c (Q.setChild s0 k0') := kidsValid_setChild hQ0 hk0 hok
      obtain ⟨hQ', hquad, hlvl, hplace⟩ := ih (Q.setChild s0 k0') Q' hQ1 h2
      have hq1 : (Q.setChild s0 k0').Quadrant = Q.Quadrant := (setChild_fields Q s0 k0').2.2.1
      refine ⟨hQ', hquad.trans hq1, hlvl.trans (setChild_fields Q s0 k0').2.2.2.1, fun s => ?_⟩
      obtain ⟨k, k', hk, hk', hperm⟩ := hplace s
      rw [hq1] at hperm
      rw [child_leafNodes_setChild] at hk
      by_cases hs : s = s0
      · subst hs
        rw [if_pos rfl] at hk
        cases hk
        refine ⟨k0, k', hk0, hk', ?_⟩
        rw [List.filter_cons_of_pos (by simp [hsome])]
        refine hperm.trans ?_
        exact (List.Perm.append_left _ (hok.2.2.2.2.2 rfl)).trans List.perm_middle
      · rw [if_neg hs] at hk
        refine ⟨k, k', hk, hk', ?_⟩
        rw [List.filter_cons_of_neg (by
          simp only [hsome, decide_eq_true_eq, Option.some.injEq]
          exact fun h => hs h.symm)]
        exact hperm

theorem kidsValid_fresh {c : Int} (q : QuadTree) (hcap : q.MaxCapacity = c) :
    KidsValid c
      { q with
        NW := some (NewQuadTree (q.Level + 1) (q.Quadrant.sub .NW) q.MaxCapacity)
        NE := some (NewQuadTree (q.Level + 1) (q.Quadrant.sub .NE) q.MaxCapacity)
        SW := some (NewQuadTree (q.Level + 1) (q.Quadrant.sub .SW) q.MaxCapacity)
        SE := some (NewQuadTree (q.Level + 1) (q.Quadrant.sub .SE) q.MaxCapacity)
        isSubdivided := true } := by
  refine ⟨rfl, fun s => NewQuadTree (q.Level + 1) (q.Quadrant.sub s) q.MaxCapacity,
    fun s => ⟨?_, rfl, rfl, ?_⟩⟩
  · cases s <;> rfl
  · rw [hcap]; exact valid_NewQuadTree _ _ _

theorem split_places {c : Int} (fuel : Nat) (q q' : QuadTree) (n : Node) (b : Bool)
    (hq : Valid c q) (h : q.split fuel n = .ret (q', b)) :
    q'.isSubdivided = true ∧ q'.Nodes = [] ∧ q'.Quadrant = q.Quadrant ∧ q'.Level = q.Level ∧
    ∀ s, ∃ k, q'.child s = some k ∧ Valid c k ∧ k.Quadrant = q.Quadrant.sub s ∧
      k.Level = q.Level + 1 ∧ k.MaxCapacity = q.MaxCapacity ∧
      k.leafNodes.Perm
        ((q.Nodes ++ [n]).filter fun m =>
          decide (q.Quadrant.firstSlot QuadTree.qts m = some s)) := by
  unfold QuadTree.split at h
  rw [splitWith_eq] at h
  obtain ⟨Q', hQ', h2⟩ := Outcome.bind_eq_ret h
  cases h2
  obtain ⟨hkv, hquad, hlvl, hplace⟩ := redistribute_places (c := c) fuel _ _ _
    (kidsValid_fresh q (valid_cap hq)) hQ'
  obtain ⟨hsub, kid, hkid⟩ := hkv
  refine ⟨hsub, rfl, hquad, hlvl, fun s => ?_⟩
  obtain ⟨k, k', hk, hk', hperm⟩ := hplace s
  obtain ⟨hks, hkq, hkl, hkv⟩ := hkid s
  rw [hk'] at hks
  cases hks
  have hfresh : k = NewQuadTree (q.Level + 1) (q.Quadrant.sub s) q.MaxCapacity := by
    cases s <;> simp only [QuadTree.child] at hk <;> cases hk <;> rfl
  rw [hfresh, leafNodes_NewQuadTree, List.append_nil] at hperm
  refine ⟨kid s, ?_, hkv, ?_, ?_, ?_, hperm⟩
  · cases s <;> exact hk'
  · rw [hkq, hquad]
  · rw [hkl, hlvl]
  · rw [valid_cap hkv, valid_cap hq]

end geostore

namespace geostore

theorem firstSlot_ne_none (quad : Quadrant) (n : Node) (order : List Slot)
    (hall : ∀ s, s ∈ order) (hin : quad.inQuadrant n = true) :
    quad.firstSlot order n ≠ none := by
  obtain ⟨s, hs⟩ := sub_cover quad n hin
  intro h
  have := List.find?_eq_none.1 h s (hall s)
  simp [hs] at this

theorem firstSlot_midline (quad : Quadrant) (n : Node) (hin : quad.inQuadrant n = true)
    (hx : n.X = quad.xOffset) (hy : n.Y < quad.yOffset) :
    quad.firstSlot [Slot.NW, Slot.NE, Slot.SW, Slot.SE] n = some Slot.SW ∧
    quad.firstSlot QuadTree.qts n = some Slot.SE := by
  rw [inQuadrant_iff] at hin
  obtain ⟨h1, h2, h3, h4⟩ := hin
  have hNW : (quad.sub .NW).inQuadrant n = false := by
    rw [← Bool.not_eq_true, inQuadrant_iff]
    simp only [Quadrant.sub, NewQuadrant_false]
    intro h
    linarith [h.2.2.1]
  have hNE : (quad.sub .NE).inQuadrant n = false := by
    rw [← Bool.not_eq_true, inQuadrant_iff]
    simp only [Quadrant.sub, NewQuadrant_false]
    intro h
    linarith [h.2.2.1]
  have hSW : (quad.sub .SW).inQuadrant n = true := by
    rw [inQuadrant_iff]
    simp only [Quadrant.sub, NewQuadrant_false]
    exact ⟨h1, hx.le, h3, hy.le⟩
  have hSE : (quad.sub .SE).inQuadrant n = true := by
    rw [inQuadrant_iff]
    simp only [Quadrant.sub, NewQuadrant_false]
    exact ⟨hx.ge, h2, h3, hy.le⟩
  constructor
  · simp [Quadrant.firstSlot, List.find?, hNW, hNE, hSW]
  · simp [Quadrant.firstSlot, QuadTree.qts, List.find?, hNW, hNE, hSE]

theorem insert_internal_first {c : Int} {q q' : QuadTree} {n : Node} {fuel : Nat} {b : Bool}
    (hq : Valid c q) (hsub : q.isSubdivided = true) (hin : q.Quadrant.inQuadrant n = true)
    (h : q.insert fuel n = .ret (q', b)) :
    ∃ s k k', q.Quadrant.firstSlot [Slot.NW, Slot.NE, Slot.SW, Slot.SE] n = some s ∧
      q.child s = some k ∧ (∃ f, k.insert f n = .ret (k', true)) ∧ q' = q.setChild s k' ∧
      b = true := by
  cases fuel with
  | zero => simp [QuadTree.insert] at h
  | succ fuel =>
    rw [QuadTree.insert] at h
    simp only [hin, Bool.not_true, Bool.false_eq_true, if_false, hsub, if_true] at h
    obtain ⟨r, hr, h2⟩ := Outcome.bind_eq_ret h
    cases h2
    obtain ⟨_, kid, hkid⟩ := kidsValid_of_valid hq hsub
    have hqt : q.QuadTrees = [Slot.NW, Slot.NE, Slot.SW, Slot.SE] := by
      simp [QuadTree.QuadTrees, hsub]
    rw [hqt] at hr
    have hfirst := insertFirst_first (c := c) fuel n q.Quadrant _ q r
      (fun s _ => ⟨kid s, (hkid s).1, (hkid s).2.2.2, (hkid s).2.1⟩) hr
    rcases hfirst with ⟨hnone, _⟩ | ⟨s, k, k', hsome, hk, hins, hr0⟩
    · exact absurd hnone (firstSlot_ne_none q.Quadrant n _
        (fun s => by cases s <;> simp) hin)
    · exact ⟨s, k, k', hsome, hk, ⟨fuel, hins⟩, by rw [hr0], rfl⟩

theorem valid_exMeridianTree : Valid 4 exMeridianTree :=
  (valid_of_reachable (reachable_of_insertSeq insertSeq_exMeridianTree Reachable.fresh)).1

theorem insert_exMeridianLate :
    exMeridianTree.insert 2 exMeridianLate =
      .ret (exMeridianTree.setChild .SW
        { exMeridianSW with Nodes := exMeridianSW.Nodes ++ [exMeridianLate] }, true) := by
  norm_num [QuadTree.insert, QuadTree.insertFirst, QuadTree.QuadTrees, QuadTree.child,
    QuadTree.setChild, Quadrant.inQuadrant, NewQuadTree, NewQuadrant, NewNode, GpsToAbsolute,
    exMeridianLate, exMeridianTree, exMeridianSW, globeRoot, Outcome.bind]

/-- Claim C31.  On a tree node `q` of a valid tree and a node `n` inside its quadrant:
a returning `insert(n)` into an internal `q` changes exactly one child, the first in
the order NW, NE, SW, SE whose quadrant contains `n`, by that child's own `insert(n)`;
a returning `split` hands every node of `q.Nodes` and `n` to the first child in the
order NW, NE, SE, SW whose quadrant contains it (each child ends up holding exactly the
nodes for which it is that first child); and for `n` on the vertical midline of `q`,
strictly below the horizontal midline, the first order picks SW and the second SE.  On
the tree `exMeridianTree` both happen: the split placed `exMeridian` in the SE leaf,
and a node with the same coordinates inserted afterwards goes to the SW leaf. -/
theorem insert_and_split_use_different_child_orders (c : Int) (q : QuadTree) (n : Node)
    (hq : Valid c q) (hin : q.Quadrant.inQuadrant n = true) :
    (q.isSubdivided = true → ∀ fuel q' b, q.insert fuel n = .ret (q', b) →
      ∃ s k k', q.Quadrant.firstSlot [Slot.NW, Slot.NE, Slot.SW, Slot.SE] n = some s ∧
        q.child s = some k ∧ (∃ f, k.insert f n = .ret (k', true)) ∧
        q' = q.setChild s k' ∧ (∀ t, t ≠ s → q'.child t = q.child t) ∧ b = true) ∧
    (q.isSubdivided = false → ∀ fuel q' b, q.split fuel n = .ret (q', b) →
      ∀ s, ∃ k, q'.child s = some k ∧
        k.leafNodes.Perm
          ((q.Nodes ++ [n]).filter fun m =>
            decide (q.Quadrant.firstSlot [Slot.NW, Slot.NE, Slot.SE, Slot.SW] m = some s))) ∧
    (n.X = q.Quadrant.xOffset → n.Y < q.Quadrant.yOffset →
      q.Quadrant.firstSlot [Slot.NW, Slot.NE, Slot.SW, Slot.SE] n = some Slot.SW ∧
      q.Quadrant.firstSlot [Slot.NW, Slot.NE, Slot.SE, Slot.SW] n = some Slot.SE) ∧
    ((∃ se, exMeridianTree.SE = some se ∧ exMeridian ∈ se.Nodes) ∧
      exMeridianLate.X = exMeridian.X ∧ exMeridianLate.Y = exMeridian.Y ∧
      exMeridianTree.insert 2 exMeridianLate =
        .ret (exMeridianTree.setChild .SW
          { exMeridianSW with Nodes := exMeridianSW.Nodes ++ [exMeridianLate] }, true)) := by
  refine ⟨fun hsub fuel q' b h => ?_, fun _ fuel q' b h s => ?_, fun hx hy => ?_, ?_, rfl, rfl,
    insert_exMeridianLate⟩
  · obtain ⟨s, k, k', h1, h2, h3, h4, h5⟩ := insert_internal_first hq hsub hin h
    refine ⟨s, k, k', h1, h2, h3, h4, fun t ht => ?_, h5⟩
    rw [h4, child_setChild_other q s t k' ht]
  · obtain ⟨_, _, _, _, hkids⟩ := split_places fuel q q' n b hq h
    obtain ⟨k, hk, _, _, _, _, hperm⟩ := hkids s
    exact ⟨k, hk, hperm⟩
  · exact firstSlot_midline q.Quadrant n hin hx hy
  · refine ⟨_, rfl, ?_⟩
    norm_num [exMeridian, NewQuadTree, NewNode, GpsToAbsolute]

/-- Witness for C31: the subdivided globe root `exMeridianTree` and a node at longitude
0, latitude -45. -/
theorem insert_and_split_use_different_child_orders_witness :
    Valid 4 exMeridianTree ∧ exMeridianTree.Quadrant.inQuadrant exMeridianLate = true ∧
    exMeridianLate.X = exMeridianTree.Quadrant.xOffset ∧
    exMeridianLate.Y < exMeridianTree.Quadrant.yOffset ∧
    exMeridianTree.Quadrant.firstSlot [Slot.NW, Slot.NE, Slot.SW, Slot.SE] exMeridianLate
      = some Slot.SW ∧
    exMeridianTree.Quadrant.firstSlot [Slot.NW, Slot.NE, Slot.SE, Slot.SW] exMeridianLate
      = some Slot.SE :=
  have h1 : exMeridianTree.Quadrant.inQuadrant exMeridianLate = true := by
    norm_num [Quadrant.inQuadrant, exMeridianTree, exMeridianLate, globeRoot, NewQuadTree,
      NewQuadrant, NewNode, GpsToAbsolute]
  have h2 : exMeridianLate.X = exMeridianTree.Quadrant.xOffset := by
    norm_num [Quadrant.xOffset, exMeridianTree, exMeridianLate, globeRoot, NewQuadTree,
      NewQuadrant, NewNode, GpsToAbsolute]
  have h3 : exMeridianLate.Y < exMeridianTree.Quadrant.yOffset := by
    norm_num [Quadrant.yOffset, exMeridianTree, exMeridianLate, globeRoot, NewQuadTree,
      NewQuadrant, NewNode, GpsToAbsolute]
  ⟨valid_exMeridianTree, h1, h2, h3,
    (insert_and_split_use_different_child_orders 4 exMeridianTree exMeridianLate
      valid_exMeridianTree h1).2.2.1 h2 h3⟩

theorem valid_exLeafA : Valid 1 exLeafA :=
  (valid_of_reachable (Reachable.step _ _ 1 exA true Reachable.fresh insert_exA)).1

/-- Claim C32.  When a leaf `q` of a valid tree of capacity `c` splits, its four
children get, with `xMid = XMin + (XMax - XMin)/2` and `yMid = YMin + (YMax - YMin)/2`,
the quadrants NW = `[XMin,xMid] x [yMid,YMax]`, NE = `[xMid,XMax] x [yMid,YMax]`,
SW = `[XMin,xMid] x [YMin,yMid]`, SE = `[xMid,XMax] x [YMin,yMid]`, each with the level
of `q` plus one and the capacity `c`; every point of the quadrant of `q` lies in one of
the four (a quadrant that holds a point is well-formed); so a node accepted by an
internal tree node lies in the quadrant of one of its children, whose `insert` accepts
it whenever it returns. -/
theorem split_children_cover_parent (c : Int) (q : QuadTree) (hq : Valid c q) :
    (q.isSubdivided = false → ∀ fuel n q' b, q.split fuel n = .ret (q', b) →
      ∃ nw ne sw se, q'.NW = some nw ∧ q'.NE = some ne ∧ q'.SW = some sw ∧ q'.SE = some se ∧
        nw.Quadrant = Quadrant.mk q.Quadrant.XMin
          (q.Quadrant.YMin + (q.Quadrant.YMax - q.Quadrant.YMin) / 2)
          (q.Quadrant.XMin + (q.Quadrant.XMax - q.Quadrant.XMin) / 2) q.Quadrant.YMax ∧
        ne.Quadrant = Quadrant.mk (q.Quadrant.XMin + (q.Quadrant.XMax - q.Quadrant.XMin) / 2)
          (q.Quadrant.YMin + (q.Quadrant.YMax - q.Quadrant.YMin) / 2)
          q.Quadrant.XMax q.Quadrant.YMax ∧
        sw.Quadrant = Quadrant.mk q.Quadrant.XMin q.Quadrant.YMin
          (q.Quadrant.XMin + (q.Quadrant.XMax - q.Quadrant.XMin) / 2)
          (q.Quadrant.YMin + (q.Quadrant.YMax - q.Quadrant.YMin) / 2) ∧
        se.Quadrant = Quadrant.mk (q.Quadrant.XMin + (q.Quadrant.XMax - q.Quadrant.XMin) / 2)
          q.Quadrant.YMin q.Quadrant.XMax
          (q.Quadrant.YMin + (q.Quadrant.YMax - q.Quadrant.YMin) / 2) ∧
        ∀ k ∈ [nw, ne, sw, se], k.Level = q.Level + 1 ∧ k.MaxCapacity = c) ∧
    (∀ n, q.Quadrant.inQuadrant n = true →
      (q.Quadrant.XMin ≤ q.Quadrant.XMax ∧ q.Quadrant.YMin ≤ q.Quadrant.YMax) ∧
      ∃ s, (q.Quadrant.sub s).inQuadrant n = true) ∧
    (q.isSubdivided = true → ∀ n, q.Quadrant.inQuadrant n = true →
      ∃ s k, q.child s = some k ∧ k.Quadrant.inQuadrant n = true ∧
        ∀ fuel r, k.insert fuel n = .ret r → r.2 = true) := by
  refine ⟨fun _ fuel n q' b h => ?_, fun n hn => ?_, fun hsub n hn => ?_⟩
  · obtain ⟨_, _, _, _, hkids⟩ := split_places fuel q q' n b hq h
    obtain ⟨nw, h1, _, q1, l1, c1, _⟩ := hkids .NW
    obtain ⟨ne, h2, _, q2, l2, c2, _⟩ := hkids .NE
    obtain ⟨sw, h3, _, q3, l3, c3, _⟩ := hkids .SW
    obtain ⟨se, h4, _, q4, l4, c4, _⟩ := hkids .SE
    have hc := valid_cap hq
    refine ⟨nw, ne, sw, se, h1, h2, h3, h4, q1, q2, q3, q4, ?_⟩
    intro k hk
    simp only [List.mem_cons, List.mem_singleton, List.not_mem_nil, or_false] at hk
    rcases hk with rfl | rfl | rfl | rfl
    · exact ⟨l1, c1.trans hc⟩
    · exact ⟨l2, c2.trans hc⟩
    · exact ⟨l3, c3.trans hc⟩
    · exact ⟨l4, c4.trans hc⟩
  · refine ⟨?_, sub_cover q.Quadrant n hn⟩
    rw [inQuadrant_iff] at hn
    exact ⟨hn.1.trans hn.2.1, hn.2.2.1.trans hn.2.2.2⟩
  · obtain ⟨s, hs⟩ := sub_cover q.Quadrant n hn
    obtain ⟨_, kid, hkid⟩ := kidsValid_of_valid hq hsub
    obtain ⟨hk, hquad, _, hv⟩ := hkid s
    refine ⟨s, kid s, hk, by rw [hquad]; exact hs, fun fuel r hr => ?_⟩
    rw [(insert_spec c fuel (kid s) n r hv hr).1, hquad]
    exact hs

/-- Witness for C32: the capacity-1 leaf holding `exA`, which `exB` makes split. -/
theorem split_children_cover_parent_witness :
    Valid 1 exLeafA ∧ exLeafA.isSubdivided = false ∧
    exLeafA.split 1 exB = .ret (exTreeAB, true) ∧
    ∃ nw ne sw se, exTreeAB.NW = some nw ∧ exTreeAB.NE = some ne ∧ exTreeAB.SW = some sw ∧
      exTreeAB.SE = some se ∧
      nw.Quadrant = Quadrant.mk exLeafA.Quadrant.XMin
        (exLeafA.Quadrant.YMin + (exLeafA.Quadrant.YMax - exLeafA.Quadrant.YMin) / 2)
        (exLeafA.Quadrant.XMin + (exLeafA.Quadrant.XMax - exLeafA.Quadrant.XMin) / 2)
        exLeafA.Quadrant.YMax ∧
      ne.Quadrant = Quadrant.mk
        (exLeafA.Quadrant.XMin + (exLeafA.Quadrant.XMax - exLeafA.Quadrant.XMin) / 2)
        (exLeafA.Quadrant.YMin + (exLeafA.Quadrant.YMax - exLeafA.Quadrant.YMin) / 2)
        exLeafA.Quadrant.XMax exLeafA.Quadrant.YMax ∧
      sw.Quadrant = Quadrant.mk exLeafA.Quadrant.XMin exLeafA.Quadrant.YMin
        (exLeafA.Quadrant.XMin + (exLeafA.Quadrant.XMax - exLeafA.Quadrant.XMin) / 2)
        (exLeafA.Quadrant.YMin + (exLeafA.Quadrant.YMax - exLeafA.Quadrant.YMin) / 2) ∧
      se.Quadrant = Quadrant.mk
        (exLeafA.Quadrant.XMin + (exLeafA.Quadrant.XMax - exLeafA.Quadrant.XMin) / 2)
        exLeafA.Quadrant.YMin exLeafA.Quadrant.XMax
        (exLeafA.Quadrant.YMin + (exLeafA.Quadrant.YMax - exLeafA.Quadrant.YMin) / 2) ∧
      ∀ k ∈ [nw, ne, sw, se], k.Level = exLeafA.Level + 1 ∧ k.MaxCapacity = 1 :=
  have hsplit : exLeafA.split 1 exB = .ret (exTreeAB, true) := by
    norm_num [QuadTree.split, QuadTree.insert, QuadTree.splitWith, QuadTree.redistribute,
      QuadTree.insertFirst, QuadTree.qts, QuadTree.child, QuadTree.setChild,
      Quadrant.inQuadrant, NewQuadTree, NewQuadrant, exQuad, exA, exB, exLeafA, exTreeAB,
      Outcome.bind]
  ⟨valid_exLeafA, rfl, hsplit,
    (split_children_cover_parent 1 exLeafA valid_exLeafA).1 rfl 1 exB exTreeAB true hsplit⟩

/-! ## Quadrants along a path -/

theorem sub_wellFormed (q : Quadrant) (s : Slot) (h : q.WellFormed) :
    (q.sub s).WellFormed ∧ (q.sub s).Within q := by
  obtain ⟨hx, hy⟩ := h
  cases s <;>
    simp only [Quadrant.WellFormed, Quadrant.Within, Quadrant.sub, NewQuadrant_false,
      Quadrant.xOffset, Quadrant.yOffset] <;>
    refine ⟨⟨?_, ?_⟩, ?_, ?_, ?_, ?_⟩ <;> linarith

theorem wellFormed_at {c : Int} : ∀ (path : List Slot) (q k : QuadTree),
    Valid c q → q.Quadrant.WellFormed → q.at? path = some k → k.Quadrant.WellFormed := by
  intro path
  induction path with
  | nil =>
    intro q k _ hwf hk
    simp only [QuadTree.at?, Option.some.injEq] at hk
    exact hk ▸ hwf
  | cons s rest ih =>
    intro q k hq hwf hk
    rw [QuadTree.at?] at hk
    cases hc : q.child s with
    | none => rw [hc] at hk; cases hk
    | some kid =>
      rw [hc] at hk
      obtain ⟨_, _, hv, hquad, _⟩ := valid_child hq hc
      exact ih kid k hv (hquad ▸ (sub_wellFormed q.Quadrant s hwf).1) hk

/-- Claim C34.  In every tree reachable from a fresh leaf with a well-formed root
quadrant by returning inserts, at every tree node `k` (given by its path from the
root): the quadrant of `k` is well-formed, every node in `k.Nodes` lies inside the
quadrant of `k` (an internal tree node holds none), and the quadrant of every child of
`k` is well-formed and contained in the quadrant of `k`. -/
theorem stored_nodes_inside_nested_quadrants (level : Int) (quad : Quadrant) (c : Int)
    (t : QuadTree) (hwf : quad.WellFormed) (hreach : Reachable level quad c t)
    (path : List Slot) (k : QuadTree) (hk : t.at? path = some k) :
    k.Quadrant.WellFormed ∧
    (∀ n ∈ k.Nodes, k.Quadrant.inQuadrant n = true) ∧
    (∀ s kid, k.child s = some kid →
      kid.Quadrant.WellFormed ∧ kid.Quadrant.Within k.Quadrant) := by
  obtain ⟨hv, hquad, _⟩ := valid_of_reachable hreach
  have hkv : Valid c k := valid_at path t k hv hk
  have hkwf : k.Quadrant.WellFormed := wellFormed_at path t k hv (hquad ▸ hwf) hk
  have hnodes : ∀ n ∈ k.Nodes, k.Quadrant.inQuadrant n = true := by
    cases hkv with
    | leaf _ _ _ _ hin _ => exact hin
    | node _ _ _ _ _ _ _ hnodes _ => rw [hnodes]; simp
  refine ⟨hkwf, hnodes, fun s kid hkid => ?_⟩
  obtain ⟨_, _, _, hq, _⟩ := valid_child hkv hkid
  rw [hq]
  exact sub_wellFormed k.Quadrant s hkwf

/-- Witness for C34: the root of `exTreeAB` (the empty path) with its four children. -/
theorem stored_nodes_inside_nested_quadrants_witness :
    exQuad.WellFormed ∧ Reachable 1 exQuad 1 exTreeAB ∧
    exTreeAB.at? [] = some exTreeAB ∧
    exTreeAB.Quadrant.WellFormed ∧
    (∀ n ∈ exTreeAB.Nodes, exTreeAB.Quadrant.inQuadrant n = true) ∧
    (∀ s kid, exTreeAB.child s = some kid →
      kid.Quadrant.WellFormed ∧ kid.Quadrant.Within exTreeAB.Quadrant) :=
  have hwf : exQuad.WellFormed := by
    norm_num [Quadrant.WellFormed, exQuad]
  ⟨hwf, reachable_exTreeAB, rfl,
    stored_nodes_inside_nested_quadrants 1 exQuad 1 exTreeAB hwf reachable_exTreeAB []
      exTreeAB rfl⟩

end geostore

/-! ## `Create` and points outside the spatial index -/

namespace geostore

theorem FindNearest_ids_stored {c : Int} (g : InMemGeoStore) (hv : Valid c g.Root)
    (fuel : Nat) (lat long maxDistance : ℚ) (limit : Int) (ids : List Nat)
    (h : g.FindNearest fuel lat long maxDistance limit = .ret ids) :
    ∀ id ∈ ids, ∃ n ∈ g.Root.leafNodes, n.Id = id := by
  unfold InMemGeoStore.FindNearest at h
  simp only at h
  obtain ⟨found, hfound, h2⟩ := Outcome.bind_eq_ret h
  cases found with
  | none => simp at h2
  | some L =>
    simp only [Outcome.ret.injEq] at h2
    subst h2
    by_cases hin : g.Root.Quadrant.inQuadrant (NewNode long lat 1) = true
    · obtain ⟨path, L0, hloc⟩ := locates_exists hv (NewNode long lat 1) hin
      obtain ⟨hat, hleaf, _⟩ := locates_at hloc
      have h1 := findLoop_locates hloc (max fuel (path.length + 1)) (le_max_right _ _)
      have h2 := findLoop_mono (le_max_left fuel (path.length + 1)) _ _ _ hfound
      rw [h1] at h2
      simp only [Outcome.ret.injEq, Option.some.injEq] at h2
      subst h2
      intro id hid
      obtain ⟨n, hn, rfl⟩ := List.mem_map.1 hid
      exact ⟨n, leaf_nodes_subset path g.Root L0 hv hat hleaf n hn, rfl⟩
    · cases fuel with
      | zero => simp [findQuadTree, findLoop] at hfound
      | succ fuel =>
        rw [findQuadTree, findLoop_outside hv _ (by simpa using hin) fuel] at hfound
        cases hfound

end geostore

namespace model

theorem resolve_mem (s : InMemCacheStore) :
    ∀ (ids : List Nat) (cs : List Cache), s.resolve ids = .ret cs →
      ∀ x ∈ cs, ∃ id ∈ ids, ∃ p, s.caches.get id = some p ∧ x = copyCache (s.deref p) := by
  intro ids
  induction ids with
  | nil =>
    intro cs h x hx
    simp only [InMemCacheStore.resolve, Outcome.ret.injEq] at h
    subst h
    cases hx
  | cons id rest ih =>
    intro cs h x hx
    rw [InMemCacheStore.resolve] at h
    cases hp : s.caches.get id with
    | none => rw [hp] at h; cases h
    | some p =>
      rw [hp] at h
      obtain ⟨cs', hcs', h2⟩ := Outcome.bind_eq_ret h
      simp only [Outcome.ret.injEq] at h2
      subst h2
      rcases List.mem_cons.1 hx with rfl | hx'
      · exact ⟨id, List.mem_cons_self _ _, p, hp, rfl⟩
      · obtain ⟨id', hid', p', hp', hx''⟩ := ih cs' hcs' x hx'
        exact ⟨id', List.mem_cons_of_mem _ hid', p', hp', hx''⟩

theorem ran_exPile4 : Ran globeStore 4 (exPile 4) :=
  Ran.create 3 _ _ 1 "a" 0 0 [] 4 none
    (Ran.create 2 _ _ 1 "a" 0 0 [] 3 none
      (Ran.create 1 _ _ 1 "a" 0 0 [] 2 none
        (Ran.create 0 _ _ 1 "a" 0 0 [] 1 none (exPile_zero ▸ Ran.fresh) Create_exPile1)
        Create_exPile2)
      Create_exPile3)
    Create_exPile4

/-- Claim C35 fails in its first part: `Create` does not return for every input.  On
the store holding four records at latitude 0, longitude 0 (bound to the whole globe
with capacity 4), `Create("b", 0, 0, ["x"])` returns within no recursion budget: the
spatial insert it calls splits at every depth. -/
theorem Create_on_full_point_returns_nothing :
    Ran globeStore 4 (exPile 4) ∧
    (∀ fuel, (exPile 4).Create fuel "b" 0 0 ["x"] = Outcome.outOfFuel) ∧
    (∀ fuel r, (exPile 4).Create fuel "b" 0 0 ["x"] ≠ Outcome.ret r) := by
  have hdiv : ∀ fuel, (exPile 4).Create fuel "b" 0 0 ["x"] = Outcome.outOfFuel := by
    intro fuel
    have h := geostore.insert_full_coincident_diverges fuel (exPile 4).geostore.Root
      (geostore.NewNode 0 0 5) rfl
      (by norm_num [exPile, geostore.globeRoot, geostore.NewQuadTree])
      (by norm_num [exPile, geostore.globeRoot, geostore.NewQuadTree, geostore.NewQuadrant,
        geostore.NewNode, geostore.GpsToAbsolute, geostore.Quadrant.inQuadrant])
      (by
        intro x hx
        simp only [exPile, List.mem_map, List.mem_range] at hx
        obtain ⟨i, _, rfl⟩ := hx
        norm_num [geostore.NewNode, geostore.GpsToAbsolute])
    have hc : (exPile 4).sCounter = 5 := rfl
    simp only [InMemCacheStore.Create, geostore.InMemGeoStore.Insert, hc, h, Outcome.bind]
  refine ⟨ran_exPile4, hdiv, fun fuel r => ?_⟩
  rw [hdiv fuel]
  simp

/-- Claim C35, amended.  On a store built from a fresh store (bound to a fresh spatial
index on the quadrant `quad`) by `k < 2^64 - 1` returned `Create`s and any `Update`s:
`Create` checks no coordinate range and has no error to return; it returns exactly when
the spatial insert it calls returns, and then with a nil error and the id `k + 1`, and
`GetById` of that id and `GetByName` of the name return the new record.  When the
translated point `(long + 180, lat + 90)` lies outside `quad`, `Create` does return
(with every budget from 1 on), the spatial index is left as it was, and no returning
`FindNearest` query lists a record with the new id. -/
theorem Create_returns_nil_error_and_ignores_range (level : Int) (quad : geostore.Quadrant)
    (c : Int) (k : Nat) (s : InMemCacheStore) (name : String) (lat long : ℚ)
    (tags : List String)
    (h : Ran (geostore.NewGeoStoreInMem (geostore.NewQuadTree level quad c)) k s)
    (hk : k + 1 < 2 ^ 64) :
    (∀ fuel s' id err, s.Create fuel name lat long tags = .ret (s', id, err) →
      err = none ∧ id = k + 1 ∧
      s'.GetById id = (Cache.mk (k + 1) name lat long (some s.heapTags.length), none) ∧
      s'.GetByName name = (Cache.mk (k + 1) name lat long (some s.heapTags.length), none)) ∧
    (∀ fuel, (∃ r, s.Create fuel name lat long tags = .ret r) ↔
      ∃ g, s.geostore.Insert fuel (geostore.NewNode long lat (k + 1)) = .ret g) ∧
    (quad.inQuadrant (geostore.NewNode long lat (k + 1)) = false →
      ∀ fuel, ∃ s', s.Create (fuel + 1) name lat long tags = .ret (s', k + 1, none) ∧
        s'.geostore = s.geostore ∧
        ∀ fuel' lat' long' maxDistance limit cs err,
          s'.FindNearest fuel' lat' long' maxDistance limit = .ret (cs, err) →
          ∀ x ∈ cs, x.Id ≠ k + 1) := by
  obtain ⟨hcnt, hlen, hids, hcaches, _, _⟩ := ran_inv h
  have hcnt' : s.sCounter = k + 1 := by rw [hcnt, Nat.mod_eq_of_lt hk]
  obtain ⟨hreach, hgeo⟩ := ran_geo_inv rfl h
  obtain ⟨hv, hquad, _⟩ := geostore.valid_of_reachable hreach
  have hret : ∀ fuel s' id err, s.Create fuel name lat long tags = .ret (s', id, err) →
      err = none ∧ id = k + 1 ∧
      s'.GetById id = (Cache.mk (k + 1) name lat long (some s.heapTags.length), none) ∧
      s'.GetByName name = (Cache.mk (k + 1) name lat long (some s.heapTags.length), none) := by
    intro fuel s' id err hc
    obtain ⟨hid, herr, _, hheap, hcs, _, hbn, _, _⟩ := Create_eq_ret hc
    have hderef : s'.deref s.heapCaches.length =
        Cache.mk (k + 1) name lat long (some s.heapTags.length) := by
      simp [InMemCacheStore.deref, hheap, hcnt']
    refine ⟨herr, by rw [hid, hcnt'], ?_, ?_⟩
    · rw [hid]
      simp only [InMemCacheStore.GetById, hcs, GoMap.get_set_same, hderef, copyCache_eq]
    · simp only [InMemCacheStore.GetByName, hbn, GoMap.get_set_same, hderef, copyCache_eq]
  refine ⟨hret, fun fuel => ⟨?_, ?_⟩, fun hout fuel => ?_⟩
  · rintro ⟨⟨s', id, err⟩, hc⟩
    exact ⟨s'.geostore, hcnt' ▸ (Create_eq_ret hc).2.2.2.2.2.2.2.2⟩
  · rintro ⟨g, hg⟩
    exact ⟨_, Create_of_insert (hcnt'.symm ▸ hg)⟩
  · have hins : s.geostore.Insert (fuel + 1) (geostore.NewNode long lat s.sCounter)
        = .ret s.geostore := by
      rw [hcnt']
      simp only [geostore.InMemGeoStore.Insert]
      rw [geostore.insert_outside fuel s.geostore.Root _ (by rw [hquad]; exact hout)]
      rfl
    have hc := @Create_of_insert (fuel + 1) s name lat long tags s.geostore hins
    rw [hcnt'] at hc
    refine ⟨_, hc, rfl, ?_⟩
    intro fuel' lat' long' maxDistance limit cs err hfn x hx
    have hran' := Ran.create k s _ (fuel + 1) name lat long tags (k + 1) none h hc
    obtain ⟨_, _, _, hcaches', _, _⟩ := ran_inv hran'
    unfold InMemCacheStore.FindNearest at hfn
    obtain ⟨ids, hids', h2⟩ := Outcome.bind_eq_ret hfn
    obtain ⟨retval, hres, h3⟩ := Outcome.bind_eq_ret h2
    simp only [Outcome.ret.injEq, Prod.mk.injEq] at h3
    obtain ⟨rfl, _⟩ := h3
    obtain ⟨id, hid, p, hp, rfl⟩ := resolve_mem _ ids retval hres x hx
    obtain ⟨n, hn, hnid⟩ := geostore.FindNearest_ids_stored (c := c) s.geostore hv fuel' lat'
      long' maxDistance limit ids hids' id hid
    obtain ⟨p0, hp0⟩ := hgeo n hn
    obtain ⟨hp0k, hp0id⟩ := hcaches n.Id p0 hp0
    have hmod := hids p0 hp0k
    rw [Nat.mod_eq_of_lt (by omega)] at hmod
    rw [copyCache_eq, (hcaches' id p hp).2, ← hnid, ← hp0id, hmod]
    omega

theorem ran_exStore1 : Ran globeStore 1 exStore1 :=
  Ran.create 0 _ _ 1 "s1" 0 0 ["ocean", "atlantic"] 1 none Ran.fresh Create_exStore1

/-- Witness for C35: `Create("far", 100, 0, nil)` on `exStore1`; latitude 100 is
translated to 190, above the globe. -/
theorem Create_returns_nil_error_and_ignores_range_witness :
    Ran (geostore.NewGeoStoreInMem
      (geostore.NewQuadTree 1 (geostore.NewQuadrant (-180) (-90) 180 90 true) 4)) 1 exStore1 ∧
    1 + 1 < 2 ^ 64 ∧
    (geostore.NewQuadrant (-180) (-90) 180 90 true).inQuadrant (geostore.NewNode 0 100 (1 + 1))
      = false ∧
    ∀ fuel, ∃ s', exStore1.Create (fuel + 1) "far" 100 0 [] = .ret (s', 1 + 1, none) ∧
      s'.geostore = exStore1.geostore ∧
      ∀ fuel' lat' long' maxDistance limit cs err,
        s'.FindNearest fuel' lat' long' maxDistance limit = .ret (cs, err) →
        ∀ x ∈ cs, x.Id ≠ 1 + 1 :=
  have hout : (geostore.NewQuadrant (-180) (-90) 180 90 true).inQuadrant
      (geostore.NewNode 0 100 (1 + 1)) = false := by
    norm_num [geostore.Quadrant.inQuadrant, geostore.NewQuadrant, geostore.NewNode,
      geostore.GpsToAbsolute]
  ⟨ran_exStore1, by norm_num, hout,
    (Create_returns_nil_error_and_ignores_range 1
      (geostore.NewQuadrant (-180) (-90) 180 90 true) 4 1 exStore1 "far" 100 0 []
      ran_exStore1 (by norm_num)).2.2 hout⟩

end model

/-! ## Containment on IEEE 754 values -/

namespace geostore.ieee

theorem decide_lt_eq (a b : ℚ) : decide (a < b) = !decide (b ≤ a) := by
  by_cases h : b ≤ a
  · simp [h, not_lt.2 h]
  · simp [h, not_le.1 h]

theorem lt_eq_not_le (a b : F64) (ha : a.isNaN = false) (hb : b.isNaN = false) :
    F64.lt a b = !F64.le b a := by
  cases a <;> cases b <;> simp [F64.lt, F64.le, F64.isNaN, decide_lt_eq] at ha hb ⊢

theorem le_self (a : F64) (ha : a.isNaN = false) : F64.le a a = true := by
  cases a <;> simp [F64.le, F64.isNaN] at ha ⊢

theorem lt_nan_left (b : F64) : F64.lt .nan b = false := by
  cases b <;> rfl

theorem lt_nan_right (a : F64) : F64.lt a .nan = false := by
  cases a <;> rfl

theorem inQuadrant_eq (q : Quadrant) (n : Node) :
    q.inQuadrant n =
      (!F64.lt n.X q.XMin && !F64.gt n.X q.XMax && !F64.lt n.Y q.YMin && !F64.gt n.Y q.YMax) := by
  unfold Quadrant.inQuadrant
  cases F64.lt n.X q.XMin <;> cases F64.gt n.X q.XMax <;> cases F64.lt n.Y q.YMin <;>
    cases F64.gt n.Y q.YMax <;> rfl

theorem inQuadrant_eq_withinBounds (q : Quadrant) (n : Node)
    (hn : n.X.isNaN = false ∧ n.Y.isNaN = false)
    (hq : q.XMin.isNaN = false ∧ q.YMin.isNaN = false ∧ q.XMax.isNaN = false ∧
      q.YMax.isNaN = false) :
    q.inQuadrant n = q.withinBounds n := by
  rw [inQuadrant_eq]
  unfold Quadrant.withinBounds F64.gt
  rw [lt_eq_not_le _ _ hn.1 hq.1, lt_eq_not_le _ _ hq.2.2.1 hn.1, lt_eq_not_le _ _ hn.2 hq.2.1,
    lt_eq_not_le _ _ hq.2.2.2 hn.2]
  simp only [Bool.not_not]

/-- Claim C23 fails on a NaN coordinate: for the node `exNaN`, whose `X` is NaN, every
comparison of `inQuadrant` on `X` is false, so `inQuadrant` returns true on the globe
quadrant although neither `q.XMin <= n.X` nor `n.X <= q.XMax` holds. -/
theorem inQuadrant_accepts_NaN_coordinate :
    exGlobe.inQuadrant exNaN = true ∧ exGlobe.withinBounds exNaN = false ∧
    F64.le exGlobe.XMin exNaN.X = false ∧ F64.le exNaN.X exGlobe.XMax = false := by
  refine ⟨?_, ?_, rfl, rfl⟩ <;> norm_num [Quadrant.inQuadrant, Quadrant.withinBounds, exGlobe,
    exNaN, F64.lt, F64.gt, F64.le]

/-- Claim C23, amended.  For every quadrant `q` and node `n` none of whose coordinates
and bounds is NaN, `q.inQuadrant(n)` is true if and only if `q.XMin <= n.X <= q.XMax`
and `q.YMin <= n.Y <= q.YMax`, all four edges inclusive: a node on the line of an edge
is inside exactly when it lies between the ends of that edge, and the four corners are
inside as soon as `XMin <= XMax` and `YMin <= YMax`.  In general `inQuadrant` is false
exactly when one of its four strict comparisons holds, so a NaN coordinate passes the
test on its axis whatever the bounds.  On finite values the test is the one of the
rational model used elsewhere. -/
theorem inQuadrant_iff_within_bounds_unless_NaN (q : Quadrant) (n : Node)
    (hn : n.X.isNaN = false ∧ n.Y.isNaN = false)
    (hq : q.XMin.isNaN = false ∧ q.YMin.isNaN = false ∧ q.XMax.isNaN = false ∧
      q.YMax.isNaN = false) :
    (q.inQuadrant n = true ↔
      F64.le q.XMin n.X = true ∧ F64.le n.X q.XMax = true ∧
      F64.le q.YMin n.Y = true ∧ F64.le n.Y q.YMax = true) ∧
    (q.inQuadrant { n with X := q.XMin } = true ↔
      F64.le q.XMin q.XMax = true ∧ F64.le q.YMin n.Y = true ∧ F64.le n.Y q.YMax = true) ∧
    (q.inQuadrant { n with X := q.XMax } = true ↔
      F64.le q.XMin q.XMax = true ∧ F64.le q.YMin n.Y = true ∧ F64.le n.Y q.YMax = true) ∧
    (q.inQuadrant { n with Y := q.YMin } = true ↔
      F64.le q.XMin n.X = true ∧ F64.le n.X q.XMax = true ∧ F64.le q.YMin q.YMax = true) ∧
    (q.inQuadrant { n with Y := q.YMax } = true ↔
      F64.le q.XMin n.X = true ∧ F64.le n.X q.XMax = true ∧ F64.le q.YMin q.YMax = true) ∧
    ((q.inQuadrant { n with X := q.XMin, Y := q.YMin } = true ∧
        q.inQuadrant { n with X := q.XMin, Y := q.YMax } = true ∧
        q.inQuadrant { n with X := q.XMax, Y := q.YMin } = true ∧
        q.inQuadrant { n with X := q.XMax, Y := q.YMax } = true) ↔
      F64.le q.XMin q.XMax = true ∧ F64.le q.YMin q.YMax = true) ∧
    (q.inQuadrant n = false ↔
      F64.lt n.X q.XMin = true ∨ F64.gt n.X q.XMax = true ∨
      F64.lt n.Y q.YMin = true ∨ F64.gt n.Y q.YMax = true) ∧
    (q.inQuadrant { n with X := .nan } = (!F64.lt n.Y q.YMin && !F64.gt n.Y q.YMax)) ∧
    (q.inQuadrant { n with Y := .nan } = (!F64.lt n.X q.XMin && !F64.gt n.X q.XMax)) ∧
    (∀ id, q.inQuadrant { X := .nan, Y := .nan, Id := id } = true) ∧
    (∀ (q0 : geostore.Quadrant) (n0 : geostore.Node),
      (ofQuadrant q0).inQuadrant (ofNode n0) = q0.inQuadrant n0) := by
  obtain ⟨hq1, hq2, hq3, hq4⟩ := hq
  have hXm := le_self q.XMin hq1
  have hXM := le_self q.XMax hq3
  have hYm := le_self q.YMin hq2
  have hYM := le_self q.YMax hq4
  refine ⟨?_, ?_, ?_, ?_, ?_, ?_, ?_, ?_, ?_, ?_, ?_⟩
  · rw [inQuadrant_eq_withinBounds q n hn ⟨hq1, hq2, hq3, hq4⟩]
    simp [Quadrant.withinBounds, and_assoc]
  · rw [inQuadrant_eq_withinBounds q { n with X := q.XMin } ⟨hq1, hn.2⟩ ⟨hq1, hq2, hq3, hq4⟩]
    simp [Quadrant.withinBounds, and_assoc, hXm]
  · rw [inQuadrant_eq_withinBounds q { n with X := q.XMax } ⟨hq3, hn.2⟩ ⟨hq1, hq2, hq3, hq4⟩]
    simp [Quadrant.withinBounds, and_assoc, hXM]
  · rw [inQuadrant_eq_withinBounds q { n with Y := q.YMin } ⟨hn.1, hq2⟩ ⟨hq1, hq2, hq3, hq4⟩]
    simp [Quadrant.withinBounds, and_assoc, hYm]
  · rw [inQuadrant_eq_withinBounds q { n with Y := q.YMax } ⟨hn.1, hq4⟩ ⟨hq1, hq2, hq3, hq4⟩]
    simp [Quadrant.withinBounds, and_assoc, hYM]
  · rw [inQuadrant_eq_withinBounds q { n with X := q.XMin, Y := q.YMin } ⟨hq1, hq2⟩
        ⟨hq1, hq2, hq3, hq4⟩,
      inQuadrant_eq_withinBounds q { n with X := q.XMin, Y := q.YMax } ⟨hq1, hq4⟩
        ⟨hq1, hq2, hq3, hq4⟩,
      inQuadrant_eq_withinBounds q { n with X := q.XMax, Y := q.YMin } ⟨hq3, hq2⟩
        ⟨hq1, hq2, hq3, hq4⟩,
      inQuadrant_eq_withinBounds q { n with X := q.XMax, Y := q.YMax } ⟨hq3, hq4⟩
        ⟨hq1, hq2, hq3, hq4⟩]
    simp only [Quadrant.withinBounds, hXm, hXM, hYm, hYM, Bool.and_true, Bool.true_and,
      Bool.and_eq_true]
    tauto
  · rw [inQuadrant_eq]
    cases F64.lt n.X q.XMin <;> cases F64.gt n.X q.XMax <;> cases F64.lt n.Y q.YMin <;>
      cases F64.gt n.Y q.YMax <;> simp
  · rw [inQuadrant_eq]
    simp [F64.gt, lt_nan_left, lt_nan_right]
  · rw [inQuadrant_eq]
    simp [F64.gt, lt_nan_left, lt_nan_right]
  · intro id
    rw [inQuadrant_eq]
    simp [F64.gt, lt_nan_left, lt_nan_right]
  · intro q0 n0
    simp only [Quadrant.inQuadrant, geostore.Quadrant.inQuadrant, ofQuadrant, ofNode, F64.lt,
      F64.gt]
    by_cases h1 : n0.X < q0.XMin <;> by_cases h2 : n0.X > q0.XMax <;>
      by_cases h3 : n0.Y < q0.YMin <;> by_cases h4 : n0.Y > q0.YMax <;>
      simp [h1, h2, h3, h4]

/-- Witness for C23: the south-west corner of the globe quadrant. -/
theorem inQuadrant_iff_within_bounds_unless_NaN_witness :
    (exCorner.X.isNaN = false ∧ exCorner.Y.isNaN = false) ∧
    (exGlobe.XMin.isNaN = false ∧ exGlobe.YMin.isNaN = false ∧ exGlobe.XMax.isNaN = false ∧
      exGlobe.YMax.isNaN = false) ∧
    (exGlobe.inQuadrant exCorner = true ↔
      F64.le exGlobe.XMin exCorner.X = true ∧ F64.le exCorner.X exGlobe.XMax = true ∧
      F64.le exGlobe.YMin exCorner.Y = true ∧ F64.le exCorner.Y exGlobe.YMax = true) ∧
    exGlobe.inQuadrant exCorner = true :=
  have h := inQuadrant_iff_within_bounds_unless_NaN exGlobe exCorner ⟨rfl, rfl⟩
    ⟨rfl, rfl, rfl, rfl⟩
  ⟨⟨rfl, rfl⟩, ⟨rfl, rfl, rfl, rfl⟩, h.1,
    h.1.2 (by simp [exGlobe, exCorner, F64.le])⟩

end geostore.ieee
